import Mathlib

set_option maxRecDepth 4000

/-!
# Verification of the twofloat double-word arithmetic core

This development shallowly embeds the double-word (double-double) arithmetic
kernel and transcendental layer of `include/libtwofloat/arithmetics/
double-word-arithmetic.hpp` into Lean 4 and proves or refutes the frozen
claims about it.

Modelling conventions:

* A native binary floating-point value of precision `p` (53 for `double`,
  24 for `float`) is modelled as a rational number that is a fixed point of
  the round-to-nearest-even rounding function `roundP p`.  The exponent
  range is unbounded (no overflow / underflow / subnormals), the standard
  idealization for reasoning about these algorithms away from range limits.
* Each C++ floating-point operation `a ⊕ b` is modelled as
  `roundP p (a + b)` and so on; `std::floor` is exact on representables and
  is modelled by the exact floor; a `static_cast<int>` of an integral value
  is modelled as the corresponding integer.
* The error-free-transformation primitives (`TwoSum`, `FastTwoSum`,
  `TwoProd`, `Fast2Prod`, `fma`, `Split`) live in `libtwofloat/algorithms.hpp`
  which is not among the sources under verification; they are modelled
  from the spec by their documented contracts (see the doc comments below).
* The two components of a double-word are kept as plain rationals; a
  returned pair of quiet NaNs (the library's only error signal) is modelled
  by `Option.none` on the operations that can produce it.
-/

namespace TwoFloat

/-- Bit-length of a natural number, one bit per fuel step; used only on
arguments below `2^32` so 32 units of fuel suffice. -/
def nbitsLin : ℕ → ℕ → ℕ
  | 0, _ => 0
  | fuel+1, n => if n = 0 then 0 else nbitsLin fuel (n / 2) + 1

/-- Chunked bit-length worker: strips 32 bits per fuel step so that kernel
reduction stays shallow even on numbers with thousands of bits. -/
def nbitsAux : ℕ → ℕ → ℕ
  | 0, _ => 0
  | fuel+1, n => if n < 2^32 then nbitsLin 32 n else 32 + nbitsAux fuel (n / 2^32)

/-- Number of binary digits of a natural number: `nbits 0 = 0` and
`2^(nbits n - 1) ≤ n < 2^(nbits n)` for `n ≠ 0`. -/
def nbits (n : ℕ) : ℕ := nbitsAux n n

/-- `2^e` as a rational, for an integer exponent, computed through natural
powers so that kernel evaluation is cheap. -/
def pow2 (e : ℤ) : ℚ :=
  if 0 ≤ e then ((2^e.toNat : ℕ) : ℚ) else 1 / ((2^(-e).toNat : ℕ) : ℚ)

/-- `⌊log₂ |q|⌋` for a nonzero rational, computed from the bit lengths of
numerator and denominator. -/
def qlog (q : ℚ) : ℤ :=
  let a := q.num.natAbs
  let b := q.den
  let c : ℤ := (nbits a : ℤ) - (nbits b : ℤ)
  if 0 ≤ c then (if b * 2^c.toNat ≤ a then c else c - 1)
  else (if b ≤ a * 2^(-c).toNat then c else c - 1)

/-- Round a rational to the nearest integer, ties to even
(the IEEE-754 default rounding used by all native operations). -/
def rhe (q : ℚ) : ℤ :=
  let n : ℤ := ⌊q⌋
  let f : ℚ := q - n
  if f < 1/2 then n
  else if 1/2 < f then n + 1
  else if Even n then n else n + 1

/-- Round-to-nearest-even at precision `p` bits, unbounded exponent range.
For `q ≠ 0` the result is `m * 2^e` with `2^(p-1) ≤ |m| ≤ 2^p`. -/
def roundP (p : ℕ) (q : ℚ) : ℚ :=
  if q = 0 then 0
  else (rhe (q / pow2 (qlog q - (p - 1 : ℤ))) : ℚ) * pow2 (qlog q - (p - 1 : ℤ))

/-- Rounding for the `double` instantiation (53-bit significand). -/
def fl (q : ℚ) : ℚ := roundP 53 q

/-- A rational is representable at precision `p` iff rounding fixes it. -/
def isRep (p : ℕ) (q : ℚ) : Prop := roundP p q = q

instance (p : ℕ) (q : ℚ) : Decidable (isRep p q) := by
  unfold isRep; infer_instance

/-- Unit in the last place of a `double`: `2 ^ (⌊log₂ |h|⌋ - 52)`, the
spacing of representables in `|h|`'s binade; `ulp 0 = 0`. -/
def ulp (h : ℚ) : ℚ :=
  if h = 0 then 0 else pow2 (qlog h - 52)

/-! ## Basic facts about the rounding model -/

theorem pow2_eq_zpow (e : ℤ) : pow2 e = (2 : ℚ) ^ e := by
  unfold pow2
  by_cases h : 0 ≤ e
  · simp only [h, if_true]
    push_cast
    rw [← zpow_natCast]
    congr 1
    omega
  · simp only [h, if_false]
    push_cast
    rw [← zpow_natCast, one_div, ← zpow_neg]
    congr 1
    omega

theorem pow2_pos (e : ℤ) : 0 < pow2 e := by
  rw [pow2_eq_zpow]; positivity

theorem nbitsLin_zero (fuel : ℕ) : nbitsLin fuel 0 = 0 := by
  cases fuel <;> simp [nbitsLin]

theorem nbitsLin_spec (fuel : ℕ) : ∀ n, n ≠ 0 → n < 2^fuel →
    1 ≤ nbitsLin fuel n ∧ 2^(nbitsLin fuel n - 1) ≤ n ∧ n < 2^(nbitsLin fuel n) := by
  induction fuel with
  | zero => intro n hn hlt; omega
  | succ f ih =>
    intro n hn hlt
    simp only [nbitsLin, hn, if_false]
    by_cases h1 : n / 2 = 0
    · have hn1 : n = 1 := by omega
      rw [h1, nbitsLin_zero]
      subst hn1
      norm_num
    · have hlt2 : n / 2 < 2^f := by
        have h2 : n < 2^f * 2 := by rw [← pow_succ]; omega
        omega
      obtain ⟨hp, hlo, hhi⟩ := ih (n / 2) h1 hlt2
      refine ⟨by omega, ?_, ?_⟩
      · have : 2^(nbitsLin f (n/2) - 1) * 2 ≤ (n / 2) * 2 := by omega
        calc 2^(nbitsLin f (n/2) + 1 - 1) = 2^(nbitsLin f (n/2) - 1) * 2 := by
              rw [← pow_succ]; congr 1; omega
        _ ≤ (n / 2) * 2 := this
        _ ≤ n := by omega
      · calc n ≤ (n / 2) * 2 + 1 := by omega
        _ < 2^(nbitsLin f (n/2)) * 2 := by omega
        _ = 2^(nbitsLin f (n/2) + 1) := by rw [pow_succ]

theorem nbitsAux_spec (fuel : ℕ) : ∀ n, n ≠ 0 → n < 2^(32*fuel) →
    1 ≤ nbitsAux fuel n ∧ 2^(nbitsAux fuel n - 1) ≤ n ∧ n < 2^(nbitsAux fuel n) := by
  induction fuel with
  | zero => intro n hn hlt; omega
  | succ f ih =>
    intro n hn hlt
    simp only [nbitsAux]
    split_ifs with h
    · exact nbitsLin_spec 32 n hn h
    · push_neg at h
      have hq : n / 2^32 ≠ 0 := by
        have := Nat.div_pos h (by norm_num : 0 < 2^32)
        omega
      have hq2 : n / 2^32 < 2^(32*f) := by
        rw [Nat.div_lt_iff_lt_mul (by norm_num : 0 < 2^32)]
        calc n < 2^(32*(f+1)) := hlt
        _ = 2^(32*f) * 2^32 := by rw [← pow_add]; ring_nf
      obtain ⟨hk, h1, h2⟩ := ih (n / 2^32) hq hq2
      have hdm : 2^32 * (n / 2^32) + n % 2^32 = n := Nat.div_add_mod n (2^32)
      have hmod : n % 2^32 < 2^32 := Nat.mod_lt n (by norm_num)
      refine ⟨by omega, ?_, ?_⟩
      · calc 2^(32 + nbitsAux f (n/2^32) - 1) = 2^(nbitsAux f (n/2^32) - 1) * 2^32 := by
              rw [← pow_add]; congr 1; omega
        _ ≤ (n / 2^32) * 2^32 := Nat.mul_le_mul_right _ h1
        _ ≤ n := by omega
      · calc n < (n / 2^32 + 1) * 2^32 := by omega
        _ ≤ 2^(nbitsAux f (n/2^32)) * 2^32 := Nat.mul_le_mul_right _ h2
        _ = 2^(32 + nbitsAux f (n/2^32)) := by rw [← pow_add]; ring_nf

theorem nbits_spec (n : ℕ) (hn : n ≠ 0) :
    2^(nbits n - 1) ≤ n ∧ n < 2^(nbits n) := by
  refine ((nbitsAux_spec n n hn ?_).2)
  calc n < 2^n := Nat.lt_two_pow n
  _ ≤ 2^(32*n) := Nat.pow_le_pow_right (by norm_num) (by omega)

theorem nbits_pos (n : ℕ) (hn : n ≠ 0) : 1 ≤ nbits n := by
  refine ((nbitsAux_spec n n hn ?_).1)
  calc n < 2^n := Nat.lt_two_pow n
  _ ≤ 2^(32*n) := Nat.pow_le_pow_right (by norm_num) (by omega)

theorem abs_rat_eq (q : ℚ) : |q| = (q.num.natAbs : ℚ) / (q.den : ℚ) := by
  rw [← Rat.num_div_den q, abs_div]
  rw [Rat.num_div_den q]
  congr 1
  · rw [Int.cast_natAbs, Int.cast_abs]
  · exact abs_of_pos (by exact_mod_cast q.den_pos)

theorem qlog_branch (q : ℚ) (hq : q ≠ 0) :
    qlog q =
      (if pow2 ((nbits q.num.natAbs : ℤ) - (nbits q.den : ℤ)) ≤ |q|
       then (nbits q.num.natAbs : ℤ) - (nbits q.den : ℤ)
       else (nbits q.num.natAbs : ℤ) - (nbits q.den : ℤ) - 1) := by
  have hden : (0:ℚ) < (q.den : ℚ) := by exact_mod_cast q.den_pos
  unfold qlog
  set a := q.num.natAbs with hadef
  set b := q.den with hbdef
  set c : ℤ := (nbits a : ℤ) - (nbits b : ℤ) with hcdef
  have habs : |q| = (a : ℚ) / (b : ℚ) := abs_rat_eq q
  by_cases hc : 0 ≤ c
  · simp only [hc, if_true]
    have heq : (b * 2^c.toNat ≤ a) ↔ (pow2 c ≤ |q|) := by
      rw [habs, le_div_iff hden, pow2_eq_zpow]
      rw [show ((2:ℚ))^c = ((2^c.toNat : ℕ) : ℚ) by
        push_cast
        rw [← zpow_natCast]
        congr 1
        omega]
      rw [mul_comm]
      exact_mod_cast Iff.rfl
    by_cases hcond : b * 2^c.toNat ≤ a
    · simp only [hcond, if_true, heq.mp hcond, if_true]
    · simp only [hcond, if_false]
      rw [if_neg (by rw [← heq]; exact hcond)]
  · simp only [hc, if_false]
    have heq : (b ≤ a * 2^(-c).toNat) ↔ (pow2 c ≤ |q|) := by
      rw [habs, le_div_iff hden, pow2_eq_zpow]
      have h2 : ((2:ℚ))^c * (b:ℚ) ≤ (a:ℚ) ↔ (b:ℚ) ≤ (a:ℚ) * 2^(-c).toNat := by
        rw [show ((2:ℚ))^c = 1 / ((2^(-c).toNat : ℕ) : ℚ) by
          push_cast
          rw [← zpow_natCast, one_div, ← zpow_neg]
          congr 1
          omega]
        rw [div_mul_eq_mul_div, one_mul, div_le_iff (by positivity)]
        push_cast
        exact Iff.rfl
      rw [h2]
      exact_mod_cast Iff.rfl
    by_cases hcond : b ≤ a * 2^(-c).toNat
    · simp only [hcond, if_true, heq.mp hcond, if_true]
    · simp only [hcond, if_false]
      rw [if_neg (by rw [← heq]; exact hcond)]

theorem qlog_spec (q : ℚ) (hq : q ≠ 0) :
    pow2 (qlog q) ≤ |q| ∧ |q| < pow2 (qlog q + 1) := by
  have hden : (0:ℚ) < (q.den : ℚ) := by exact_mod_cast q.den_pos
  have hanz : q.num.natAbs ≠ 0 := by
    simp only [ne_eq, Int.natAbs_eq_zero]
    exact Rat.num_ne_zero.mpr hq
  have hbnz : q.den ≠ 0 := q.den_nz
  obtain ⟨ha1, ha2⟩ := nbits_spec q.num.natAbs hanz
  obtain ⟨hb1, hb2⟩ := nbits_spec q.den hbnz
  set a := q.num.natAbs with hadef
  set b := q.den with hbdef
  set α := nbits a with hαdef
  set β := nbits b with hβdef
  have hα1 : 1 ≤ α := nbits_pos a hanz
  have hβ1 : 1 ≤ β := nbits_pos b hbnz
  set c : ℤ := (α : ℤ) - (β : ℤ) with hcdef
  have habs : |q| = (a : ℚ) / (b : ℚ) := abs_rat_eq q
  -- real-valued versions of the nbits brackets
  have hqa1 : (2:ℚ)^((α:ℤ) - 1) ≤ (a:ℚ) := by
    have := ha1
    calc (2:ℚ)^((α:ℤ) - 1) = ((2^(α - 1) : ℕ) : ℚ) := by
          push_cast
          rw [← zpow_natCast]
          congr 1
          omega
    _ ≤ (a:ℚ) := by exact_mod_cast this
  have hqa2 : (a:ℚ) < (2:ℚ)^(α:ℤ) := by
    have := ha2
    calc (a:ℚ) < ((2^α : ℕ) : ℚ) := by exact_mod_cast this
    _ = (2:ℚ)^(α:ℤ) := by push_cast; rw [← zpow_natCast]
  have hqb1 : (2:ℚ)^((β:ℤ) - 1) ≤ (b:ℚ) := by
    have := hb1
    calc (2:ℚ)^((β:ℤ) - 1) = ((2^(β - 1) : ℕ) : ℚ) := by
          push_cast
          rw [← zpow_natCast]
          congr 1
          omega
    _ ≤ (b:ℚ) := by exact_mod_cast this
  have hqb2 : (b:ℚ) < (2:ℚ)^(β:ℤ) := by
    have := hb2
    calc (b:ℚ) < ((2^β : ℕ) : ℚ) := by exact_mod_cast this
    _ = (2:ℚ)^(β:ℤ) := by push_cast; rw [← zpow_natCast]
  -- bracketing of |q| within two binades of c
  have hup : |q| < (2:ℚ)^(c + 1) := by
    rw [habs, div_lt_iff hden]
    calc (a:ℚ) < (2:ℚ)^(α:ℤ) := hqa2
    _ = (2:ℚ)^(c+1) * (2:ℚ)^((β:ℤ)-1) := by
          rw [← zpow_add₀ (by norm_num : (2:ℚ) ≠ 0)]
          congr 1
          omega
    _ ≤ (2:ℚ)^(c+1) * (b:ℚ) := by
          have h2 : (0:ℚ) < (2:ℚ)^(c+1) := by positivity
          nlinarith [hqb1]
  have hlo : (2:ℚ)^(c - 1) ≤ |q| := by
    rw [habs, le_div_iff hden]
    calc (2:ℚ)^(c-1) * (b:ℚ) ≤ (2:ℚ)^(c-1) * (2:ℚ)^(β:ℤ) := by
          have h2 : (0:ℚ) < (2:ℚ)^(c-1) := by positivity
          nlinarith [hqb2]
    _ = (2:ℚ)^((α:ℤ) - 1) := by
          rw [← zpow_add₀ (by norm_num : (2:ℚ) ≠ 0)]
          congr 1
          omega
    _ ≤ (a:ℚ) := hqa1
  rw [qlog_branch q hq]
  split_ifs with hcond
  · refine ⟨hcond, ?_⟩
    rw [pow2_eq_zpow]
    exact hup
  · push_neg at hcond
    refine ⟨by rw [pow2_eq_zpow]; exact hlo, ?_⟩
    calc |q| < pow2 c := hcond
    _ = pow2 (c - 1 + 1) := by congr 1; omega

theorem pow2_add (a b : ℤ) : pow2 (a + b) = pow2 a * pow2 b := by
  rw [pow2_eq_zpow, pow2_eq_zpow, pow2_eq_zpow]
  exact zpow_add₀ (by norm_num) a b

theorem pow2_mono {a b : ℤ} (h : a ≤ b) : pow2 a ≤ pow2 b := by
  rw [pow2_eq_zpow, pow2_eq_zpow]
  exact zpow_le_zpow_right₀ (by norm_num) h

theorem pow2_lt_pow2 {a b : ℤ} (h : a < b) : pow2 a < pow2 b := by
  rw [pow2_eq_zpow, pow2_eq_zpow]
  exact zpow_lt_zpow_right₀ (by norm_num) h

theorem qlog_eq_of {q : ℚ} {L : ℤ} (h1 : pow2 L ≤ |q|) (h2 : |q| < pow2 (L+1)) :
    qlog q = L := by
  have hq : q ≠ 0 := by
    intro h
    rw [h] at h1
    simp only [abs_zero] at h1
    exact absurd h1 (not_le.mpr (pow2_pos L))
  obtain ⟨hs1, hs2⟩ := qlog_spec q hq
  by_contra hne
  rcases lt_or_gt_of_ne hne with hlt | hgt
  · have : pow2 (qlog q + 1) ≤ pow2 L := pow2_mono (by omega)
    linarith
  · have : pow2 (L + 1) ≤ pow2 (qlog q) := pow2_mono (by omega)
    linarith

theorem le_qlog {q : ℚ} {k : ℤ} (hq : q ≠ 0) (h : pow2 k ≤ |q|) : k ≤ qlog q := by
  obtain ⟨hs1, hs2⟩ := qlog_spec q hq
  by_contra hc
  push_neg at hc
  have : pow2 (qlog q + 1) ≤ pow2 k := pow2_mono (by omega)
  linarith

theorem rhe_sub_le (q : ℚ) : |((rhe q : ℚ)) - q| ≤ 1/2 := by
  unfold rhe
  have hfl : (⌊q⌋ : ℚ) ≤ q := Int.floor_le q
  have hfl2 : q < (⌊q⌋ : ℚ) + 1 := Int.lt_floor_add_one q
  by_cases h1 : q - (⌊q⌋ : ℚ) < 1/2
  · simp only [h1, if_true]
    rw [abs_le]
    constructor <;> linarith
  · simp only [h1, if_false]
    by_cases h2 : (1:ℚ)/2 < q - (⌊q⌋ : ℚ)
    · simp only [h2, if_true]
      push_cast
      rw [abs_le]
      constructor <;> linarith
    · simp only [h2, if_false]
      by_cases h3 : Even ⌊q⌋
      · simp only [h3, if_true]
        rw [abs_le]
        constructor <;> linarith
      · simp only [h3, if_false]
        push_cast
        rw [abs_le]
        constructor <;> linarith

theorem rhe_intCast (n : ℤ) : rhe (n : ℚ) = n := by
  unfold rhe
  simp

/-- The absolute rounding error is at most half the spacing of the
rounding grid in the argument's binade. -/
theorem roundP_sub_le_pow2 (p : ℕ) (q : ℚ) (hq : q ≠ 0) :
    |roundP p q - q| ≤ pow2 (qlog q - p) := by
  unfold roundP
  rw [if_neg hq]
  have hgrid : (0:ℚ) < pow2 (qlog q - (p - 1 : ℤ)) := pow2_pos _
  set e : ℤ := qlog q - (p - 1 : ℤ) with hedef
  have hkey : |((rhe (q / pow2 e) : ℚ)) - q / pow2 e| ≤ 1/2 := rhe_sub_le _
  have hsplit : ((rhe (q / pow2 e) : ℚ)) * pow2 e - q
      = (((rhe (q / pow2 e) : ℚ)) - q / pow2 e) * pow2 e := by
    field_simp
  rw [hsplit, abs_mul, abs_of_pos hgrid]
  calc |((rhe (q / pow2 e) : ℚ)) - q / pow2 e| * pow2 e ≤ (1/2) * pow2 e := by
        exact mul_le_mul_of_nonneg_right hkey (le_of_lt hgrid)
  _ = pow2 (qlog q - p) := by
        rw [show (qlog q - p : ℤ) = (-1) + e by omega, pow2_add]
        have h12 : pow2 (-1 : ℤ) = 1/2 := by norm_num [pow2]
        rw [h12]

/-- Relative error bound of rounding: `|roundP p q - q| ≤ |q| · 2^(-p)`. -/
theorem roundP_sub_abs_le (p : ℕ) (q : ℚ) :
    |roundP p q - q| ≤ |q| * pow2 (-(p:ℤ)) := by
  by_cases hq : q = 0
  · subst hq
    simp [roundP]
  · calc |roundP p q - q| ≤ pow2 (qlog q - p) := roundP_sub_le_pow2 p q hq
    _ ≤ pow2 (qlog q) * pow2 (-(p:ℤ)) := by
        rw [← pow2_add]
        exact pow2_mono (by omega)
    _ ≤ |q| * pow2 (-(p:ℤ)) := by
        have := (qlog_spec q hq).1
        have h2 : (0:ℚ) < pow2 (-(p:ℤ)) := pow2_pos _
        nlinarith

/-- The rounded value stays at or above the bottom of the argument's binade
(for a positive precision). -/
theorem roundP_abs_ge_binade (p : ℕ) (hp : 1 ≤ p) (q : ℚ) (hq : q ≠ 0) :
    pow2 (qlog q) ≤ |roundP p q| := by
  have h1 : pow2 (qlog q) ≤ |q| := (qlog_spec q hq).1
  -- the rounded mantissa is an integer of magnitude at least 2^(p-1)
  unfold roundP
  rw [if_neg hq]
  set e : ℤ := qlog q - (p - 1 : ℤ) with hedef
  set m : ℤ := rhe (q / pow2 e) with hmdef
  have hgrid : (0:ℚ) < pow2 e := pow2_pos _
  have hx : pow2 (p - 1 : ℤ) ≤ |q / pow2 e| := by
    rw [abs_div, abs_of_pos hgrid, le_div_iff hgrid, ← pow2_add]
    calc pow2 (p - 1 + e : ℤ) = pow2 (qlog q) := by congr 1; omega
    _ ≤ |q| := h1
  have hm : ((2:ℚ))^(p-1) ≤ |(m:ℚ)| := by
    have hrr : |((m:ℚ)) - q / pow2 e| ≤ 1/2 := rhe_sub_le _
    have hpow : ((2:ℚ))^(p-1) = pow2 (p - 1 : ℤ) := by
      rw [pow2_eq_zpow, ← zpow_natCast]
      congr 1
      omega
    have hone : (1:ℚ) ≤ pow2 (p - 1 : ℤ) := by
      have := pow2_mono (show (0:ℤ) ≤ p - 1 by omega)
      simpa [pow2] using this
    -- |m| ≥ |x| - 1/2 ≥ pow2 (p-1) - 1/2, and m is an integer, so |m| ≥ pow2 (p-1)
    have habs : |(m:ℚ)| ≥ pow2 (p - 1 : ℤ) - 1/2 := by
      have := abs_sub_abs_le_abs_sub ((m:ℚ)) (q / pow2 e)
      have h3 := abs_sub_comm ((m:ℚ)) (q / pow2 e)
      linarith [hx, hrr, abs_sub_abs_le_abs_sub (q / pow2 e) ((m:ℚ))]
    -- integrality step
    have hint : ((2:ℕ))^(p-1) ≤ m.natAbs := by
      by_contra hc
      push_neg at hc
      have hle : (m.natAbs : ℚ) ≤ ((2:ℕ))^(p-1) - 1 := by
        have : m.natAbs ≤ 2^(p-1) - 1 := by
          have hpos : 1 ≤ 2^(p-1) := Nat.one_le_two_pow
          omega
        calc (m.natAbs : ℚ) ≤ ((2^(p-1) - 1 : ℕ) : ℚ) := by exact_mod_cast this
        _ = ((2:ℕ))^(p-1) - 1 := by
              have hpos : 1 ≤ 2^(p-1) := Nat.one_le_two_pow
              push_cast [hpos]
              ring
      have hcast : |(m:ℚ)| = (m.natAbs : ℚ) := by
        rw [Int.cast_natAbs, Int.cast_abs]
      have hq2 : ((2:ℚ))^(p-1) = ((2:ℕ))^(p-1) := by push_cast; ring
      rw [hcast] at habs
      rw [← hpow] at habs
      rw [hq2] at habs
      linarith
    calc ((2:ℚ))^(p-1) = (((2:ℕ))^(p-1) : ℕ) := by push_cast; ring
    _ ≤ (m.natAbs : ℚ) := by exact_mod_cast hint
    _ = |(m:ℚ)| := by rw [Int.cast_natAbs, Int.cast_abs]
  calc pow2 (qlog q) = pow2 (p - 1 : ℤ) * pow2 e := by rw [← pow2_add]; congr 1; omega
  _ ≤ |(m:ℚ)| * pow2 e := by
      have hpow : ((2:ℚ))^(p-1) = pow2 (p - 1 : ℤ) := by
        rw [pow2_eq_zpow, ← zpow_natCast]
        congr 1
        omega
      rw [← hpow]
      exact mul_le_mul_of_nonneg_right hm (le_of_lt hgrid)
  _ = |(m:ℚ) * pow2 e| := by rw [abs_mul, abs_of_pos hgrid]

theorem roundP_pos (p : ℕ) (hp : 1 ≤ p) (q : ℚ) (hq : 0 < q) : 0 < roundP p q := by
  have hne : q ≠ 0 := ne_of_gt hq
  unfold roundP
  rw [if_neg hne]
  set e : ℤ := qlog q - (p - 1 : ℤ) with hedef
  have hgrid : (0:ℚ) < pow2 e := pow2_pos _
  have hx : (1:ℚ) ≤ q / pow2 e := by
    rw [le_div_iff hgrid]
    have h1 : pow2 (qlog q) ≤ |q| := (qlog_spec q hne).1
    rw [abs_of_pos hq] at h1
    calc (1:ℚ) * pow2 e = pow2 e := one_mul _
    _ ≤ pow2 (qlog q) := pow2_mono (by omega)
    _ ≤ q := h1
  have hr := rhe_sub_le (q / pow2 e)
  have : (0:ℚ) < (rhe (q / pow2 e) : ℚ) := by
    rw [abs_le] at hr
    linarith
  positivity

theorem roundP_neg_of_neg (p : ℕ) (hp : 1 ≤ p) (q : ℚ) (hq : q < 0) :
    roundP p q < 0 := by
  have hne : q ≠ 0 := ne_of_lt hq
  unfold roundP
  rw [if_neg hne]
  set e : ℤ := qlog q - (p - 1 : ℤ) with hedef
  have hgrid : (0:ℚ) < pow2 e := pow2_pos _
  have hx : q / pow2 e ≤ -1 := by
    rw [div_le_iff hgrid]
    have h1 : pow2 (qlog q) ≤ |q| := (qlog_spec q hne).1
    rw [abs_of_neg hq] at h1
    have h2 : pow2 e ≤ pow2 (qlog q) := pow2_mono (by omega)
    linarith
  have hr := rhe_sub_le (q / pow2 e)
  have hneg : (rhe (q / pow2 e) : ℚ) < 0 := by
    rw [abs_le] at hr
    linarith
  exact mul_neg_of_neg_of_pos hneg hgrid

theorem roundP_eq_zero_iff (p : ℕ) (hp : 1 ≤ p) (q : ℚ) :
    roundP p q = 0 ↔ q = 0 := by
  constructor
  · intro h
    by_contra hne
    rcases lt_trichotomy q 0 with hlt | heq | hgt
    · exact absurd h (ne_of_lt (roundP_neg_of_neg p hp q hlt))
    · exact hne heq
    · exact absurd h (ne_of_gt (roundP_pos p hp q hgt))
  · intro h
    subst h
    simp [roundP]

theorem qlog_neg_arg (q : ℚ) (hq : q ≠ 0) : qlog (-q) = qlog q := by
  have h := qlog_spec q hq
  apply qlog_eq_of (by rw [abs_neg]; exact h.1) (by rw [abs_neg]; exact h.2)

theorem pow2_natCast (p : ℕ) : pow2 (p:ℤ) = ((2^p : ℕ) : ℚ) := by
  rw [pow2_eq_zpow]
  push_cast
  rw [← zpow_natCast]

theorem abs_cast_natAbs (m : ℤ) : |(m:ℚ)| = (m.natAbs : ℚ) := by
  rw [Int.cast_natAbs, Int.cast_abs]

theorem intAbs_le_of_cast_lt {m : ℤ} {k : ℕ} (h : |(m:ℚ)| < ((k:ℕ):ℚ) + 1) :
    |m| ≤ (k:ℤ) := by
  rw [abs_cast_natAbs] at h
  have hnat : m.natAbs < k + 1 := by exact_mod_cast h
  calc |m| = (m.natAbs : ℤ) := Int.abs_eq_natAbs _
  _ ≤ (k:ℤ) := by exact_mod_cast Nat.lt_succ_iff.mp hnat

/-- The rounded mantissa has magnitude at most `2^p`. -/
theorem rhe_mantissa_le (p : ℕ) (q : ℚ) (hq : q ≠ 0) :
    |rhe (q / pow2 (qlog q - (p - 1 : ℤ)))| ≤ 2^p := by
  set e : ℤ := qlog q - (p - 1 : ℤ) with hedef
  have hgrid : (0:ℚ) < pow2 e := pow2_pos _
  have hx : |q / pow2 e| < pow2 (p : ℤ) := by
    rw [abs_div, abs_of_pos hgrid, div_lt_iff hgrid, ← pow2_add]
    calc |q| < pow2 (qlog q + 1) := (qlog_spec q hq).2
    _ ≤ pow2 ((p:ℤ) + e) := pow2_mono (by omega)
  have hr := rhe_sub_le (q / pow2 e)
  have hb : |(rhe (q / pow2 e) : ℚ)| < pow2 (p:ℤ) + 1 := by
    have h3 := abs_sub_abs_le_abs_sub ((rhe (q / pow2 e) : ℚ)) (q / pow2 e)
    linarith
  rw [pow2_natCast] at hb
  have := intAbs_le_of_cast_lt hb
  calc |rhe (q / pow2 e)| ≤ ((2^p : ℕ) : ℤ) := this
  _ = 2^p := by push_cast; ring

theorem isRep_mantissa_lt (p : ℕ) (m e : ℤ) (hm : |m| < 2^p) :
    isRep p ((m:ℚ) * pow2 e) := by
  by_cases hm0 : m = 0
  · subst hm0
    simp [isRep, roundP]
  · unfold isRep roundP
    have hmq0 : (m:ℚ) ≠ 0 := Int.cast_ne_zero.mpr hm0
    have hq : (m:ℚ) * pow2 e ≠ 0 := by
      have := pow2_pos e
      positivity
    rw [if_neg hq]
    set L : ℤ := qlog ((m:ℚ) * pow2 e) with hLdef
    set eq' : ℤ := L - (p - 1 : ℤ) with heqdef
    -- the scaled argument is an integer, because eq' ≤ e
    have hLe : L ≤ (p:ℤ) + e - 1 := by
      have hmq : |(m:ℚ)| < pow2 (p:ℤ) := by
        rw [pow2_natCast, abs_cast_natAbs]
        have h1 : (m.natAbs : ℤ) < 2^p := by rw [← Int.abs_eq_natAbs]; exact hm
        have h2 : m.natAbs < 2^p := by exact_mod_cast h1
        exact_mod_cast h2
      have h2 : |(m:ℚ) * pow2 e| < pow2 ((p:ℤ) + e) := by
        rw [abs_mul, abs_of_pos (pow2_pos e), pow2_add]
        have := pow2_pos e
        nlinarith [abs_nonneg ((m:ℚ))]
      by_contra hc
      push_neg at hc
      have h3 : pow2 ((p:ℤ) + e) ≤ pow2 L := pow2_mono (by omega)
      have h4 := (qlog_spec _ hq).1
      linarith
    have heq'le : eq' ≤ e := by rw [heqdef]; omega
    have hint : (m:ℚ) * pow2 e / pow2 eq' = ((m * 2^(e - eq').toNat : ℤ) : ℚ) := by
      rw [div_eq_iff (ne_of_gt (pow2_pos eq'))]
      push_cast
      rw [show ((2:ℚ))^(e - eq').toNat = pow2 (e - eq') by
        rw [pow2_eq_zpow, ← zpow_natCast]
        congr 1
        omega]
      rw [mul_assoc, ← pow2_add]
      have he : e - eq' + eq' = e := by rw [heqdef]; omega
      rw [he]
    rw [hint, rhe_intCast]
    push_cast
    rw [show ((2:ℚ))^(e - eq').toNat = pow2 (e - eq') by
      rw [pow2_eq_zpow, ← zpow_natCast]
      congr 1
      omega]
    rw [mul_assoc, ← pow2_add]
    have he : e - eq' + eq' = e := by rw [heqdef]; omega
    rw [he]

theorem isRep_mantissa (p : ℕ) (hp : 1 ≤ p) (m e : ℤ) (hm : |m| ≤ 2^p) :
    isRep p ((m:ℚ) * pow2 e) := by
  rcases lt_or_eq_of_le hm with hlt | heq
  · exact isRep_mantissa_lt p m e hlt
  · -- |m| = 2^p exactly: the value is ±2^(p+e), use mantissa ±1 instead
    have h1 : ((1:ℤ)) < 2^p := by
      calc (1:ℤ) < 2^1 := by norm_num
      _ ≤ 2^p := by
        have := pow_le_pow_right (by norm_num : (1:ℤ) ≤ 2) hp
        exact_mod_cast this
    rcases abs_cases m with ⟨hcase, _⟩ | ⟨hcase, _⟩
    · have hmv : m = 2^p := by omega
      have : (m:ℚ) * pow2 e = ((1:ℤ):ℚ) * pow2 ((p:ℤ) + e) := by
        rw [hmv, pow2_add, pow2_natCast]
        push_cast
        ring
      rw [this]
      exact isRep_mantissa_lt p 1 ((p:ℤ) + e) (by rw [abs_one]; exact h1)
    · have hmv : m = -(2^p) := by omega
      have : (m:ℚ) * pow2 e = ((-1:ℤ):ℚ) * pow2 ((p:ℤ) + e) := by
        rw [hmv, pow2_add, pow2_natCast]
        push_cast
        ring
      rw [this]
      exact isRep_mantissa_lt p (-1) ((p:ℤ) + e) (by rw [abs_neg, abs_one]; exact h1)

theorem isRep_iff (p : ℕ) (hp : 1 ≤ p) (q : ℚ) :
    isRep p q ↔ ∃ m e : ℤ, |m| ≤ 2^p ∧ q = (m:ℚ) * pow2 e := by
  constructor
  · intro h
    by_cases hq : q = 0
    · exact ⟨0, 0, by simp, by simp [hq]⟩
    · refine ⟨rhe (q / pow2 (qlog q - (p - 1 : ℤ))), qlog q - (p - 1 : ℤ),
        rhe_mantissa_le p q hq, ?_⟩
      conv_lhs => rw [← h]
      unfold roundP
      rw [if_neg hq]
  · rintro ⟨m, e, hm, rfl⟩
    exact isRep_mantissa p hp m e hm

theorem isRep_zero (p : ℕ) : isRep p 0 := by simp [isRep, roundP]

theorem isRep_neg (p : ℕ) (hp : 1 ≤ p) (q : ℚ) (h : isRep p q) : isRep p (-q) := by
  rw [isRep_iff p hp] at h ⊢
  obtain ⟨m, e, hm, rfl⟩ := h
  exact ⟨-m, e, by simpa using hm, by push_cast; ring⟩

theorem isRep_mul_pow2 (p : ℕ) (hp : 1 ≤ p) (q : ℚ) (k : ℤ) (h : isRep p q) :
    isRep p (q * pow2 k) := by
  rw [isRep_iff p hp] at h ⊢
  obtain ⟨m, e, hm, rfl⟩ := h
  exact ⟨m, e + k, hm, by rw [pow2_add]; ring⟩

theorem isRep_abs (p : ℕ) (hp : 1 ≤ p) (q : ℚ) (h : isRep p q) : isRep p |q| := by
  rcases abs_cases q with ⟨h1, _⟩ | ⟨h1, _⟩
  · rw [h1]; exact h
  · rw [h1]; exact isRep_neg p hp q h

theorem isRep_roundP (p : ℕ) (hp : 1 ≤ p) (q : ℚ) : isRep p (roundP p q) := by
  by_cases hq : q = 0
  · subst hq
    simp [isRep, roundP]
  · rw [isRep_iff p hp]
    refine ⟨rhe (q / pow2 (qlog q - (p - 1 : ℤ))), qlog q - (p - 1 : ℤ),
      rhe_mantissa_le p q hq, ?_⟩
    unfold roundP
    rw [if_neg hq]

theorem roundP_mul_pow2 (p : ℕ) (q : ℚ) (k : ℤ) :
    roundP p (q * pow2 k) = roundP p q * pow2 k := by
  by_cases hq : q = 0
  · subst hq
    simp [roundP]
  · have hq' : q * pow2 k ≠ 0 := by
      have := pow2_pos k
      positivity
    have hlog : qlog (q * pow2 k) = qlog q + k := by
      apply qlog_eq_of
      · rw [abs_mul, abs_of_pos (pow2_pos k), pow2_add]
        have := (qlog_spec q hq).1
        have h2 := pow2_pos k
        nlinarith
      · rw [abs_mul, abs_of_pos (pow2_pos k),
          show (qlog q + k + 1 : ℤ) = (qlog q + 1) + k by omega, pow2_add]
        have := (qlog_spec q hq).2
        have h2 := pow2_pos k
        nlinarith
    unfold roundP
    rw [if_neg hq, if_neg hq', hlog]
    have harg : q * pow2 k / pow2 (qlog q + k - (p - 1 : ℤ))
        = q / pow2 (qlog q - (p - 1 : ℤ)) := by
      rw [div_eq_div_iff (ne_of_gt (pow2_pos _)) (ne_of_gt (pow2_pos _))]
      rw [mul_assoc, ← pow2_add]
      have he : k + (qlog q - (p - 1 : ℤ)) = qlog q + k - (p - 1 : ℤ) := by omega
      rw [he]
    rw [harg, mul_assoc, ← pow2_add]
    have he : (qlog q - (p - 1 : ℤ)) + k = qlog q + k - (p - 1 : ℤ) := by omega
    rw [he]

/-- Sterbenz's lemma: the difference of two representables within a factor
of two of each other is representable exactly. -/
theorem sterbenz (p : ℕ) (hp : 1 ≤ p) {a b : ℚ} (ha : isRep p a) (hb : isRep p b)
    (hb0 : 0 < b) (h1 : b/2 ≤ a) (h2 : a ≤ 2*b) : isRep p (a - b) := by
  rw [isRep_iff p hp] at ha hb ⊢
  obtain ⟨ma, ea, hma, rfl⟩ := ha
  obtain ⟨mb, eb, hmb, rfl⟩ := hb
  set g : ℤ := min ea eb with hgdef
  refine ⟨ma * 2^(ea - g).toNat - mb * 2^(eb - g).toNat, g, ?_, ?_⟩
  · -- the difference has magnitude at most min(a,b), so its mantissa fits
    set M : ℤ := ma * 2^(ea - g).toNat - mb * 2^(eb - g).toNat with hMdef
    have hgpos : (0:ℚ) < pow2 g := pow2_pos g
    have hMval : (M:ℚ) * pow2 g = (ma:ℚ) * pow2 ea - (mb:ℚ) * pow2 eb := by
      rw [hMdef]
      push_cast
      rw [sub_mul, mul_assoc, mul_assoc]
      rw [show ((2:ℚ))^(ea - g).toNat = pow2 (ea - g) by
        rw [pow2_eq_zpow, ← zpow_natCast]; congr 1; omega]
      rw [show ((2:ℚ))^(eb - g).toNat = pow2 (eb - g) by
        rw [pow2_eq_zpow, ← zpow_natCast]; congr 1; omega]
      rw [← pow2_add, ← pow2_add]
      congr 3 <;> omega
    -- |a - b| ≤ a and |a - b| ≤ b
    have habs1 : |(ma:ℚ) * pow2 ea - (mb:ℚ) * pow2 eb| ≤ (ma:ℚ) * pow2 ea := by
      rw [abs_le]
      constructor <;> nlinarith
    have habs2 : |(ma:ℚ) * pow2 ea - (mb:ℚ) * pow2 eb| ≤ (mb:ℚ) * pow2 eb := by
      rw [abs_le]
      constructor <;> nlinarith
    -- divide through by pow2 g, using whichever of ea, eb equals g
    have hM : |(M:ℚ)| * pow2 g ≤ 2^p * pow2 g := by
      rcases min_cases ea eb with ⟨hmin, hle⟩ | ⟨hmin, hlt⟩
      · -- g = ea
        have hkey : |(M:ℚ)| * pow2 g ≤ (ma:ℚ) * pow2 ea := by
          rw [← abs_of_pos hgpos, ← abs_mul, hMval]
          exact habs1
        have hma' : (ma:ℚ) ≤ (2^p : ℚ) := by
          have : ma ≤ 2^p := le_trans (le_abs_self ma) hma
          exact_mod_cast this
        calc |(M:ℚ)| * pow2 g ≤ (ma:ℚ) * pow2 ea := hkey
        _ = (ma:ℚ) * pow2 g := by rw [hgdef, hmin]
        _ ≤ 2^p * pow2 g := by nlinarith
      · -- g = eb
        have hkey : |(M:ℚ)| * pow2 g ≤ (mb:ℚ) * pow2 eb := by
          rw [← abs_of_pos hgpos, ← abs_mul, hMval]
          exact habs2
        have hmb' : (mb:ℚ) ≤ (2^p : ℚ) := by
          have : mb ≤ 2^p := le_trans (le_abs_self mb) hmb
          exact_mod_cast this
        calc |(M:ℚ)| * pow2 g ≤ (mb:ℚ) * pow2 eb := hkey
        _ = (mb:ℚ) * pow2 g := by rw [hgdef, hmin]
        _ ≤ 2^p * pow2 g := by nlinarith
    have hMq : |(M:ℚ)| ≤ (2^p : ℚ) := le_of_mul_le_mul_right (by linarith [hM]) hgpos
    have : |(M:ℚ)| = (M.natAbs : ℚ) := by rw [Int.cast_natAbs, Int.cast_abs]
    rw [this] at hMq
    have hq2 : ((2:ℚ))^p = ((2^p : ℕ) : ℚ) := by push_cast; ring
    rw [hq2] at hMq
    have hnat : M.natAbs ≤ 2^p := by exact_mod_cast hMq
    calc |M| = (M.natAbs : ℤ) := Int.abs_eq_natAbs _
    _ ≤ ((2^p : ℕ) : ℤ) := by exact_mod_cast hnat
    _ = 2^p := by push_cast; ring
  · push_cast
    rw [sub_mul, mul_assoc, mul_assoc]
    rw [show ((2:ℚ))^(ea - g).toNat = pow2 (ea - g) by
      rw [pow2_eq_zpow, ← zpow_natCast]; congr 1; omega]
    rw [show ((2:ℚ))^(eb - g).toNat = pow2 (eb - g) by
      rw [pow2_eq_zpow, ← zpow_natCast]; congr 1; omega]
    rw [← pow2_add, ← pow2_add]
    congr 3 <;> omega

theorem ulp_neg_eq (h : ℚ) : ulp (-h) = ulp h := by
  unfold ulp
  by_cases hh : h = 0
  · simp [hh]
  · rw [if_neg (by simpa using hh), if_neg hh, qlog_neg_arg h hh]

theorem ulp_nonneg (h : ℚ) : 0 ≤ ulp h := by
  unfold ulp
  split_ifs
  · exact le_refl 0
  · exact le_of_lt (pow2_pos _)

/-! ## The double-word data type and the primitives layer

The `two<T>` value type and the error-free transformations
(`libtwofloat/twofloat.hpp` and `libtwofloat/algorithms.hpp`) are external
collaborators of the core under verification; they are modelled from the
spec by their §4.1 contracts. -/

/-- The double-word value: an unevaluated sum `h + l` of two native
floating-point numbers (`two<T>` in the source). -/
structure DW where
  h : ℚ
  l : ℚ
deriving DecidableEq

/-- Modelled from the spec: `two<T>::eval()`, the collapse-to-native
approximation used only for threshold comparisons and short-circuit tests --
one rounded addition of the two components. -/
def DW.eval (x : DW) : ℚ := fl (x.h + x.l)

/-- Modelled from the spec: `algorithms::TwoSum` (algorithms.hpp, not part
of the sources under verification). Contract (§4.1 `ExactSum`):
`sum = round(a+b)` and `err` is the exact rounding error with
`a + b = sum + err`, valid for any `a`, `b`. -/
def TwoSum (a b : ℚ) : DW := ⟨fl (a + b), a + b - fl (a + b)⟩

/-- Modelled from the spec: `algorithms::TwoDiff`, the `ExactDiff`
contract — same as `ExactSum` for `a - b`. -/
def TwoDiff (a b : ℚ) : DW := ⟨fl (a - b), a - b - fl (a - b)⟩

/-- Modelled from the spec: `algorithms::FastTwoSum` (`FastSum` contract):
same postcondition as `ExactSum` (the sum rounded, the error exact), under
the caller-guaranteed precondition `|a| ≥ |b|` or `a = 0`. -/
def FastTwoSum (a b : ℚ) : DW := ⟨fl (a + b), a + b - fl (a + b)⟩

/-- Modelled from the spec: `algorithms::TwoProd` (`ExactProduct`
contract): `prod = round(a*b)`, `a*b = prod + err` exactly. The source
selects a split-based or FMA-based realization by a template flag; both
meet the same contract, so a single model serves both. -/
def TwoProd (a b : ℚ) : DW := ⟨fl (a * b), a * b - fl (a * b)⟩

/-- Modelled from the spec: `algorithms::Fast2Prod`, the FMA-based
realization of `ExactProduct`; bit-identical contract to `TwoProd`. -/
def Fast2Prod (a b : ℚ) : DW := ⟨fl (a * b), a * b - fl (a * b)⟩

/-- Modelled from the spec: `algorithms::fma`, `round(a*b + c)` with a
single rounding. -/
def fma (a b c : ℚ) : ℚ := fl (a * b + c)

/-- Modelled from the spec: `algorithms::Split`, decomposing `x` into two
halves whose products can be formed without rounding: the high half is `x`
rounded to 26 bits, the low half the exact remainder (at most 27 bits). -/
def Split (x : ℚ) : DW := ⟨roundP 26 x, x - roundP 26 x⟩

/-! ## The double-word arithmetic kernel (double-word-arithmetic.hpp)

Every operation below is a line-by-line translation of the corresponding
function of the source header; each definition is named after the
algorithm name cited in the source's comments (Joldeş et al. 2017).
C++ template mode/FMA combinations become separate definitions; the
combinations rejected by `static_assert` have no definition. -/

/-- `add(two<T>, T)`: algorithm `DWPlusFP`. -/
def DWPlusFP (x : DW) (y : ℚ) : DW :=
  let s := TwoSum x.h y
  let v := fl (x.l + s.l)
  FastTwoSum s.h v

/-- `sub(two<T>, T)`: derived `DWPlusFP`. -/
def DWMinusFP (x : DW) (y : ℚ) : DW :=
  let s := TwoDiff x.h y
  let v := fl (x.l + s.l)
  FastTwoSum s.h v

/-- `sub(T, two<T>)`: derived `DWPlusFP`. -/
def FPMinusDW (x : ℚ) (y : DW) : DW :=
  let s := TwoDiff x y.h
  let v := fl (s.l - y.l)
  FastTwoSum s.h v

/-- `add<Mode::Sloppy>(two<T>, two<T>)`: `SloppyDWPlusDW`. -/
def SloppyDWPlusDW (x y : DW) : DW :=
  let s := TwoSum x.h y.h
  let v := fl (x.l + y.l)
  let w := fl (s.l + v)
  FastTwoSum s.h w

/-- `add<Mode::Accurate>(two<T>, two<T>)`: `AccurateDWPlusDW`. -/
def AccurateDWPlusDW (x y : DW) : DW :=
  let s := TwoSum x.h y.h
  let t := TwoSum x.l y.l
  let c := fl (s.l + t.h)
  let v := FastTwoSum s.h c
  let w := fl (t.l + v.l)
  FastTwoSum v.h w

/-- `sub<Mode::Sloppy>(two<T>, two<T>)`. -/
def SloppyDWMinusDW (x y : DW) : DW :=
  let s := TwoDiff x.h y.h
  let v := fl (x.l - y.l)
  let w := fl (s.l + v)
  FastTwoSum s.h w

/-- `sub<Mode::Accurate>(two<T>, two<T>)`. -/
def AccurateDWMinusDW (x y : DW) : DW :=
  let s := TwoDiff x.h y.h
  let t := TwoDiff x.l y.l
  let c := fl (s.l + t.h)
  let v := FastTwoSum s.h c
  let w := fl (t.l + v.l)
  FastTwoSum v.h w

/-- `mul<p, true>(two<T>, T)` (FMA path, mode ignored): `DWTimesFP3`. -/
def DWTimesFP3 (x : DW) (y : ℚ) : DW :=
  let c := Fast2Prod x.h y
  let cl3 := fma x.l y c.l
  FastTwoSum c.h cl3

/-- `mul<Mode::Fast, false>(two<T>, T)`: `DWTimesFP2`. -/
def DWTimesFP2 (x : DW) (y : ℚ) : DW :=
  let c := TwoProd x.h y
  let cl2 := fl (x.l * y)
  let cl3 := fl (c.l + cl2)
  FastTwoSum c.h cl3

/-- `mul<Mode::Accurate, false>(two<T>, T)`: `DWTimesFP1`. -/
def DWTimesFP1 (x : DW) (y : ℚ) : DW :=
  let c := TwoProd x.h y
  let cl2 := fl (x.l * y)
  let t := FastTwoSum c.h cl2
  let tl2 := fl (t.l + c.l)
  FastTwoSum t.h tl2

/-- `mul<Mode::Fast, true>(two<T>, two<T>)`: `DWTimesDW2`. -/
def DWTimesDW2 (x y : DW) : DW :=
  let c := Fast2Prod x.h y.h
  let tl := fl (x.h * y.l)
  let cl2 := fma x.l y.h tl
  let cl3 := fl (c.l + cl2)
  FastTwoSum c.h cl3

/-- `mul<Mode::Accurate, true>(two<T>, two<T>)`: `DWTimesDW3`. -/
def DWTimesDW3 (x y : DW) : DW :=
  let c := Fast2Prod x.h y.h
  let tl0 := fl (x.l * y.l)
  let tl1 := fma x.h y.l tl0
  let cl2 := fma x.l y.h tl1
  let cl3 := fl (c.l + cl2)
  FastTwoSum c.h cl3

/-- `mul<Mode::Fast, false>(two<T>, two<T>)`: `DWTimesDW1`. -/
def DWTimesDW1 (x y : DW) : DW :=
  let c := TwoProd x.h y.h
  let tl1 := fl (x.h * y.l)
  let tl2 := fl (x.l * y.h)
  let cl2 := fl (tl1 + tl2)
  let cl3 := fl (c.l + cl2)
  FastTwoSum c.h cl3

/-- `div<useFMA>(two<T>, T)`: `DWDivFP3` (the `TwoProd` realization flag
does not change the exact-product contract). -/
def DWDivFP3 (x : DW) (y : ℚ) : DW :=
  let th := fl (x.h / y)
  let p := TwoProd th y
  let deltah := fl (x.h - p.h)
  let deltat := fl (deltah - p.l)
  let delta := fl (deltat + x.l)
  let tl := fl (delta / y)
  FastTwoSum th tl

/-- `div<Mode::Fast, true>(two<T>, two<T>)`: `DWDivDW2` with the FMA
double-word-times-native multiply. -/
def DWDivDW2fma (x y : DW) : DW :=
  let th := fl (x.h / y.h)
  let r := DWTimesFP3 y th
  let pih := fl (x.h - r.h)
  let deltal := fl (x.l - r.l)
  let delta := fl (pih + deltal)
  let tl := fl (delta / y.h)
  FastTwoSum th tl

/-- `div<Mode::Fast, false>(two<T>, two<T>)`: `DWDivDW2` with the
accurate non-FMA double-word-times-native multiply. -/
def DWDivDW2plain (x y : DW) : DW :=
  let th := fl (x.h / y.h)
  let r := DWTimesFP1 y th
  let pih := fl (x.h - r.h)
  let deltal := fl (x.l - r.l)
  let delta := fl (pih + deltal)
  let tl := fl (delta / y.h)
  FastTwoSum th tl

/-- `div<Mode::Accurate, true>(two<T>, two<T>)`: `DWDivDW3`
(Accurate mode requires FMA; there is no non-FMA accurate division). -/
def DWDivDW3 (x y : DW) : DW :=
  let th := fl (1 / y.h)
  let rh := fl (1 - fl (y.h * th))
  let rl := -(fl (y.l * th))
  let e := FastTwoSum rh rl
  let delta := DWTimesFP3 e th
  let m := DWPlusFP delta th
  DWTimesDW2 x m

/-! ## Constants and trigonometric tables

Each constant is the `double` value of the source's decimal literal, i.e.
the literal's exact decimal value rounded to 53 bits. -/

/-- `_2pi`. -/
def c2pi : DW :=
  ⟨fl (6283185307179586232 / 10^18), fl (2449293598294706414 / 10^34)⟩

/-- `_pi2` (π/2). -/
def cpi2 : DW :=
  ⟨fl (1570796326794896558 / 10^18), fl (6123233995736766036 / 10^35)⟩

/-- `_pi16` (π/16). -/
def cpi16 : DW :=
  ⟨fl (1963495408493620697 / 10^19), fl (7654042494670957545 / 10^36)⟩

/-- `_eps` — the literal `4.93038065763132e-32`, annotated `2^-104` in the
source. -/
def ceps : ℚ := fl (493038065763132 / 10^46)

/-- `n_inv_fact`. -/
def n_inv_fact : ℕ := 15

/-- `constants_trig_tables::inv_fact`, flattened row-major exactly as the
source reads it through `&inv_fact[0][0]`: entry `2r` is row `r`'s high
word (the double nearest `1/(r+3)!`), entry `2r+1` its low word. -/
def invFactFlat : List ℚ :=
  [ fl (166666666666666657 / 10^18), fl (925185853854297066 / 10^35),
    fl (416666666666666644 / 10^19), fl (231296463463574266 / 10^35),
    fl (833333333333333322 / 10^20), fl (115648231731787138 / 10^36),
    fl (138888888888888894 / 10^20), fl (-530054395437357706 / 10^37),
    fl (198412698412698413 / 10^21), fl (172095582934207053 / 10^39),
    fl (248015873015873016 / 10^22), fl (215119478667758816 / 10^40),
    fl (275573192239858925 / 10^23), fl (-185839327404647208 / 10^39),
    fl (275573192239858883 / 10^24), fl (237677146222502973 / 10^40),
    fl (250521083854417202 / 10^25), fl (-144881407093591197 / 10^41),
    fl (208767569878681002 / 10^26), fl (-120734505911325997 / 10^42),
    fl (160590438368216133 / 10^27), fl (125852945887520981 / 10^43),
    fl (114707455977297245 / 10^28), fl (206555127528307454 / 10^45),
    fl (764716373181981641 / 10^30), fl (703872877733453001 / 10^47),
    fl (477947733238738525 / 10^31), fl (439920548583408126 / 10^48),
    fl (281145725434552060 / 10^32), fl (165088427308614326 / 10^48) ]

/-- Flat access `(local_ptr_inv_fact + i)[0]` into the reciprocal-factorial
table. -/
def invFactAt (i : ℕ) : ℚ := invFactFlat.getD i 0

/-- `constants_trig_tables::cos_table` (cos(k·π/16), k = 1..4), flattened
row-major as read through `&cos_table[0][0]`. -/
def cosTableFlat : List ℚ :=
  [ fl (9807852804032304306 / 10^19), fl (1854693999782500573 / 10^35),
    fl (9238795325112867385 / 10^19), fl (1764504708433667706 / 10^35),
    fl (8314696123025452357 / 10^19), fl (1407385698472802389 / 10^36),
    fl (7071067811865475727 / 10^19), fl (-4833646656726456726 / 10^35) ]

/-- `constants_trig_tables::sin_table` (sin(k·π/16), k = 1..4), flattened
row-major. -/
def sinTableFlat : List ℚ :=
  [ fl (1950903220161282758 / 10^19), fl (-7991079068461731263 / 10^36),
    fl (3826834323650897818 / 10^19), fl (-1005077269646158761 / 10^35),
    fl (5555702330196021776 / 10^19), fl (4709410940561676821 / 10^35),
    fl (7071067811865475727 / 10^19), fl (-4833646656726456726 / 10^35) ]

def cosTableAt (i : ℕ) : ℚ := cosTableFlat.getD i 0

def sinTableAt (i : ℕ) : ℚ := sinTableFlat.getD i 0

/-! ## The qd / dd_real helper layer -/

/-- `qd::nint`, translated faithfully: the source's condition
`if (input = std::floor(input))` *assigns* `std::floor(input)` to `input`
and branches on whether the assigned value is nonzero, so the function
returns `floor(input)` whenever that is nonzero, and otherwise (the
overwritten) `floor(0 + 0.5)`. -/
def qdNint (input : ℚ) : ℚ :=
  let f : ℚ := (⌊input⌋ : ℤ)
  if f ≠ 0 then f else ((⌊fl (f + 1/2)⌋ : ℤ) : ℚ)

/-- `qd::two_sqr`: `fl(input²)` in `.h` and the computed error term in
`.l`, with every intermediate operation rounded as in the source
expression `((hi*hi - q) + 2.0*hi*lo) + lo*lo`. -/
def two_sqr (input : ℚ) : DW :=
  let q := fl (input * input)
  let hi := (Split input).h
  let lo := (Split input).l
  ⟨q, fl (fl (fl (fl (hi * hi) - q) + fl (fl (2 * hi) * lo)) + fl (lo * lo))⟩

/-- `qd::two_sum`, translated faithfully. Note the source computes
`err = (a - (s - bb)) - (b - bb)` with a minus sign where the QD reference
(`inline.h`) has `err = (a - (s - bb)) + (b - bb)`. -/
def two_sum (a b : ℚ) : DW :=
  let s := fl (a + b)
  let bb := fl (s - a)
  ⟨s, fl (fl (a - fl (s - bb)) - fl (b - bb))⟩

/-- `dd_real::sqr(T)`. -/
def ddSqr (input : ℚ) : DW := two_sqr input

/-- `dd_real::add(T, T)`. -/
def ddAdd (a b : ℚ) : DW := two_sum a b

/-- `nint(two<T>)` (dd_real round-to-nearest on a double-word). -/
def nintDW (input : DW) : DW :=
  let hi := qdNint input.h
  if hi = input.h then
    FastTwoSum hi (qdNint input.l)
  else
    if |fl (hi - input.h)| = 1/2 ∧ input.l < 0 then ⟨fl (hi - 1), 0⟩
    else ⟨hi, 0⟩

/-- `sqr(two<T>)` (dd_real squaring of a double-word). -/
def sqrDW (input : DW) : DW :=
  let t := two_sqr input.h
  let p2a := fl (t.l + fl (fl (2 * input.h) * input.l))
  let p2b := fl (p2a + fl (input.l * input.l))
  FastTwoSum t.h p2b

/-- `mul_pwr2`: componentwise scaling (exact when `b` is a power of two). -/
def mul_pwr2 (input : DW) (b : ℚ) : DW := ⟨fl (input.h * b), fl (input.l * b)⟩

/-! ## Magnitude analysis of the kernel operations

The convergence argument for `sin` tracks the exact component sum
`valDW` and the magnitude norm `Nrm` of every intermediate double-word.
All rounding errors are coarsened to one part in 10⁶, which the 53-bit
(and 26-bit split) model amply satisfies. -/

/-- The exact (unrounded) component sum of a double-word. -/
def valDW (d : DW) : ℚ := d.h + d.l

/-- The magnitude norm `|h| + |l|`. -/
def Nrm (d : DW) : ℚ := |d.h| + |d.l|

/-! ## The transcendental layer -/

/-- Directed (upward) rounding at precision `p`: the smallest representable
not below `q`. Used only inside the model of the native square root. -/
def roundUpP (p : ℕ) (q : ℚ) : ℚ :=
  if q = 0 then 0
  else (⌈q / pow2 (qlog q - (p - 1 : ℤ))⌉ : ℚ) * pow2 (qlog q - (p - 1 : ℤ))

/-- One Newton step for the square root, rounded upward at 80 bits so that
the iterate stays above the true root while the working rationals stay
small. -/
def newtonStep (q x : ℚ) : ℚ := roundUpP 80 ((x + q / x) / 2)

def sqrtIter : ℕ → ℚ → ℚ → ℚ
  | 0, _, x => x
  | n+1, q, x => sqrtIter n q (newtonStep q x)

/-- Modelled from the spec: `std::sqrt` on the native type (the seed of
Karp's trick is `1.0 / std::sqrt(input.h)`). An executable
nearest-representable square root: seven Newton steps from a power-of-two
overestimate, then a final 53-bit rounding; its relative error is far below
one ulp, which is all the development relies on. -/
def fpSqrt (q : ℚ) : ℚ :=
  if q ≤ 0 then 0
  else fl (sqrtIter 7 q (pow2 ((qlog q + 2).ediv 2)))

/-- `sqrt(two<T>)`: zero input returns `(0,0)`; a negative high word (after
the zero test) returns the NaN pair, modelled as `none`; otherwise Karp's
trick. -/
def sqrtDW (input : DW) : Option DW :=
  if DW.eval input = 0 then some ⟨0, 0⟩
  else if input.h < 0 then none
  else
    let x := fl (1 / fpSqrt input.h)
    let ax := fl (input.h * x)
    let temp := AccurateDWMinusDW input (ddSqr ax)
    some (ddAdd ax (fl (fl (temp.h * x) * (1/2))))

/-- The shared do-while body of `sin_taylor` / `cos_taylor`:
`r = mul<Accurate,true>(r, x); t = r * inv_fact-pair; s = add<Accurate>(s,t);
i += 2;` repeated `while (i < n_inv_fact && |t.eval()| > thresh)`.
Recursion is on explicit fuel; `taylorLoop_fuel_irrelevant` below shows any
fuel covering the 15-entry cap gives the same result. -/
def taylorLoop : ℕ → ℕ → DW → DW → DW → ℚ → DW
  | 0, _, _, s, _, _ => s
  | fuel+1, i, r, s, x, thresh =>
    if i + 2 < n_inv_fact ∧
       thresh < |DW.eval (DWTimesDW3 (DWTimesDW3 r x) ⟨invFactAt i, invFactAt (i+1)⟩)|
    then taylorLoop fuel (i + 2) (DWTimesDW3 r x)
      (AccurateDWPlusDW s (DWTimesDW3 (DWTimesDW3 r x) ⟨invFactAt i, invFactAt (i+1)⟩))
      x thresh
    else AccurateDWPlusDW s (DWTimesDW3 (DWTimesDW3 r x) ⟨invFactAt i, invFactAt (i+1)⟩)

/-- The early-termination threshold of `sin_taylor`:
`pointfive * std::abs(input.eval()) * local_eps`, two rounded
multiplications. -/
def sinTaylorThresh (input : DW) : ℚ := fl (fl ((1/2) * |DW.eval input|) * ceps)

/-- The early-termination threshold of `cos_taylor`:
`pointfive * local_eps`. -/
def cosTaylorThresh : ℚ := fl ((1/2) * ceps)

/-- `sin_taylor` (valid for |input| ≤ π/32 by caller contract). -/
def sin_taylor (input : DW) : DW :=
  if DW.eval input = 0 then ⟨0, 0⟩
  else
    let temp := sqrDW input
    let x : DW := ⟨-temp.h, -temp.l⟩
    taylorLoop 8 0 input input x (sinTaylorThresh input)

/-- `cos_taylor`. -/
def cos_taylor (input : DW) : DW :=
  if DW.eval input = 0 then ⟨1, 0⟩
  else
    let temp := sqrDW input
    let x : DW := ⟨-temp.h, -temp.l⟩
    let r := x
    let s := DWPlusFP (mul_pwr2 r (1/2)) 1
    taylorLoop 8 1 r s x cosTaylorThresh

/-- Number of executions of the do-while body of the Taylor loop, with the
same control flow as `taylorLoop`. -/
def taylorLoopCount : ℕ → ℕ → DW → DW → DW → ℚ → ℕ
  | 0, _, _, _, _, _ => 0
  | fuel+1, i, r, s, x, thresh =>
    if i + 2 < n_inv_fact ∧
       thresh < |DW.eval (DWTimesDW3 (DWTimesDW3 r x) ⟨invFactAt i, invFactAt (i+1)⟩)|
    then 1 + taylorLoopCount fuel (i + 2) (DWTimesDW3 r x)
      (AccurateDWPlusDW s (DWTimesDW3 (DWTimesDW3 r x) ⟨invFactAt i, invFactAt (i+1)⟩))
      x thresh
    else 1

/-- Loop iterations executed by `sin_taylor` on a given input. -/
def sinTaylorIters (input : DW) : ℕ :=
  if DW.eval input = 0 then 0
  else
    let temp := sqrDW input
    let x : DW := ⟨-temp.h, -temp.l⟩
    taylorLoopCount 8 0 input input x (sinTaylorThresh input)

/-- Loop iterations executed by `cos_taylor` on a given input. -/
def cosTaylorIters (input : DW) : ℕ :=
  if DW.eval input = 0 then 0
  else
    let temp := sqrDW input
    let x : DW := ⟨-temp.h, -temp.l⟩
    let r := x
    taylorLoopCount 8 1 r (DWPlusFP (mul_pwr2 r (1/2)) 1) x cosTaylorThresh

/-- Modelled from the spec: the QD reference loop that this source's
`sin_taylor` transcribes.  QD indexes the two-dimensional `inv_fact[i]`
with `i += 2`, i.e. rows 0, 2, 4, …, which in the flattened table are the
entries `2i` and `2i + 1` — the factor 2 this source applies to its
`cos_table`/`sin_table` accesses but not here. -/
def taylorLoopQD : ℕ → ℕ → DW → DW → DW → ℚ → DW
  | 0, _, _, s, _, _ => s
  | fuel+1, i, r, s, x, thresh =>
    if i + 2 < n_inv_fact ∧
       thresh < |DW.eval (DWTimesDW3 (DWTimesDW3 r x) ⟨invFactAt (2*i), invFactAt (2*i+1)⟩)|
    then taylorLoopQD fuel (i + 2) (DWTimesDW3 r x)
      (AccurateDWPlusDW s (DWTimesDW3 (DWTimesDW3 r x) ⟨invFactAt (2*i), invFactAt (2*i+1)⟩))
      x thresh
    else AccurateDWPlusDW s (DWTimesDW3 (DWTimesDW3 r x) ⟨invFactAt (2*i), invFactAt (2*i+1)⟩)

/-- Modelled from the spec: `sin_taylor` with the QD reference's table
indexing (the intended Taylor evaluation of sine). -/
def sinTaylorQD (input : DW) : DW :=
  if DW.eval input = 0 then ⟨0, 0⟩
  else
    let temp := sqrDW input
    let x : DW := ⟨-temp.h, -temp.l⟩
    taylorLoopQD 8 0 input input x (sinTaylorThresh input)

/-- `sincos_taylor`: sine via the Taylor kernel, cosine as
`sqrt(1 - sin²)`; `none` when that square root signals a domain error. -/
def sincos_taylor (input : DW) : Option (DW × DW) :=
  if DW.eval input = 0 then some (⟨0, 0⟩, ⟨1, 0⟩)
  else
    let sin_a := sin_taylor input
    match sqrtDW (FPMinusDW 1 (sqrDW sin_a)) with
    | none => none
    | some cos_a => some (sin_a, cos_a)

/-- The reduction-modulo-2π stage of `sin`:
`z = nint(div<Accurate,true>(input, 2π))`,
`r = sub<Accurate>(input, mul<Accurate,true>(2π, z))`. -/
def sinR (input : DW) : DW :=
  AccurateDWMinusDW input (DWTimesDW3 c2pi (nintDW (DWDivDW3 input c2pi)))

/-- `q = std::floor(r.h / _pi2.h + 0.5)` of the π/2 reduction stage; an
integer-valued native float, modelled as the integer it holds.  The
subsequent `static_cast<int>` is modelled as the same integer (the cast is
identity on in-range integral values). -/
def sinJ (input : DW) : ℤ :=
  ⌊fl (fl ((sinR input).h / cpi2.h) + 1/2)⌋

/-- `t = sub<Accurate>(r, mul<Accurate,true>(_pi2, q))`. -/
def sinT1 (input : DW) : DW :=
  AccurateDWMinusDW (sinR input) (DWTimesFP3 cpi2 ((sinJ input : ℤ) : ℚ))

/-- `q = std::floor(t.h / _pi16.h + 0.5)`; `k = static_cast<int>(q)`. -/
def sinK (input : DW) : ℤ :=
  ⌊fl (fl ((sinT1 input).h / cpi16.h) + 1/2)⌋

/-- The final reduced argument
`t = sub<Accurate>(t, mul<Accurate,true>(_pi16, q))`. -/
def sinT (input : DW) : DW :=
  AccurateDWMinusDW (sinT1 input) (DWTimesFP3 cpi16 ((sinK input : ℤ) : ℚ))

/-- `sin(two<T>)`, the public range-reduced sine.  `none` models the
double-word NaN pair (returned directly on the two range checks, and
propagated when the internal `sincos_taylor` square root fails). -/
def sinDW (input : DW) : Option DW :=
  if DW.eval input = 0 then some ⟨0, 0⟩
  else
    let j := sinJ input
    let k := sinK input
    let t := sinT input
    if j < -2 ∨ 2 < j then none
    else if 4 < |k| then none
    else if k = 0 then
      if j = 0 then some (sin_taylor t)
      else if j = 1 then some (cos_taylor t)
      else if j = -1 then some ⟨-(cos_taylor t).h, -(cos_taylor t).l⟩
      else some ⟨-(sin_taylor t).h, -(sin_taylor t).l⟩
    else
      let u : DW := ⟨cosTableAt (2 * (k.natAbs - 1)), cosTableAt (2 * (k.natAbs - 1) + 1)⟩
      let v : DW := ⟨sinTableAt (2 * (k.natAbs - 1)), sinTableAt (2 * (k.natAbs - 1) + 1)⟩
      match sincos_taylor t with
      | none => none
      | some st =>
        let sin_t := st.1
        let cos_t := st.2
        some (
          if j = 0 then
            if 0 < k then AccurateDWPlusDW (DWTimesDW3 u sin_t) (DWTimesDW3 v cos_t)
            else AccurateDWMinusDW (DWTimesDW3 u sin_t) (DWTimesDW3 v cos_t)
          else if j = 1 then
            if 0 < k then AccurateDWMinusDW (DWTimesDW3 u cos_t) (DWTimesDW3 v sin_t)
            else AccurateDWPlusDW (DWTimesDW3 u cos_t) (DWTimesDW3 v sin_t)
          else if j = -1 then
            if 0 < k then AccurateDWMinusDW (DWTimesDW3 v sin_t) (DWTimesDW3 u cos_t)
            else if k < 0 then
              AccurateDWMinusDW ⟨-(DWTimesDW3 u cos_t).h, -(DWTimesDW3 u cos_t).l⟩
                (DWTimesDW3 v sin_t)
            else sinR input
          else
            if 0 < k then
              AccurateDWMinusDW ⟨-(DWTimesDW3 u sin_t).h, -(DWTimesDW3 u sin_t).l⟩
                (DWTimesDW3 v cos_t)
            else AccurateDWMinusDW (DWTimesDW3 v cos_t) (DWTimesDW3 u sin_t))

/-- Rounding error is at most half an ulp of the rounded result. -/
theorem fl_sub_le_half_ulp (q : ℚ) : |fl q - q| ≤ ulp (fl q) / 2 := by
  by_cases hq : q = 0
  · subst hq
    simp [fl, roundP, ulp]
  · have hfl : fl q ≠ 0 := by
      unfold fl
      rw [ne_eq, roundP_eq_zero_iff 53 (by norm_num)]
      exact hq
    have h1 : |fl q - q| ≤ pow2 (qlog q - 53) := roundP_sub_le_pow2 53 q hq
    have h2 : pow2 (qlog q) ≤ |fl q| := roundP_abs_ge_binade 53 (by norm_num) q hq
    have h3 : qlog q ≤ qlog (fl q) := le_qlog hfl h2
    unfold ulp
    rw [if_neg hfl]
    calc |fl q - q| ≤ pow2 (qlog q - 53) := h1
    _ ≤ pow2 (qlog (fl q) - 53) := pow2_mono (by omega)
    _ = pow2 (qlog (fl q) - 52) / 2 := by
        rw [show (qlog (fl q) - 53 : ℤ) = (qlog (fl q) - 52) + (-1) by omega, pow2_add]
        have h12 : pow2 (-1 : ℤ) = 1/2 := by norm_num [pow2]
        rw [h12]
        ring


/-! ## Claim C2 — `qd::nint` -/

/-- Claim C2 (code bug): `qd::nint` does not return the nearest integer.
Because the condition `if (input = std::floor(input))` assigns the floor to
`input` before testing it against zero, `qd::nint` returns `floor(input)`
for every input: at 2.75 it returns 2 although 3 is strictly nearer, and at
0.75 it returns 0 although 1 is strictly nearer; the double-word `nint`
inherits the defect, mapping (0.75, 0) to (0, 0). -/
theorem claim_C2_nint_is_floor :
    (∀ x : ℚ, qdNint x = ((⌊x⌋ : ℤ) : ℚ)) ∧
    qdNint (11/4) = 2 ∧ |(11/4 : ℚ) - 3| < |(11/4 : ℚ) - 2| ∧
    qdNint (3/4) = 0 ∧ |(3/4 : ℚ) - 1| < |(3/4 : ℚ) - 0| ∧
    nintDW ⟨3/4, 0⟩ = ⟨0, 0⟩ := by
  refine ⟨?_, by with_unfolding_all decide, by with_unfolding_all decide,
    by with_unfolding_all decide, by with_unfolding_all decide, by with_unfolding_all decide⟩
  intro x
  simp only [qdNint]
  split_ifs with h
  · rfl
  · push_neg at h
    rw [h]
    have : ((⌊fl ((0:ℚ) + 1/2)⌋ : ℤ) : ℚ) = 0 := by with_unfolding_all decide
    exact this

/-! ## Claim C10 — `sqrt` branch order and sign test -/

/-- Claim C10: in `sqrt` the zero test (on the rounded sum of the two
components) precedes the sign test, and negativity is judged only by the
high component: any input whose components sum to exactly zero yields
`(0,0)` even when the high component is negative, and any input with a
negative high component whose components sum to a positive value yields
the NaN pair. -/
theorem claim_C10_sqrt_branch_order (x : DW) :
    (x.h + x.l = 0 → sqrtDW x = some ⟨0, 0⟩) ∧
    (x.h < 0 → 0 < x.h + x.l → sqrtDW x = none) := by
  constructor
  · intro h0
    unfold sqrtDW
    rw [if_pos (by unfold DW.eval; rw [h0]; rfl)]
  · intro hh hpos
    have heval : DW.eval x ≠ 0 := by
      unfold DW.eval fl
      exact ne_of_gt (roundP_pos 53 (by norm_num) _ hpos)
    unfold sqrtDW
    rw [if_neg heval, if_pos hh]

/-- Claim C10 witness: `(-1, 1)` sums to zero and takes the zero branch
despite its negative high word; `(-1, 2)` has negative high word and
positive value and yields the NaN pair. -/
theorem claim_C10_witness :
    ((-1 : ℚ) + 1 = 0 ∧ sqrtDW ⟨-1, 1⟩ = some ⟨0, 0⟩) ∧
    ((-1 : ℚ) < 0 ∧ (0:ℚ) < -1 + 2 ∧ sqrtDW ⟨-1, 2⟩ = none) :=
  ⟨⟨by norm_num, (claim_C10_sqrt_branch_order ⟨-1, 1⟩).1 (by norm_num)⟩,
   ⟨by norm_num, by norm_num,
    (claim_C10_sqrt_branch_order ⟨-1, 2⟩).2 (by norm_num) (by norm_num)⟩⟩

/-! ## Claim C4 — `sqrt` results -/

/-- Claim C4: `sqrt` returns `(0,0)` for a zero double-word, the NaN pair
for every negative double-word (components within the `|high| ≥ |low|`
relaxed precondition), and for every positive double-word the Karp's-trick
refinement: with native seed `x = 1/sqrt(input.h)` and `ax = input.h * x`,
the result is `dd_real::add(ax, (input - ax²).h * x * 0.5)` with the
residual computed by an Accurate-mode double-word subtraction. -/
theorem claim_C4_sqrt (x : DW) :
    (x.h + x.l = 0 → sqrtDW x = some ⟨0, 0⟩) ∧
    (x.h + x.l < 0 → |x.l| ≤ |x.h| → sqrtDW x = none) ∧
    (0 < x.h + x.l → |x.l| ≤ |x.h| →
      sqrtDW x = some (ddAdd (fl (x.h * fl (1 / fpSqrt x.h)))
        (fl (fl ((AccurateDWMinusDW x (ddSqr (fl (x.h * fl (1 / fpSqrt x.h))))).h
             * fl (1 / fpSqrt x.h)) * (1/2))))) := by
  refine ⟨?_, ?_, ?_⟩
  · intro h0
    unfold sqrtDW
    rw [if_pos (by unfold DW.eval; rw [h0]; rfl)]
  · intro hneg habs
    have hh : x.h < 0 := by
      rcases abs_cases x.h with ⟨h1, h2⟩ | ⟨h1, h2⟩
      · have h3 := neg_abs_le x.l
        rw [h1] at habs
        linarith
      · exact h2
    have heval : DW.eval x ≠ 0 := by
      unfold DW.eval fl
      exact ne_of_lt (roundP_neg_of_neg 53 (by norm_num) _ hneg)
    unfold sqrtDW
    rw [if_neg heval, if_pos hh]
  · intro hpos habs
    have hh : 0 < x.h := by
      rcases abs_cases x.h with ⟨h1, h2⟩ | ⟨h1, h2⟩
      · rcases lt_or_eq_of_le h2 with h3 | h3
        · exact h3
        · rw [h1] at habs
          have h4 := le_abs_self x.l
          have h5 := neg_abs_le x.l
          linarith
      · have h3 := le_abs_self x.l
        rw [h1] at habs
        linarith
    have heval : DW.eval x ≠ 0 := by
      unfold DW.eval fl
      exact ne_of_gt (roundP_pos 53 (by norm_num) _ hpos)
    unfold sqrtDW
    rw [if_neg heval, if_neg (not_lt.mpr (le_of_lt hh))]

/-- Claim C4 witness: the zero case at `(0, 0)`, the negative case at
`(-2, 1)`, and the positive Karp case at `(4, 0)`. -/
theorem claim_C4_witness :
    ((0 : ℚ) + 0 = 0 ∧ sqrtDW ⟨0, 0⟩ = some ⟨0, 0⟩) ∧
    ((-2 : ℚ) + 1 < 0 ∧ |(1:ℚ)| ≤ |(-2:ℚ)| ∧ sqrtDW ⟨-2, 1⟩ = none) ∧
    ((0:ℚ) < 4 + 0 ∧
      sqrtDW ⟨4, 0⟩ = some (ddAdd (fl (4 * fl (1 / fpSqrt 4)))
        (fl (fl ((AccurateDWMinusDW ⟨4, 0⟩ (ddSqr (fl (4 * fl (1 / fpSqrt 4))))).h
             * fl (1 / fpSqrt 4)) * (1/2))))) :=
  ⟨⟨by norm_num, (claim_C4_sqrt ⟨0, 0⟩).1 (by norm_num)⟩,
   ⟨by norm_num, by norm_num, (claim_C4_sqrt ⟨-2, 1⟩).2.1 (by norm_num) (by norm_num)⟩,
   ⟨by norm_num, (claim_C4_sqrt ⟨4, 0⟩).2.2 (by norm_num) (by norm_num)⟩⟩

/-! ## Claim C6 — additive identity -/

/-- Claim C6 counterexample: the finite double-word (1, 1) (both components
representable) is not fixed by adding (0, 0): both modes return (2, 0). -/
theorem claim_C6_counterexample :
    isRep 53 (1:ℚ) ∧
    SloppyDWPlusDW ⟨1, 1⟩ ⟨0, 0⟩ = ⟨2, 0⟩ ∧
    AccurateDWPlusDW ⟨1, 1⟩ ⟨0, 0⟩ = ⟨2, 0⟩ ∧
    ((⟨2, 0⟩ : DW) ≠ ⟨1, 1⟩) := by
  refine ⟨by with_unfolding_all rfl, by with_unfolding_all rfl,
    by with_unfolding_all rfl, ?_⟩
  intro h
  exact absurd (congrArg DW.l h) (by norm_num)

/-- Claim C6 (amended): for every double-word of representable components
whose high word absorbs its low word under rounding (`fl (h + l) = h`, in
particular every normalized double-word away from the rounding tie),
`add(x, (0,0)) = x` bit-exactly in both the Sloppy and the Accurate mode. -/
theorem claim_C6_amended (x : DW) (hh : isRep 53 x.h) (hl : isRep 53 x.l)
    (habs : fl (x.h + x.l) = x.h) :
    SloppyDWPlusDW x ⟨0, 0⟩ = x ∧ AccurateDWPlusDW x ⟨0, 0⟩ = x := by
  have hh' : fl x.h = x.h := hh
  have hl' : fl x.l = x.l := hl
  constructor
  · simp only [SloppyDWPlusDW, TwoSum, FastTwoSum, add_zero, hh', sub_self,
      hl', zero_add, habs, add_sub_cancel_left]
  · simp only [AccurateDWPlusDW, TwoSum, FastTwoSum, add_zero, hh', sub_self,
      hl', zero_add, habs, add_sub_cancel_left]

/-- Claim C6 witness: the normalized double-word (3, 2⁻⁵⁵) is fixed by
adding (0, 0) in both modes. -/
theorem claim_C6_witness :
    (isRep 53 (3:ℚ) ∧ isRep 53 (pow2 (-55)) ∧ fl (3 + pow2 (-55)) = 3) ∧
    (SloppyDWPlusDW ⟨3, pow2 (-55)⟩ ⟨0, 0⟩ = ⟨3, pow2 (-55)⟩ ∧
     AccurateDWPlusDW ⟨3, pow2 (-55)⟩ ⟨0, 0⟩ = ⟨3, pow2 (-55)⟩) :=
  ⟨⟨by with_unfolding_all rfl, by with_unfolding_all rfl,
    by with_unfolding_all rfl⟩,
   claim_C6_amended ⟨3, pow2 (-55)⟩ (by with_unfolding_all rfl)
    (by with_unfolding_all rfl) (by with_unfolding_all rfl)⟩

/-! ## Claim C7 — commutativity -/

/-- Claim C7 counterexample: both FMA double-word multiplications are not
commutative.  The Fast-FMA pair uses normalized operands; the nested
roundings `fl(x.l·y.h + fl(x.h·y.l))` versus `fl(x.h·y.l + fl(x.l·y.h))`
land on opposite sides of a rounding boundary. -/
theorem claim_C7_counterexample :
    DWTimesDW2 ⟨3, pow2 (-113)⟩ ⟨1, (2^52 + 3) * pow2 (-112)⟩
      ≠ DWTimesDW2 ⟨1, (2^52 + 3) * pow2 (-112)⟩ ⟨3, pow2 (-113)⟩ ∧
    DWTimesDW3 ⟨1, pow2 (-54) + pow2 (-106)⟩ ⟨1, 1⟩
      ≠ DWTimesDW3 ⟨1, 1⟩ ⟨1, pow2 (-54) + pow2 (-106)⟩ := by
  constructor
  · intro h
    exact absurd (congrArg DW.l h) (by with_unfolding_all decide)
  · intro h
    exact absurd (congrArg DW.l h) (by with_unfolding_all decide)

/-- Claim C7 (amended): addition is commutative bit-exactly in both the
Sloppy and the Accurate double-word mode, and the non-FMA Fast double-word
multiplication (`DWTimesDW1`) is commutative bit-exactly; the two FMA
double-word multiplications are not commutative in general
(see the counterexample). -/
theorem claim_C7_amended (x y : DW) :
    SloppyDWPlusDW x y = SloppyDWPlusDW y x ∧
    AccurateDWPlusDW x y = AccurateDWPlusDW y x ∧
    DWTimesDW1 x y = DWTimesDW1 y x := by
  refine ⟨?_, ?_, ?_⟩
  · simp only [SloppyDWPlusDW, TwoSum, FastTwoSum]
    rw [add_comm x.h y.h, add_comm x.l y.l]
  · simp only [AccurateDWPlusDW, TwoSum, FastTwoSum]
    rw [add_comm x.h y.h, add_comm x.l y.l]
  · simp only [DWTimesDW1, TwoProd, FastTwoSum]
    rw [mul_comm x.h y.h, mul_comm x.h y.l, mul_comm x.l y.h,
      add_comm (fl (y.l * x.h)) (fl (y.h * x.l))]

/-! ## Claim C8 — loop termination and the iteration cap -/

/-- Any amount of fuel covering the `i < n_inv_fact` cap yields the same
result: the loop's iteration count is intrinsic, not a fuel artifact. -/
theorem taylorLoop_fuel_succ : ∀ (f : ℕ) (i : ℕ) (r s x : DW) (th : ℚ),
    n_inv_fact ≤ i + 2 * f → 1 ≤ f →
    taylorLoop f i r s x th = taylorLoop (f + 1) i r s x th := by
  intro f
  induction f with
  | zero => intro i r s x th hcap h1; omega
  | succ g ih =>
    intro i r s x th hcap h1
    conv_lhs => rw [taylorLoop]
    conv_rhs => rw [taylorLoop]
    split_ifs with hc
    · exact ih (i + 2) (DWTimesDW3 r x)
        (AccurateDWPlusDW s (DWTimesDW3 (DWTimesDW3 r x) ⟨invFactAt i, invFactAt (i+1)⟩))
        x th (by simp only [n_inv_fact] at hcap hc ⊢; omega)
        (by simp only [n_inv_fact] at hcap hc; omega)
    · rfl

theorem taylorLoop_fuel_ge : ∀ (d f : ℕ) (i : ℕ) (r s x : DW) (th : ℚ),
    n_inv_fact ≤ i + 2 * f → 1 ≤ f →
    taylorLoop f i r s x th = taylorLoop (f + d) i r s x th := by
  intro d
  induction d with
  | zero => intro f i r s x th hcap h1; rfl
  | succ e ih =>
    intro f i r s x th hcap h1
    rw [ih f i r s x th hcap h1, taylorLoop_fuel_succ (f + e) i r s x th (by omega) (by omega)]
    rfl

theorem taylorLoopCount_le_fuel : ∀ (f : ℕ) (i : ℕ) (r s x : DW) (th : ℚ),
    taylorLoopCount f i r s x th ≤ f := by
  intro f
  induction f with
  | zero => intro i r s x th; simp [taylorLoopCount]
  | succ g ih =>
    intro i r s x th
    simp only [taylorLoopCount]
    split_ifs with hc
    · have := ih (i + 2) (DWTimesDW3 r x)
        (AccurateDWPlusDW s (DWTimesDW3 (DWTimesDW3 r x) ⟨invFactAt i, invFactAt (i+1)⟩))
        x th
      omega
    · omega

/-- Claim C8: the Taylor-series loop of `sin_taylor` and `cos_taylor` — the
only loop of the core — executes at most 8 iterations on every input (the
`i < 15` cap with `i += 2`), and giving the loop any fuel at or beyond the
cap leaves the result unchanged, so the computation terminates within the
fixed bound regardless of the input value. -/
theorem claim_C8_termination :
    (∀ input : DW, sinTaylorIters input ≤ 8) ∧
    (∀ input : DW, cosTaylorIters input ≤ 8) ∧
    (8 ≤ n_inv_fact) ∧
    (∀ (f g : ℕ) (i : ℕ) (r s x : DW) (th : ℚ), 1 ≤ f → 1 ≤ g →
      n_inv_fact ≤ i + 2 * f → n_inv_fact ≤ i + 2 * g →
      taylorLoop f i r s x th = taylorLoop g i r s x th) := by
  refine ⟨?_, ?_, by simp [n_inv_fact], ?_⟩
  · intro input
    unfold sinTaylorIters
    split_ifs
    · omega
    · exact taylorLoopCount_le_fuel 8 0 _ _ _ _
  · intro input
    unfold cosTaylorIters
    split_ifs
    · omega
    · exact taylorLoopCount_le_fuel 8 1 _ _ _ _
  · intro f g i r s x th hf hg hcf hcg
    rcases le_total f g with hle | hle
    · obtain ⟨d, rfl⟩ := Nat.exists_eq_add_of_le hle
      exact taylorLoop_fuel_ge d f i r s x th hcf hf
    · obtain ⟨d, rfl⟩ := Nat.exists_eq_add_of_le hle
      exact (taylorLoop_fuel_ge d g i r s x th hcg hg).symm

/-- Claim C8 witness: fuel 8 (the amount `sin_taylor` passes) and fuel 20
give identical loop results on a concrete state. -/
theorem claim_C8_witness :
    ((1:ℕ) ≤ 8 ∧ (1:ℕ) ≤ 20 ∧ n_inv_fact ≤ 0 + 2 * 8 ∧ n_inv_fact ≤ 0 + 2 * 20) ∧
    taylorLoop 8 0 ⟨1/16, 0⟩ ⟨1/16, 0⟩ ⟨-1/256, 0⟩ 0
      = taylorLoop 20 0 ⟨1/16, 0⟩ ⟨1/16, 0⟩ ⟨-1/256, 0⟩ 0 :=
  ⟨⟨by norm_num, by norm_num, by simp [n_inv_fact], by simp [n_inv_fact]⟩,
   claim_C8_termination.2.2.2 8 20 0 ⟨1/16, 0⟩ ⟨1/16, 0⟩ ⟨-1/256, 0⟩ 0
     (by norm_num) (by norm_num) (by simp [n_inv_fact]) (by simp [n_inv_fact])⟩

/-! ## Claim C9 — the early-termination thresholds -/

/-- Claim C9 counterexample: the sine threshold is not `0.5·|x|·ε²`.  For
`T = double` the code's constant is the `double` value of the literal
`4.93038065763132e-32`, which is `(2^53 - 7)·2^-157`, seven ulps below
`ε² = 2^-104`; already at the input `(1, 0)` the computed threshold differs
from `0.5·|x|·ε²`.  For `T = float` the same literal is used (converting to
exactly `2^-104`), not `ε_float² = 2^-46`. -/
theorem claim_C9_counterexample :
    sinTaylorThresh ⟨1, 0⟩ ≠ (1/2) * |DW.eval ⟨1, 0⟩| * (pow2 (-52))^2 ∧
    cosTaylorThresh ≠ (1/2) * (pow2 (-52))^2 ∧
    roundP 24 ceps ≠ (pow2 (-23))^2 := by
  refine ⟨?_, ?_, ?_⟩
  · intro h
    exact absurd h (by with_unfolding_all decide)
  · intro h
    exact absurd h (by with_unfolding_all decide)
  · intro h
    exact absurd h (by with_unfolding_all decide)

/-- Claim C9 (amended): the termination thresholds have the claimed shape
`0.5·|eval x|·c` (sine, the halving and the final multiplication exact up
to one rounding) and `0.5·c` (cosine, exact), but with the constant
`c = fl(4.93038065763132e-32) = (2^53 - 7)·2^-157` rather than the machine
epsilon squared: `c` is seven ulps below `ε_double² = 2^-104`, and the same
constant (exactly `2^-104` after conversion to `float`) is reused for
`T = float`, where `ε_float² = 2^-46`. -/
theorem claim_C9_amended (x : DW) :
    cosTaylorThresh = (1/2) * ceps ∧
    sinTaylorThresh x = fl ((|DW.eval x| / 2) * ceps) ∧
    ceps = (2^53 - 7) * pow2 (-157) ∧
    roundP 24 ceps = pow2 (-104) := by
  have hceps : isRep 53 ceps := isRep_roundP 53 (by norm_num) (493038065763132 / 10^46)
  have heval : isRep 53 (DW.eval x) := isRep_roundP 53 (by norm_num) (x.h + x.l)
  have habs : isRep 53 |DW.eval x| := isRep_abs 53 (by norm_num) _ heval
  have hhalf : pow2 (-1 : ℤ) = 1/2 := by with_unfolding_all rfl
  refine ⟨?_, ?_, by with_unfolding_all rfl, by with_unfolding_all rfl⟩
  · unfold cosTaylorThresh
    have h1 : (1/2 : ℚ) * ceps = ceps * pow2 (-1) := by rw [hhalf]; ring
    rw [h1]
    exact isRep_mul_pow2 53 (by norm_num) ceps (-1) hceps
  · unfold sinTaylorThresh
    have h1 : (1/2 : ℚ) * |DW.eval x| = |DW.eval x| * pow2 (-1) := by rw [hhalf]; ring
    have h2 : fl ((1/2) * |DW.eval x|) = (1/2) * |DW.eval x| := by
      rw [h1]
      exact isRep_mul_pow2 53 (by norm_num) _ (-1) habs
    rw [h2]
    congr 1
    ring

/-! ## Claim C1 — the Taylor kernels and the reciprocal-factorial table -/

/-- Claim C1 (code bug): `sin_taylor` does not accumulate the Taylor series
of sine.  The source flattens `inv_fact` through `&inv_fact[0][0]` but keeps
QD's row subscripts `i = 0, 2, 4, …` as flat offsets, so iteration `n`
multiplies by table row `n` (`1/(n+3)!`) instead of QD's row `2n`
(`1/(2n+3)!`): the x⁵ term is multiplied by the entry holding `1/4!`, not
`1/5!`.  (`cos_taylor` is worse off: its flat offsets `1, 3, …` straddle
row boundaries, so its first coefficient is row 0's *low* word,
≈ 9.25·10⁻¹⁸.)  Concretely, at the in-range input `(1/16, 0)` the computed
sum exceeds the degree-5 upper partial sum `t - t³/6 + t⁵/120 > sin t` by
more than 10⁻⁸, and differs from the QD-indexed reference loop by more
than 3·10⁻⁸ — the reference itself sits inside the partial-sum bracket. -/
theorem claim_C1_sin_taylor_wrong_table :
    ((1/16 : ℝ) < Real.pi / 32) ∧
    (|invFactAt 2 - 1/24| < pow2 (-57) ∧ 1/50 < |invFactAt 2 - 1/120|) ∧
    (0 < invFactAt 1 ∧ invFactAt 1 < 1/10^16) ∧
    ((sin_taylor ⟨1/16, 0⟩).h + (sin_taylor ⟨1/16, 0⟩).l
       - (1/16 - (1/16)^3/6 + (1/16)^5/120) > 1/10^8) ∧
    (1/16 - (1/16)^3/6 < (sinTaylorQD ⟨1/16, 0⟩).h + (sinTaylorQD ⟨1/16, 0⟩).l ∧
     (sinTaylorQD ⟨1/16, 0⟩).h + (sinTaylorQD ⟨1/16, 0⟩).l
       < 1/16 - (1/16)^3/6 + (1/16)^5/120) ∧
    (((sin_taylor ⟨1/16, 0⟩).h + (sin_taylor ⟨1/16, 0⟩).l)
       - ((sinTaylorQD ⟨1/16, 0⟩).h + (sinTaylorQD ⟨1/16, 0⟩).l) > 3/10^8) := by
  refine ⟨?_, ⟨by with_unfolding_all decide, by with_unfolding_all decide⟩,
    ⟨by with_unfolding_all decide, by with_unfolding_all decide⟩,
    by with_unfolding_all decide,
    ⟨by with_unfolding_all decide, by with_unfolding_all decide⟩,
    by with_unfolding_all decide⟩
  have h := Real.pi_gt_3141592
  linarith

/-- Witness for C9: the amended threshold identities instantiated at the
double-word (1, 0). -/
theorem claim_C9_witness :
    cosTaylorThresh = (1/2) * ceps ∧
    sinTaylorThresh ⟨1, 0⟩ = fl ((|DW.eval ⟨1, 0⟩| / 2) * ceps) ∧
    ceps = (2^53 - 7) * pow2 (-157) ∧
    roundP 24 ceps = pow2 (-104) :=
  claim_C9_amended ⟨1, 0⟩

theorem Nrm_nonneg (d : DW) : 0 ≤ Nrm d :=
  add_nonneg (abs_nonneg _) (abs_nonneg _)

theorem abs_valDW_le (d : DW) : |valDW d| ≤ Nrm d := abs_add _ _

theorem abs_h_le_Nrm (d : DW) : |d.h| ≤ Nrm d :=
  le_add_of_nonneg_right (abs_nonneg _)

theorem abs_l_le_Nrm (d : DW) : |d.l| ≤ Nrm d :=
  le_add_of_nonneg_left (abs_nonneg _)

theorem abs_sub_le_abs_add_abs (a b : ℚ) : |a - b| ≤ |a| + |b| := by
  calc |a - b| = |a + -b| := by rw [sub_eq_add_neg]
  _ ≤ |a| + |-b| := abs_add _ _
  _ = |a| + |b| := by rw [abs_neg]

/-- The 53-bit rounding error, coarsened to one part in 10⁶. -/
theorem fl_err (q : ℚ) : |fl q - q| ≤ |q| / 10^6 := by
  have h : |fl q - q| ≤ |q| * pow2 (-(53:ℤ)) := by
    simpa using roundP_sub_abs_le 53 q
  have h2 : pow2 (-(53:ℤ)) ≤ 1/10^6 := by with_unfolding_all decide
  calc |fl q - q| ≤ |q| * pow2 (-(53:ℤ)) := h
  _ ≤ |q| * (1/10^6) := mul_le_mul_of_nonneg_left h2 (abs_nonneg q)
  _ = |q| / 10^6 := by ring

/-- The 26-bit splitting error, also below one part in 10⁶. -/
theorem split26_err (q : ℚ) : |roundP 26 q - q| ≤ |q| / 10^6 := by
  have h : |roundP 26 q - q| ≤ |q| * pow2 (-(26:ℤ)) := by
    simpa using roundP_sub_abs_le 26 q
  have h2 : pow2 (-(26:ℤ)) ≤ 1/10^6 := by with_unfolding_all decide
  calc |roundP 26 q - q| ≤ |q| * pow2 (-(26:ℤ)) := h
  _ ≤ |q| * (1/10^6) := mul_le_mul_of_nonneg_left h2 (abs_nonneg q)
  _ = |q| / 10^6 := by ring

theorem abs_fl_le (q : ℚ) : |fl q| ≤ |q| + |q| / 10^6 := by
  have h := fl_err q
  have h3 : |fl q| ≤ |q| + |fl q - q| := by
    calc |fl q| = |q + (fl q - q)| := by rw [show q + (fl q - q) = fl q by ring]
    _ ≤ |q| + |fl q - q| := abs_add _ _
  linarith

theorem abs_le_fl (q : ℚ) : |q| - |q| / 10^6 ≤ |fl q| := by
  have h := fl_err q
  have h3 : |q| ≤ |fl q| + |fl q - q| := by
    calc |q| = |fl q + -(fl q - q)| := by rw [show fl q + -(fl q - q) = q by ring]
    _ ≤ |fl q| + |-(fl q - q)| := abs_add _ _
    _ = |fl q| + |fl q - q| := by rw [abs_neg]
  linarith

theorem TwoSum_h (a b : ℚ) : (TwoSum a b).h = fl (a + b) := rfl

theorem TwoSum_l (a b : ℚ) : (TwoSum a b).l = a + b - fl (a + b) := rfl

theorem TwoDiff_h (a b : ℚ) : (TwoDiff a b).h = fl (a - b) := rfl

theorem TwoDiff_l (a b : ℚ) : (TwoDiff a b).l = a - b - fl (a - b) := rfl

theorem Fast2Prod_h (a b : ℚ) : (Fast2Prod a b).h = fl (a * b) := rfl

theorem Fast2Prod_l (a b : ℚ) : (Fast2Prod a b).l = a * b - fl (a * b) := rfl

theorem FastTwoSum_h (a b : ℚ) : (FastTwoSum a b).h = fl (a + b) := rfl

theorem FastTwoSum_l (a b : ℚ) : (FastTwoSum a b).l = a + b - fl (a + b) := rfl

theorem FastTwoSum_val (a b : ℚ) : valDW (FastTwoSum a b) = a + b := by
  show fl (a + b) + (a + b - fl (a + b)) = a + b
  ring

theorem FastTwoSum_l_le (a b : ℚ) : |(FastTwoSum a b).l| ≤ |a + b| / 10^6 := by
  show |a + b - fl (a + b)| ≤ |a + b| / 10^6
  rw [abs_sub_comm]
  exact fl_err (a + b)

theorem Nrm_FastTwoSum_le (a b : ℚ) :
    Nrm (FastTwoSum a b) ≤ |a + b| + |a + b| * (2/10^6) := by
  show |fl (a + b)| + |a + b - fl (a + b)| ≤ _
  have h1 := abs_fl_le (a + b)
  have h2 : |a + b - fl (a + b)| ≤ |a + b| / 10^6 := by
    rw [abs_sub_comm]; exact fl_err _
  linarith

theorem FastTwoSum_l_le_h (a b : ℚ) :
    |(FastTwoSum a b).l| ≤ |(FastTwoSum a b).h| * (2/10^6) := by
  show |a + b - fl (a + b)| ≤ |fl (a + b)| * (2/10^6)
  have h2 : |a + b - fl (a + b)| ≤ |a + b| / 10^6 := by
    rw [abs_sub_comm]; exact fl_err _
  have h3 : |a + b| ≤ |fl (a + b)| + |a + b - fl (a + b)| := by
    calc |a + b| = |fl (a + b) + (a + b - fl (a + b))| := by
          rw [show fl (a + b) + (a + b - fl (a + b)) = a + b by ring]
    _ ≤ |fl (a + b)| + |a + b - fl (a + b)| := abs_add _ _
  have h4 := abs_nonneg (fl (a + b))
  have h5 := abs_nonneg (a + b - fl (a + b))
  linarith

theorem FastTwoSum_h_le_val (a b : ℚ) :
    |(FastTwoSum a b).h| ≤ |a + b| * (1 + 1/10^6) := by
  show |fl (a + b)| ≤ _
  have := abs_fl_le (a + b)
  linarith

theorem AccurateDWMinusDW_l_le_h (x y : DW) :
    |(AccurateDWMinusDW x y).l| ≤ |(AccurateDWMinusDW x y).h| * (2/10^6) := by
  simp only [AccurateDWMinusDW]
  exact FastTwoSum_l_le_h _ _

theorem AccurateDWMinusDW_h_le_val (x y : DW) :
    |(AccurateDWMinusDW x y).h| ≤ |valDW (AccurateDWMinusDW x y)| * (1 + 1/10^6) := by
  simp only [AccurateDWMinusDW, FastTwoSum_val]
  exact FastTwoSum_h_le_val _ _

/-- Accurate-mode double-word subtraction commits at most `2⁻⁴⁹`-level
error relative to the exact difference of the component sums; a coarse
`10⁻⁵`-relative bound is all that is needed. -/
theorem AccurateDWMinusDW_val_err (x y : DW) :
    |valDW (AccurateDWMinusDW x y) - (valDW x - valDW y)| ≤ (Nrm x + Nrm y) / 10^5 := by
  have hD1 : |x.h - y.h| ≤ Nrm x + Nrm y := by
    have h1 := abs_sub_le_abs_add_abs x.h y.h
    have h2 := abs_h_le_Nrm x
    have h3 := abs_h_le_Nrm y
    linarith
  have hD2 : |x.l - y.l| ≤ Nrm x + Nrm y := by
    have h1 := abs_sub_le_abs_add_abs x.l y.l
    have h2 := abs_l_le_Nrm x
    have h3 := abs_l_le_Nrm y
    linarith
  have hNN : 0 ≤ Nrm x + Nrm y := by
    have := Nrm_nonneg x; have := Nrm_nonneg y; linarith
  simp only [AccurateDWMinusDW, FastTwoSum_val, FastTwoSum_h, FastTwoSum_l,
    TwoDiff_h, TwoDiff_l]
  rw [show valDW x = x.h + x.l from rfl, show valDW y = y.h + y.l from rfl]
  set s1 := fl (x.h - y.h) with hs1
  set t1 := fl (x.l - y.l) with ht1
  set c := fl (x.h - y.h - s1 + t1) with hc
  set vh := fl (s1 + c) with hvh
  set w := fl (x.l - y.l - t1 + (s1 + c - vh)) with hw
  have e1 := fl_err (x.h - y.h); rw [← hs1] at e1
  have e2 := fl_err (x.l - y.l); rw [← ht1] at e2
  have e3 := fl_err (x.h - y.h - s1 + t1); rw [← hc] at e3
  have e4 := fl_err (s1 + c); rw [← hvh] at e4
  have e5 := fl_err (x.l - y.l - t1 + (s1 + c - vh)); rw [← hw] at e5
  have a2 : |t1| ≤ |x.l - y.l| + |x.l - y.l| / 10^6 := by
    have := abs_fl_le (x.l - y.l); rw [← ht1] at this; exact this
  have a1 : |x.h - y.h - s1 + t1| ≤ |s1 - (x.h - y.h)| + |t1| := by
    rw [show x.h - y.h - s1 + t1 = -(s1 - (x.h - y.h)) + t1 by ring]
    calc |(-(s1 - (x.h - y.h))) + t1| ≤ |(-(s1 - (x.h - y.h)))| + |t1| := abs_add _ _
    _ = |s1 - (x.h - y.h)| + |t1| := by rw [abs_neg]
  have a5 : |x.l - y.l - t1 + (s1 + c - vh)| ≤
      |t1 - (x.l - y.l)| + |vh - (s1 + c)| := by
    rw [show x.l - y.l - t1 + (s1 + c - vh)
        = -(t1 - (x.l - y.l)) + -(vh - (s1 + c)) by ring]
    calc |(-(t1 - (x.l - y.l))) + -(vh - (s1 + c))|
        ≤ |(-(t1 - (x.l - y.l)))| + |(-(vh - (s1 + c)))| := abs_add _ _
    _ = |t1 - (x.l - y.l)| + |vh - (s1 + c)| := by rw [abs_neg, abs_neg]
  have a6 : |s1 + c| ≤ |s1| + |c| := abs_add _ _
  have a7 : |s1| ≤ |x.h - y.h| + |x.h - y.h| / 10^6 := by
    have := abs_fl_le (x.h - y.h); rw [← hs1] at this; exact this
  have a8 : |c| ≤ |x.h - y.h - s1 + t1| + |x.h - y.h - s1 + t1| / 10^6 := by
    have := abs_fl_le (x.h - y.h - s1 + t1); rw [← hc] at this; exact this
  have key : vh + w - (x.h + x.l - (y.h + y.l)) =
      (c - (x.h - y.h - s1 + t1)) + (w - (x.l - y.l - t1 + (s1 + c - vh))) := by
    ring
  rw [key]
  have tri : |(c - (x.h - y.h - s1 + t1)) + (w - (x.l - y.l - t1 + (s1 + c - vh)))|
      ≤ |c - (x.h - y.h - s1 + t1)| + |w - (x.l - y.l - t1 + (s1 + c - vh))| :=
    abs_add _ _
  have b1 : |s1 - (x.h - y.h)| ≤ |x.h - y.h| / 10^6 := by
    rw [abs_sub_comm] at e1 ⊢
    exact e1
  have b2 : |t1 - (x.l - y.l)| ≤ |x.l - y.l| / 10^6 := by
    rw [abs_sub_comm] at e2 ⊢
    exact e2
  have b4 : |vh - (s1 + c)| ≤ |s1 + c| / 10^6 := by
    rw [abs_sub_comm] at e4 ⊢
    exact e4
  have p0 := abs_nonneg (x.h - y.h)
  have p1 := abs_nonneg (x.l - y.l)
  have p2 := abs_nonneg (x.h - y.h - s1 + t1)
  have p3 := abs_nonneg (s1 + c)
  have p4 := abs_nonneg t1
  have p5 := abs_nonneg s1
  have p6 := abs_nonneg c
  linarith

theorem Nrm_AccurateDWPlusDW_le (x y : DW) :
    Nrm (AccurateDWPlusDW x y) ≤ (Nrm x + Nrm y) * (101/100) := by
  have hS1 : |x.h + y.h| ≤ |x.h| + |y.h| := abs_add _ _
  have hS2 : |x.l + y.l| ≤ |x.l| + |y.l| := abs_add _ _
  have hsum : Nrm x + Nrm y = |x.h| + |x.l| + (|y.h| + |y.l|) := by
    simp only [Nrm]
  simp only [AccurateDWPlusDW, TwoSum_h, TwoSum_l, FastTwoSum_h, FastTwoSum_l]
  set s1 := fl (x.h + y.h) with hs1
  set t1 := fl (x.l + y.l) with ht1
  set c := fl (x.h + y.h - s1 + t1) with hc
  set vh := fl (s1 + c) with hvh
  set w := fl (x.l + y.l - t1 + (s1 + c - vh)) with hw
  have e1 : |s1| ≤ |x.h + y.h| + |x.h + y.h| / 10^6 := by
    have := abs_fl_le (x.h + y.h); rw [← hs1] at this; exact this
  have e2 : |t1| ≤ |x.l + y.l| + |x.l + y.l| / 10^6 := by
    have := abs_fl_le (x.l + y.l); rw [← ht1] at this; exact this
  have e3 : |c| ≤ |x.h + y.h - s1 + t1| + |x.h + y.h - s1 + t1| / 10^6 := by
    have := abs_fl_le (x.h + y.h - s1 + t1); rw [← hc] at this; exact this
  have e4 : |vh| ≤ |s1 + c| + |s1 + c| / 10^6 := by
    have := abs_fl_le (s1 + c); rw [← hvh] at this; exact this
  have e5 : |w| ≤ |x.l + y.l - t1 + (s1 + c - vh)| +
      |x.l + y.l - t1 + (s1 + c - vh)| / 10^6 := by
    have := abs_fl_le (x.l + y.l - t1 + (s1 + c - vh)); rw [← hw] at this; exact this
  have b1 : |s1 - (x.h + y.h)| ≤ |x.h + y.h| / 10^6 := by
    have := fl_err (x.h + y.h); rw [← hs1] at this; exact this
  have b2 : |t1 - (x.l + y.l)| ≤ |x.l + y.l| / 10^6 := by
    have := fl_err (x.l + y.l); rw [← ht1] at this; exact this
  have b4 : |vh - (s1 + c)| ≤ |s1 + c| / 10^6 := by
    have := fl_err (s1 + c); rw [← hvh] at this; exact this
  have a1 : |x.h + y.h - s1 + t1| ≤ |s1 - (x.h + y.h)| + |t1| := by
    rw [show x.h + y.h - s1 + t1 = -(s1 - (x.h + y.h)) + t1 by ring]
    calc |(-(s1 - (x.h + y.h))) + t1| ≤ |(-(s1 - (x.h + y.h)))| + |t1| := abs_add _ _
    _ = |s1 - (x.h + y.h)| + |t1| := by rw [abs_neg]
  have a5 : |x.l + y.l - t1 + (s1 + c - vh)| ≤
      |t1 - (x.l + y.l)| + |vh - (s1 + c)| := by
    rw [show x.l + y.l - t1 + (s1 + c - vh)
        = -(t1 - (x.l + y.l)) + -(vh - (s1 + c)) by ring]
    calc |(-(t1 - (x.l + y.l))) + -(vh - (s1 + c))|
        ≤ |(-(t1 - (x.l + y.l)))| + |(-(vh - (s1 + c)))| := abs_add _ _
    _ = |t1 - (x.l + y.l)| + |vh - (s1 + c)| := by rw [abs_neg, abs_neg]
  have a6 : |s1 + c| ≤ |s1| + |c| := abs_add _ _
  have lvh : |vh + w| ≤ |vh| + |w| := abs_add _ _
  calc Nrm (FastTwoSum vh w) ≤ |vh + w| + |vh + w| * (2/10^6) := Nrm_FastTwoSum_le vh w
  _ ≤ (Nrm x + Nrm y) * (101/100) := by
      rw [hsum]
      have p0 := abs_nonneg (x.h + y.h)
      have p1 := abs_nonneg (x.l + y.l)
      have p2 := abs_nonneg (x.h + y.h - s1 + t1)
      have p3 := abs_nonneg (s1 + c)
      have p4 := abs_nonneg t1
      have p5 := abs_nonneg s1
      have p6 := abs_nonneg c
      have p7 := abs_nonneg vh
      have p8 := abs_nonneg w
      have p9 := abs_nonneg (vh + w)
      linarith

theorem FPMinusDW_val_err (cq : ℚ) (y : DW) :
    |valDW (FPMinusDW cq y) - (cq - valDW y)| ≤ (|cq| + Nrm y) / 10^5 := by
  have hD1 : |cq - y.h| ≤ |cq| + |y.h| := abs_sub_le_abs_add_abs _ _
  have hNy : Nrm y = |y.h| + |y.l| := rfl
  simp only [FPMinusDW, FastTwoSum_val, TwoDiff_h, TwoDiff_l]
  rw [show valDW y = y.h + y.l from rfl]
  set s1 := fl (cq - y.h) with hs1
  set v := fl (cq - y.h - s1 - y.l) with hv
  have e1 := fl_err (cq - y.h); rw [← hs1] at e1
  have e5 := fl_err (cq - y.h - s1 - y.l); rw [← hv] at e5
  have a5 : |cq - y.h - s1 - y.l| ≤ |s1 - (cq - y.h)| + |y.l| := by
    rw [show cq - y.h - s1 - y.l = -(s1 - (cq - y.h)) + -y.l by ring]
    calc |(-(s1 - (cq - y.h))) + -y.l| ≤ |(-(s1 - (cq - y.h)))| + |(-y.l)| := abs_add _ _
    _ = |s1 - (cq - y.h)| + |y.l| := by rw [abs_neg, abs_neg]
  have b1 : |s1 - (cq - y.h)| ≤ |cq - y.h| / 10^6 := by
    rw [abs_sub_comm] at e1 ⊢
    exact e1
  have key : s1 + v - (cq - (y.h + y.l)) = v - (cq - y.h - s1 - y.l) := by ring
  rw [key]
  have p0 := abs_nonneg cq
  have p1 := abs_nonneg y.h
  have p2 := abs_nonneg y.l
  linarith

theorem FPMinusDW_h_eq (cq : ℚ) (y : DW) :
    (FPMinusDW cq y).h = fl (valDW (FPMinusDW cq y)) := by
  simp only [FPMinusDW, FastTwoSum_val, FastTwoSum_h]

/-- A coarse error bound for the FMA double-word-times-native product
against `x.h * y`. -/
theorem DWTimesFP3_val_err (x : DW) (yq : ℚ) :
    |valDW (DWTimesFP3 x yq) - x.h * yq| ≤
      |x.l * yq| * (101/100) + |x.h * yq| * (3/10^6) := by
  simp only [DWTimesFP3, fma, FastTwoSum_val, Fast2Prod_h, Fast2Prod_l]
  set p := fl (x.h * yq) with hp
  set c3 := fl (x.l * yq + (x.h * yq - p)) with hc3
  have e1 := fl_err (x.h * yq); rw [← hp] at e1
  have e3 := fl_err (x.l * yq + (x.h * yq - p)); rw [← hc3] at e3
  have a1 : |x.l * yq + (x.h * yq - p)| ≤ |x.l * yq| + |p - x.h * yq| := by
    rw [show x.l * yq + (x.h * yq - p) = x.l * yq + -(p - x.h * yq) by ring]
    calc |x.l * yq + -(p - x.h * yq)| ≤ |x.l * yq| + |(-(p - x.h * yq))| := abs_add _ _
    _ = |x.l * yq| + |p - x.h * yq| := by rw [abs_neg]
  have key2 : p + c3 - x.h * yq = (p - x.h * yq) + c3 := by ring
  rw [key2]
  have tri : |(p - x.h * yq) + c3| ≤ |p - x.h * yq| + |c3| := abs_add _ _
  have a3 : |c3| ≤ |x.l * yq + (x.h * yq - p)| + |x.l * yq + (x.h * yq - p)| / 10^6 := by
    have := abs_fl_le (x.l * yq + (x.h * yq - p)); rw [← hc3] at this; exact this
  have p0 := abs_nonneg (x.h * yq)
  have p1 := abs_nonneg (x.l * yq)
  have p2 := abs_nonneg (x.l * yq + (x.h * yq - p))
  linarith

theorem Nrm_DWTimesFP3_le_val (x : DW) (yq : ℚ) :
    Nrm (DWTimesFP3 x yq) ≤ |valDW (DWTimesFP3 x yq)| * (1 + 3/10^6) := by
  simp only [DWTimesFP3, fma, FastTwoSum_val]
  have h1 := Nrm_FastTwoSum_le ((Fast2Prod x.h yq).h) (fl (x.l * yq + (Fast2Prod x.h yq).l))
  have p0 := abs_nonneg ((Fast2Prod x.h yq).h + fl (x.l * yq + (Fast2Prod x.h yq).l))
  linarith

/-- The Accurate FMA double-word product respects the magnitude norm up to
one percent. -/
theorem Nrm_DWTimesDW3_le (x y : DW) (a b : ℚ) (hx : Nrm x ≤ a) (hy : Nrm y ≤ b) :
    Nrm (DWTimesDW3 x y) ≤ a * b * (101/100) := by
  have ha : 0 ≤ a := le_trans (Nrm_nonneg x) hx
  have key : Nrm x * Nrm y ≤ a * b := mul_le_mul hx hy (Nrm_nonneg y) ha
  have expand : Nrm x * Nrm y =
      |x.h * y.h| + |x.h * y.l| + |x.l * y.h| + |x.l * y.l| := by
    simp only [Nrm]
    rw [abs_mul, abs_mul, abs_mul, abs_mul]
    ring
  rw [expand] at key
  have hab : 0 ≤ a * b := le_trans (by positivity) key
  simp only [DWTimesDW3, fma, Fast2Prod_h, Fast2Prod_l]
  set p := fl (x.h * y.h) with hp
  set t0 := fl (x.l * y.l) with ht0
  set t1 := fl (x.h * y.l + t0) with ht1
  set c2 := fl (x.l * y.h + t1) with hc2
  set c3 := fl (x.h * y.h - p + c2) with hc3
  have e0 : |p - x.h * y.h| ≤ |x.h * y.h| / 10^6 := by
    have := fl_err (x.h * y.h); rw [← hp] at this; exact this
  have e1 : |t0| ≤ |x.l * y.l| + |x.l * y.l| / 10^6 := by
    have := abs_fl_le (x.l * y.l); rw [← ht0] at this; exact this
  have e2 : |t1| ≤ |x.h * y.l + t0| + |x.h * y.l + t0| / 10^6 := by
    have := abs_fl_le (x.h * y.l + t0); rw [← ht1] at this; exact this
  have e3 : |c2| ≤ |x.l * y.h + t1| + |x.l * y.h + t1| / 10^6 := by
    have := abs_fl_le (x.l * y.h + t1); rw [← hc2] at this; exact this
  have e4 : |c3| ≤ |x.h * y.h - p + c2| + |x.h * y.h - p + c2| / 10^6 := by
    have := abs_fl_le (x.h * y.h - p + c2); rw [← hc3] at this; exact this
  have ep : |p| ≤ |x.h * y.h| + |x.h * y.h| / 10^6 := by
    have := abs_fl_le (x.h * y.h); rw [← hp] at this; exact this
  have a2 : |x.h * y.l + t0| ≤ |x.h * y.l| + |t0| := abs_add _ _
  have a3 : |x.l * y.h + t1| ≤ |x.l * y.h| + |t1| := abs_add _ _
  have a4 : |x.h * y.h - p + c2| ≤ |p - x.h * y.h| + |c2| := by
    rw [show x.h * y.h - p + c2 = -(p - x.h * y.h) + c2 by ring]
    calc |(-(p - x.h * y.h)) + c2| ≤ |(-(p - x.h * y.h))| + |c2| := abs_add _ _
    _ = |p - x.h * y.h| + |c2| := by rw [abs_neg]
  have a5 : |p + c3| ≤ |p| + |c3| := abs_add _ _
  calc Nrm (FastTwoSum p c3) ≤ |p + c3| + |p + c3| * (2/10^6) := Nrm_FastTwoSum_le p c3
  _ ≤ a * b * (101/100) := by
      have p1 := abs_nonneg (x.h * y.h)
      have p2 := abs_nonneg (x.h * y.l)
      have p3 := abs_nonneg (x.l * y.h)
      have p4 := abs_nonneg (x.l * y.l)
      have p5 := abs_nonneg t0
      have p6 := abs_nonneg t1
      have p7 := abs_nonneg c2
      have p8 := abs_nonneg c3
      have p9 := abs_nonneg p
      have p10 := abs_nonneg (x.h * y.l + t0)
      have p11 := abs_nonneg (x.l * y.h + t1)
      have p12 := abs_nonneg (x.h * y.h - p + c2)
      have p13 := abs_nonneg (p + c3)
      linarith

theorem Split_h (x : ℚ) : (Split x).h = roundP 26 x := rfl

theorem Split_l (x : ℚ) : (Split x).l = x - roundP 26 x := rfl

theorem two_sqr_h (input : ℚ) : (two_sqr input).h = fl (input * input) := rfl

theorem two_sqr_l (input : ℚ) : (two_sqr input).l =
    fl (fl (fl (fl (roundP 26 input * roundP 26 input) - fl (input * input))
          + fl (fl (2 * roundP 26 input) * (input - roundP 26 input)))
        + fl ((input - roundP 26 input) * (input - roundP 26 input))) := rfl

set_option maxHeartbeats 1600000 in
/-- A coarse magnitude bound for the `dd_real` double-word squaring. -/
theorem Nrm_sqrDW_le (d : DW) (a : ℚ) (ha : 0 ≤ a) (hh : |d.h| ≤ a) (hl : |d.l| ≤ a) :
    Nrm (sqrDW d) ≤ 7 * (a * a) := by
  have haa : 0 ≤ a * a := mul_nonneg ha ha
  have hhh : |d.h * d.h| ≤ a * a := by
    rw [abs_mul]; exact mul_le_mul hh hh (abs_nonneg _) ha
  have hhl : |d.h * d.l| ≤ a * a := by
    rw [abs_mul]; exact mul_le_mul hh hl (abs_nonneg _) ha
  have hll : |d.l * d.l| ≤ a * a := by
    rw [abs_mul]; exact mul_le_mul hl hl (abs_nonneg _) ha
  simp only [sqrDW, two_sqr_h, two_sqr_l]
  set q := fl (d.h * d.h) with hq
  set hi := roundP 26 d.h with hhi
  have ehi : |hi - d.h| ≤ |d.h| / 10^6 := by
    have := split26_err d.h; rw [← hhi] at this; exact this
  have ahi : |hi| ≤ a + a / 10^6 := by
    have h1 : |hi| ≤ |d.h| + |hi - d.h| := by
      calc |hi| = |d.h + (hi - d.h)| := by rw [show d.h + (hi - d.h) = hi by ring]
      _ ≤ |d.h| + |hi - d.h| := abs_add _ _
    have h2 : |d.h| / 10^6 ≤ a / 10^6 := by linarith
    linarith
  have alo : |d.h - hi| ≤ a / 10^6 := by
    rw [abs_sub_comm]
    have : |d.h| / 10^6 ≤ a / 10^6 := by linarith [abs_nonneg d.h]
    linarith
  have ahihi : |hi * hi| ≤ (a + a / 10^6) * (a + a / 10^6) := by
    rw [abs_mul]
    exact mul_le_mul ahi ahi (abs_nonneg _) (by linarith)
  have ahihi2 : (a + a / 10^6) * (a + a / 10^6) ≤ (a * a) * (101/100) := by nlinarith
  have eq0 : |q| ≤ (a * a) * (101/100) := by
    have := abs_fl_le (d.h * d.h); rw [← hq] at this
    have h1 : |d.h * d.h| / 10^6 ≤ (a*a) / 10^6 := by linarith
    linarith
  set f1 := fl (hi * hi) with hf1
  have ef1 : |f1| ≤ (a*a) * (102/100) := by
    have := abs_fl_le (hi * hi); rw [← hf1] at this
    have h1 : |hi * hi| ≤ (a*a)*(101/100) := le_trans ahihi ahihi2
    nlinarith
  set f2 := fl (f1 - q) with hf2
  have ef2 : |f2| ≤ (a*a) * (210/100) := by
    have h0 : |f1 - q| ≤ |f1| + |q| := abs_sub_le_abs_add_abs _ _
    have := abs_fl_le (f1 - q); rw [← hf2] at this
    nlinarith
  set f3 := fl (2 * hi) with hf3
  have ef3 : |f3| ≤ (2*a) * (102/100) := by
    have h0 : |2 * hi| = 2 * |hi| := by rw [abs_mul]; norm_num
    have := abs_fl_le (2 * hi); rw [← hf3] at this
    rw [h0] at this
    linarith
  set f4 := fl (f3 * (d.h - hi)) with hf4
  have ef4 : |f4| ≤ (a*a) * (1/100) := by
    have h0 : |f3 * (d.h - hi)| = |f3| * |d.h - hi| := abs_mul _ _
    have h1 : |f3| * |d.h - hi| ≤ ((2*a) * (102/100)) * (a / 10^6) :=
      mul_le_mul ef3 alo (abs_nonneg _) (by linarith)
    have := abs_fl_le (f3 * (d.h - hi)); rw [← hf4] at this
    nlinarith
  set f5 := fl (f2 + f4) with hf5
  have ef5 : |f5| ≤ (a*a) * (213/100) := by
    have h0 : |f2 + f4| ≤ |f2| + |f4| := abs_add _ _
    have := abs_fl_le (f2 + f4); rw [← hf5] at this
    nlinarith
  set f6 := fl ((d.h - hi) * (d.h - hi)) with hf6
  have ef6 : |f6| ≤ (a*a) * (1/100) := by
    have h0 : |(d.h - hi) * (d.h - hi)| = |d.h - hi| * |d.h - hi| := abs_mul _ _
    have h1 : |d.h - hi| * |d.h - hi| ≤ (a/10^6) * (a/10^6) :=
      mul_le_mul alo alo (abs_nonneg _) (by linarith)
    have := abs_fl_le ((d.h - hi) * (d.h - hi)); rw [← hf6] at this
    nlinarith
  set tl := fl (f5 + f6) with htl
  have etl : |tl| ≤ (a*a) * (215/100) := by
    have h0 : |f5 + f6| ≤ |f5| + |f6| := abs_add _ _
    have := abs_fl_le (f5 + f6); rw [← htl] at this
    nlinarith
  set g1 := fl (2 * d.h) with hg1
  have eg1 : |g1| ≤ (2*a) * (102/100) := by
    have h0 : |2 * d.h| = 2 * |d.h| := by rw [abs_mul]; norm_num
    have := abs_fl_le (2 * d.h); rw [← hg1] at this
    rw [h0] at this
    linarith
  set g2 := fl (g1 * d.l) with hg2
  have eg2 : |g2| ≤ (a*a) * (210/100) := by
    have h0 : |g1 * d.l| = |g1| * |d.l| := abs_mul _ _
    have h1 : |g1| * |d.l| ≤ ((2*a) * (102/100)) * a :=
      mul_le_mul eg1 hl (abs_nonneg _) (by linarith)
    have := abs_fl_le (g1 * d.l); rw [← hg2] at this
    nlinarith
  set p2a := fl (tl + g2) with hp2a
  have ep2a : |p2a| ≤ (a*a) * (430/100) := by
    have h0 : |tl + g2| ≤ |tl| + |g2| := abs_add _ _
    have := abs_fl_le (tl + g2); rw [← hp2a] at this
    nlinarith
  set g3 := fl (d.l * d.l) with hg3
  have eg3 : |g3| ≤ (a*a) * (102/100) := by
    have := abs_fl_le (d.l * d.l); rw [← hg3] at this
    nlinarith
  set p2b := fl (p2a + g3) with hp2b
  have ep2b : |p2b| ≤ (a*a) * (540/100) := by
    have h0 : |p2a + g3| ≤ |p2a| + |g3| := abs_add _ _
    have := abs_fl_le (p2a + g3); rw [← hp2b] at this
    nlinarith
  calc Nrm (FastTwoSum q p2b) ≤ |q + p2b| + |q + p2b| * (2/10^6) :=
        Nrm_FastTwoSum_le q p2b
  _ ≤ 7 * (a * a) := by
      have h0 : |q + p2b| ≤ |q| + |p2b| := abs_add _ _
      have p13 := abs_nonneg (q + p2b)
      nlinarith

/-- Every flattened reciprocal-factorial table entry is at most `1/6` in
magnitude (the largest is `1/3!`). -/
theorem invFact_abs_le (i : ℕ) : |invFactAt i| ≤ 167/1000 := by
  by_cases h : i < 30
  · revert h
    revert i
    with_unfolding_all decide
  · have hlen : invFactFlat.length = 30 := rfl
    unfold invFactAt
    rw [List.getD_eq_default]
    · norm_num
    · omega

/-- The Taylor loop grows the norm of its accumulator by at most two
percent per fuel step, provided the squared argument is small. -/
theorem taylorLoop_Nrm (fuel : ℕ) : ∀ (i : ℕ) (r s x : DW) (th : ℚ),
    Nrm x ≤ 72/1000 →
    Nrm (taylorLoop fuel i r s x th) ≤ (Nrm s + Nrm r / 10) * (51/50)^fuel := by
  induction fuel with
  | zero =>
    intro i r s x th hx
    rw [taylorLoop, pow_zero, mul_one]
    have := Nrm_nonneg r
    linarith
  | succ f IH =>
    intro i r s x th hx
    have hP : Nrm (⟨invFactAt i, invFactAt (i+1)⟩ : DW) ≤ 334/1000 := by
      show |invFactAt i| + |invFactAt (i+1)| ≤ _
      have h1 := invFact_abs_le i
      have h2 := invFact_abs_le (i+1)
      linarith
    have hr0 := Nrm_nonneg r
    have hs0 := Nrm_nonneg s
    have hrx : Nrm (DWTimesDW3 r x) ≤ Nrm r * (72/1000) * (101/100) :=
      Nrm_DWTimesDW3_le r x (Nrm r) (72/1000) le_rfl hx
    have hterm : Nrm (DWTimesDW3 (DWTimesDW3 r x) ⟨invFactAt i, invFactAt (i+1)⟩) ≤
        (Nrm r * (72/1000) * (101/100)) * (334/1000) * (101/100) :=
      Nrm_DWTimesDW3_le _ _ _ _ hrx hP
    have hadd : Nrm (AccurateDWPlusDW s
        (DWTimesDW3 (DWTimesDW3 r x) ⟨invFactAt i, invFactAt (i+1)⟩)) ≤
        (Nrm s + Nrm (DWTimesDW3 (DWTimesDW3 r x) ⟨invFactAt i, invFactAt (i+1)⟩))
          * (101/100) :=
      Nrm_AccurateDWPlusDW_le _ _
    have hpow : (1:ℚ) ≤ (51/50)^f := by
      calc (1:ℚ) = 1^f := (one_pow f).symm
      _ ≤ (51/50)^f := pow_le_pow_left (by norm_num) (by norm_num) f
    have hpow0 : (0:ℚ) ≤ (51/50)^f := by positivity
    conv_lhs => rw [taylorLoop]
    split_ifs with hcond
    · have step := IH (i + 2) (DWTimesDW3 r x)
        (AccurateDWPlusDW s (DWTimesDW3 (DWTimesDW3 r x) ⟨invFactAt i, invFactAt (i+1)⟩))
        x th hx
      have hΦ : Nrm (AccurateDWPlusDW s
            (DWTimesDW3 (DWTimesDW3 r x) ⟨invFactAt i, invFactAt (i+1)⟩))
          + Nrm (DWTimesDW3 r x) / 10 ≤ ((Nrm s + Nrm r / 10) * (51/50)) := by
        have ht0 := Nrm_nonneg (DWTimesDW3 (DWTimesDW3 r x) ⟨invFactAt i, invFactAt (i+1)⟩)
        linarith
      calc Nrm (taylorLoop f (i + 2) (DWTimesDW3 r x)
            (AccurateDWPlusDW s (DWTimesDW3 (DWTimesDW3 r x) ⟨invFactAt i, invFactAt (i+1)⟩))
            x th)
          ≤ (Nrm (AccurateDWPlusDW s
              (DWTimesDW3 (DWTimesDW3 r x) ⟨invFactAt i, invFactAt (i+1)⟩))
            + Nrm (DWTimesDW3 r x) / 10) * (51/50)^f := step
      _ ≤ ((Nrm s + Nrm r / 10) * (51/50)) * (51/50)^f :=
            mul_le_mul_of_nonneg_right hΦ hpow0
      _ = (Nrm s + Nrm r / 10) * (51/50)^(f+1) := by
            rw [pow_succ]
            ring
    · have ht0 := Nrm_nonneg (DWTimesDW3 (DWTimesDW3 r x) ⟨invFactAt i, invFactAt (i+1)⟩)
      have hfin : Nrm (AccurateDWPlusDW s
            (DWTimesDW3 (DWTimesDW3 r x) ⟨invFactAt i, invFactAt (i+1)⟩))
          ≤ (Nrm s + Nrm r / 10) * (51/50) := by
        linarith
      calc Nrm (AccurateDWPlusDW s
            (DWTimesDW3 (DWTimesDW3 r x) ⟨invFactAt i, invFactAt (i+1)⟩))
          ≤ (Nrm s + Nrm r / 10) * (51/50) := hfin
      _ = ((Nrm s + Nrm r / 10) * (51/50)) * 1 := by ring
      _ ≤ ((Nrm s + Nrm r / 10) * (51/50)) * (51/50)^f := by
            have hY : 0 ≤ (Nrm s + Nrm r / 10) * (51/50) := by linarith
            exact mul_le_mul_of_nonneg_left hpow hY
      _ = (Nrm s + Nrm r / 10) * (51/50)^(f+1) := by
            rw [pow_succ]
            ring

/-- The norm of the value computed by `sin_taylor` on a reduced argument
of magnitude at most `0.101` stays below `0.132`. -/
theorem sin_taylor_Nrm (t : DW) (hh : |t.h| ≤ 101/1000) (hl : |t.l| ≤ 1/10^6)
    (hN : Nrm t ≤ 102/1000) : Nrm (sin_taylor t) ≤ 132/1000 := by
  by_cases h0 : DW.eval t = 0
  · simp only [sin_taylor, if_pos h0]
    show |(0:ℚ)| + |(0:ℚ)| ≤ _
    norm_num
  · simp only [sin_taylor, if_neg h0]
    have hsq : Nrm (sqrDW t) ≤ 7 * ((101/1000) * (101/1000)) :=
      Nrm_sqrDW_le t (101/1000) (by norm_num) hh (le_trans hl (by norm_num))
    have hx : Nrm (⟨-(sqrDW t).h, -(sqrDW t).l⟩ : DW) ≤ 72/1000 := by
      show |(-(sqrDW t).h)| + |(-(sqrDW t).l)| ≤ _
      rw [abs_neg, abs_neg]
      have : Nrm (sqrDW t) = |(sqrDW t).h| + |(sqrDW t).l| := rfl
      linarith
    have hloop := taylorLoop_Nrm 8 0 t t ⟨-(sqrDW t).h, -(sqrDW t).l⟩
      (sinTaylorThresh t) hx
    have hpow : ((51:ℚ)/50)^8 ≤ 1175/1000 := by norm_num
    have h1 : (Nrm t + Nrm t / 10) * ((51/50):ℚ)^8 ≤ (102/1000 + 102/1000/10) * (1175/1000) := by
      have hN0 := Nrm_nonneg t
      have hp0 : (0:ℚ) ≤ (51/50)^8 := by positivity
      have hA : Nrm t + Nrm t / 10 ≤ 102/1000 + 102/1000/10 := by linarith
      have hA0 : (0:ℚ) ≤ Nrm t + Nrm t / 10 := by linarith
      calc (Nrm t + Nrm t / 10) * ((51/50):ℚ)^8
          ≤ (102/1000 + 102/1000/10) * ((51/50):ℚ)^8 :=
            mul_le_mul_of_nonneg_right hA hp0
      _ ≤ (102/1000 + 102/1000/10) * (1175/1000) :=
            mul_le_mul_of_nonneg_left hpow (by norm_num)
    calc Nrm (taylorLoop 8 0 t t ⟨-(sqrDW t).h, -(sqrDW t).l⟩ (sinTaylorThresh t))
        ≤ (Nrm t + Nrm t / 10) * ((51/50):ℚ)^8 := hloop
    _ ≤ (102/1000 + 102/1000/10) * (1175/1000) := h1
    _ ≤ 132/1000 := by norm_num

theorem cpi16_h_lb : 19/100 < cpi16.h := by with_unfolding_all decide

theorem cpi16_h_ub : cpi16.h < 1/5 := by with_unfolding_all decide

theorem cpi16_l_abs : |cpi16.l| ≤ 1/10^16 := by with_unfolding_all decide

/-- The double-word `π/16 · k` product for a reduction integer `|k| ≤ 4`:
its component sum is within `3·10⁻⁶` of `(π/16).h · k` and its norm is
below `0.82`. -/
theorem pi16_mul_bound (k : ℤ) (hkq : |(k:ℚ)| ≤ 4) :
    |valDW (DWTimesFP3 cpi16 (k:ℚ)) - cpi16.h * (k:ℚ)| ≤ 3/10^6 ∧
    Nrm (DWTimesFP3 cpi16 (k:ℚ)) ≤ 82/100 := by
  have hch1 := cpi16_h_lb
  have hch2 := cpi16_h_ub
  have hcl := cpi16_l_abs
  have herr := DWTimesFP3_val_err cpi16 (k:ℚ)
  have h1 : |cpi16.h * (k:ℚ)| ≤ 4/5 := by
    rw [abs_mul, abs_of_pos (by linarith : (0:ℚ) < cpi16.h)]
    calc cpi16.h * |(k:ℚ)| ≤ (1/5) * 4 :=
          mul_le_mul (le_of_lt hch2) hkq (abs_nonneg _) (by norm_num)
    _ = 4/5 := by norm_num
  have h2 : |cpi16.l * (k:ℚ)| ≤ 4/10^16 := by
    rw [abs_mul]
    calc |cpi16.l| * |(k:ℚ)| ≤ (1/10^16) * 4 :=
          mul_le_mul hcl hkq (abs_nonneg _) (by norm_num)
    _ = 4/10^16 := by norm_num
  have hval : |valDW (DWTimesFP3 cpi16 (k:ℚ)) - cpi16.h * (k:ℚ)| ≤ 3/10^6 := by
    have := herr
    linarith
  refine ⟨hval, ?_⟩
  have hvabs : |valDW (DWTimesFP3 cpi16 (k:ℚ))| ≤ 4/5 + 3/10^6 := by
    have htr : |valDW (DWTimesFP3 cpi16 (k:ℚ))| ≤
        |cpi16.h * (k:ℚ)| + |valDW (DWTimesFP3 cpi16 (k:ℚ)) - cpi16.h * (k:ℚ)| := by
      calc |valDW (DWTimesFP3 cpi16 (k:ℚ))|
          = |cpi16.h * (k:ℚ) + (valDW (DWTimesFP3 cpi16 (k:ℚ)) - cpi16.h * (k:ℚ))| := by
            rw [show cpi16.h * (k:ℚ) + (valDW (DWTimesFP3 cpi16 (k:ℚ)) - cpi16.h * (k:ℚ))
                = valDW (DWTimesFP3 cpi16 (k:ℚ)) by ring]
      _ ≤ _ := abs_add _ _
    linarith
  have hNv := Nrm_DWTimesFP3_le_val cpi16 (k:ℚ)
  have h0 := abs_nonneg (valDW (DWTimesFP3 cpi16 (k:ℚ)))
  nlinarith

set_option maxHeartbeats 1600000 in
/-- Bracketing the reduced argument: when the second reduction integer `k`
is in range, the final reduced argument `t` of `sin` has magnitude at most
`0.101` (about `π/32` plus rounding slack). -/
theorem sinT_bounds (input : DW) (hk : |sinK input| ≤ 4) :
    |(sinT input).h| ≤ 101/1000 ∧ |(sinT input).l| ≤ 1/10^6 ∧
      Nrm (sinT input) ≤ 102/1000 := by
  have hch1 := cpi16_h_lb
  have hch2 := cpi16_h_ub
  have hkq : |(sinK input : ℚ)| ≤ 4 := by
    rw [← Int.cast_abs]
    exact_mod_cast hk
  have hki := abs_le.mp hk
  have hki1 : (-4 : ℚ) ≤ (sinK input : ℚ) := by exact_mod_cast hki.1
  have hki2 : (sinK input : ℚ) ≤ 4 := by exact_mod_cast hki.2
  have ht1l : |(sinT1 input).l| ≤ |(sinT1 input).h| * (2/10^6) := by
    rw [show sinT1 input
        = AccurateDWMinusDW (sinR input) (DWTimesFP3 cpi2 ((sinJ input : ℚ))) from rfl]
    exact AccurateDWMinusDW_l_le_h _ _
  set u := (sinT1 input).h / cpi16.h with hu
  set y := fl u with hy
  set v := fl (y + 1/2) with hv
  have hkv : sinK input = ⌊v⌋ := by
    rw [hv, hy, hu]
    rfl
  have hfl1 : ((⌊v⌋ : ℤ) : ℚ) ≤ v := Int.floor_le v
  have hfl2 : v < ⌊v⌋ + 1 := Int.lt_floor_add_one v
  rw [← hkv] at hfl1 hfl2
  have hv1 : (-4 : ℚ) ≤ v := le_trans hki1 hfl1
  have hv2 : v < 5 := lt_of_lt_of_le hfl2 (by push_cast; linarith)
  have hvabs : |v| ≤ 5 := abs_le.mpr ⟨by linarith, by linarith⟩
  have ev := fl_err (y + 1/2)
  rw [← hv] at ev
  have hy12 : |y + 1/2| ≤ |v| + |v - (y + 1/2)| := by
    calc |y + 1/2| = |v + -(v - (y + 1/2))| := by
          rw [show v + -(v - (y + 1/2)) = y + 1/2 by ring]
    _ ≤ |v| + |(-(v - (y + 1/2)))| := abs_add _ _
    _ = |v| + |v - (y + 1/2)| := by rw [abs_neg]
  have hy12b : |y + 1/2| ≤ 6 := by linarith
  have evb : |v - (y + 1/2)| ≤ 6/10^6 := by
    have : |y + 1/2| / 10^6 ≤ 6/10^6 := by linarith
    linarith
  have evlo := (abs_le.mp evb).1
  have evhi := (abs_le.mp evb).2
  have hy_lo : (sinK input : ℚ) - 1/2 - 6/10^6 ≤ y := by linarith
  have hy_hi : y ≤ (sinK input : ℚ) + 1/2 + 6/10^6 := by linarith
  have hyabs : |y| ≤ 5 := abs_le.mpr ⟨by linarith, by linarith⟩
  have eu := fl_err u
  rw [← hy] at eu
  have huy : |u| ≤ |y| + |y - u| := by
    calc |u| = |y + -(y - u)| := by rw [show y + -(y - u) = u by ring]
    _ ≤ |y| + |(-(y - u))| := abs_add _ _
    _ = |y| + |y - u| := by rw [abs_neg]
  have huabs : |u| ≤ 51/10 := by linarith
  have eulo := (abs_le.mp (show |y - u| ≤ 51/10^7 by linarith)).1
  have euhi := (abs_le.mp (show |y - u| ≤ 51/10^7 by linarith)).2
  have hu_lo : (sinK input : ℚ) - 1/2 - 12/10^6 ≤ u := by linarith
  have hu_hi : u ≤ (sinK input : ℚ) + 1/2 + 12/10^6 := by linarith
  have huk : |u - (sinK input : ℚ)| ≤ 1/2 + 12/10^6 :=
    abs_le.mpr ⟨by linarith, by linarith⟩
  have hukabs : |u| ≤ 46/10 := by
    have : |u| ≤ |u - (sinK input : ℚ)| + |(sinK input : ℚ)| := by
      calc |u| = |(u - (sinK input : ℚ)) + (sinK input : ℚ)| := by
            rw [show (u - (sinK input : ℚ)) + (sinK input : ℚ) = u by ring]
      _ ≤ _ := abs_add _ _
    linarith
  have hA_eq : u * cpi16.h = (sinT1 input).h := by
    rw [hu]
    exact div_mul_cancel₀ _ (by linarith : cpi16.h ≠ 0)
  have hAk : |(sinT1 input).h - cpi16.h * (sinK input : ℚ)| ≤ 10001/100000 := by
    rw [show (sinT1 input).h - cpi16.h * (sinK input : ℚ)
        = (u - (sinK input : ℚ)) * cpi16.h by rw [← hA_eq]; ring]
    rw [abs_mul, abs_of_pos (by linarith : (0:ℚ) < cpi16.h)]
    calc |u - (sinK input : ℚ)| * cpi16.h ≤ (1/2 + 12/10^6) * (1/5) :=
          mul_le_mul huk (le_of_lt hch2) (by linarith) (by linarith)
    _ ≤ 10001/100000 := by norm_num
  have hAabs : |(sinT1 input).h| ≤ 92/100 := by
    rw [← hA_eq, abs_mul, abs_of_pos (by linarith : (0:ℚ) < cpi16.h)]
    calc |u| * cpi16.h ≤ (46/10) * (1/5) :=
          mul_le_mul hukabs (le_of_lt hch2) (by linarith) (by norm_num)
    _ ≤ 92/100 := by norm_num
  have ht1l2 : |(sinT1 input).l| ≤ 2/10^6 := by
    have : |(sinT1 input).h| * (2/10^6) ≤ (92/100) * (2/10^6) := by
      exact mul_le_mul_of_nonneg_right hAabs (by norm_num)
    have h92 : (92:ℚ)/100 * (2/10^6) ≤ 2/10^6 := by norm_num
    linarith
  have hNt1 : Nrm (sinT1 input) ≤ 93/100 := by
    have : Nrm (sinT1 input) = |(sinT1 input).h| + |(sinT1 input).l| := rfl
    linarith
  obtain ⟨hm1, hm2⟩ := pi16_mul_bound (sinK input) hkq
  have herr := AccurateDWMinusDW_val_err (sinT1 input) (DWTimesFP3 cpi16 ((sinK input : ℚ)))
  have herr2 : |valDW (AccurateDWMinusDW (sinT1 input) (DWTimesFP3 cpi16 ((sinK input : ℚ))))
      - (valDW (sinT1 input) - valDW (DWTimesFP3 cpi16 ((sinK input : ℚ))))| ≤
      (93/100 + 82/100) / 10^5 := by
    have hNN : Nrm (sinT1 input) + Nrm (DWTimesFP3 cpi16 ((sinK input : ℚ))) ≤
        93/100 + 82/100 := by linarith
    have : (Nrm (sinT1 input) + Nrm (DWTimesFP3 cpi16 ((sinK input : ℚ)))) / 10^5 ≤
        (93/100 + 82/100) / 10^5 := by linarith
    linarith
  have hteq : sinT input
      = AccurateDWMinusDW (sinT1 input) (DWTimesFP3 cpi16 ((sinK input : ℚ))) := rfl
  have hvt1 : valDW (sinT1 input) = (sinT1 input).h + (sinT1 input).l := rfl
  have hvaltsmall : |valDW (sinT input)| ≤ 10006/100000 := by
    rw [hteq]
    have key : valDW (AccurateDWMinusDW (sinT1 input) (DWTimesFP3 cpi16 ((sinK input : ℚ))))
        = ((sinT1 input).h - cpi16.h * (sinK input : ℚ))
          + (sinT1 input).l
          - (valDW (DWTimesFP3 cpi16 ((sinK input : ℚ))) - cpi16.h * (sinK input : ℚ))
          + (valDW (AccurateDWMinusDW (sinT1 input) (DWTimesFP3 cpi16 ((sinK input : ℚ))))
             - (valDW (sinT1 input) - valDW (DWTimesFP3 cpi16 ((sinK input : ℚ))))) := by
      rw [hvt1]
      ring
    rw [key]
    have t1 := abs_add ((sinT1 input).h - cpi16.h * (sinK input : ℚ)) ((sinT1 input).l)
    have t2 := abs_add ((sinT1 input).h - cpi16.h * (sinK input : ℚ) + (sinT1 input).l)
      (-(valDW (DWTimesFP3 cpi16 ((sinK input : ℚ))) - cpi16.h * (sinK input : ℚ)))
    have t3 := abs_add ((sinT1 input).h - cpi16.h * (sinK input : ℚ) + (sinT1 input).l
        - (valDW (DWTimesFP3 cpi16 ((sinK input : ℚ))) - cpi16.h * (sinK input : ℚ)))
      ((valDW (AccurateDWMinusDW (sinT1 input) (DWTimesFP3 cpi16 ((sinK input : ℚ))))
         - (valDW (sinT1 input) - valDW (DWTimesFP3 cpi16 ((sinK input : ℚ))))))
    rw [show (sinT1 input).h - cpi16.h * (sinK input : ℚ) + (sinT1 input).l
        + -(valDW (DWTimesFP3 cpi16 ((sinK input : ℚ))) - cpi16.h * (sinK input : ℚ))
        = (sinT1 input).h - cpi16.h * (sinK input : ℚ) + (sinT1 input).l
          - (valDW (DWTimesFP3 cpi16 ((sinK input : ℚ))) - cpi16.h * (sinK input : ℚ))
        by ring] at t2
    rw [abs_neg] at t2
    linarith
  have hth : |(sinT input).h| ≤ 101/1000 := by
    have h1 : |(sinT input).h| ≤ |valDW (sinT input)| * (1 + 1/10^6) := by
      rw [hteq]
      exact AccurateDWMinusDW_h_le_val _ _
    have h2 : |valDW (sinT input)| * (1 + 1/10^6) ≤ (10006/100000) * (1 + 1/10^6) := by
      exact mul_le_mul_of_nonneg_right hvaltsmall (by norm_num)
    have h3 : (10006:ℚ)/100000 * (1 + 1/10^6) ≤ 101/1000 := by norm_num
    linarith
  have htl : |(sinT input).l| ≤ 1/10^6 := by
    have h1 : |(sinT input).l| ≤ |(sinT input).h| * (2/10^6) := by
      rw [hteq]
      exact AccurateDWMinusDW_l_le_h _ _
    have h2 : |(sinT input).h| * (2/10^6) ≤ (101/1000) * (2/10^6) := by
      exact mul_le_mul_of_nonneg_right hth (by norm_num)
    have h3 : (101:ℚ)/1000 * (2/10^6) ≤ 1/10^6 := by norm_num
    linarith
  refine ⟨hth, htl, ?_⟩
  have : Nrm (sinT input) = |(sinT input).h| + |(sinT input).l| := rfl
  linarith

/-- With the reduction integer `k` in range, the square root inside
`sincos_taylor` always receives a positive argument (`1 - sin² t ≥ 0.86`),
so the call never signals the domain error. -/
theorem sincos_taylor_ne_none (input : DW) (hk : |sinK input| ≤ 4) :
    sincos_taylor (sinT input) ≠ none := by
  obtain ⟨hth, htl, hN⟩ := sinT_bounds input hk
  by_cases h0 : DW.eval (sinT input) = 0
  · simp only [sincos_taylor, if_pos h0]
    exact Option.some_ne_none _
  · simp only [sincos_taylor, if_neg h0]
    have hsin : Nrm (sin_taylor (sinT input)) ≤ 132/1000 := sin_taylor_Nrm _ hth htl hN
    have hsq : Nrm (sqrDW (sin_taylor (sinT input))) ≤ 7 * ((132/1000) * (132/1000)) :=
      Nrm_sqrDW_le _ (132/1000) (by norm_num)
        (le_trans (abs_h_le_Nrm _) hsin) (le_trans (abs_l_le_Nrm _) hsin)
    have hvy : |valDW (sqrDW (sin_taylor (sinT input)))| ≤ 7 * ((132/1000) * (132/1000)) :=
      le_trans (abs_valDW_le _) hsq
    have herr := FPMinusDW_val_err 1 (sqrDW (sin_taylor (sinT input)))
    have hw : 0 < valDW (FPMinusDW 1 (sqrDW (sin_taylor (sinT input)))) := by
      have h1 := (abs_le.mp herr).1
      have h2 := (abs_le.mp hvy).2
      have h3 : |(1:ℚ)| = 1 := abs_one
      rw [h3] at h1
      have h4 : (7:ℚ) * ((132/1000) * (132/1000)) ≤ 13/100 := by norm_num
      linarith
    have hwh : 0 < (FPMinusDW 1 (sqrDW (sin_taylor (sinT input)))).h := by
      rw [FPMinusDW_h_eq]
      exact roundP_pos 53 (by norm_num) _ hw
    cases hc : sqrtDW (FPMinusDW 1 (sqrDW (sin_taylor (sinT input)))) with
    | none =>
      exfalso
      simp only [sqrtDW] at hc
      split_ifs at hc with hz hneg
      exact absurd hneg (not_lt.mpr (le_of_lt hwh))
    | some pr =>
      exact Option.some_ne_none _

/-- Claim C3 (confirmed): for every input whose evaluated sum is nonzero,
`sin` returns the NaN pair exactly when the first reduction integer `j`
falls outside `[-2, 2]` or the second reduction integer `k` exceeds `4` in
magnitude.  In particular the square root taken inside `sincos_taylor`
never fails on an in-range reduced argument, so the reduction failure is
the only error `sin` ever signals, and it is signaled by a return value
(modelled as `none`), never by an exception or abort — the embedding is a
total function. -/
theorem claim_C3_nan_iff (input : DW) (h0 : DW.eval input ≠ 0) :
    (sinDW input = none ↔
      sinJ input < -2 ∨ 2 < sinJ input ∨ 4 < |sinK input|) := by
  simp only [sinDW, if_neg h0]
  by_cases hj : sinJ input < -2 ∨ 2 < sinJ input
  · rw [if_pos hj]
    refine ⟨fun _ => ?_, fun _ => rfl⟩
    rcases hj with h | h
    · exact Or.inl h
    · exact Or.inr (Or.inl h)
  · rw [if_neg hj]
    by_cases hk : 4 < |sinK input|
    · rw [if_pos hk]
      exact ⟨fun _ => Or.inr (Or.inr hk), fun _ => rfl⟩
    · rw [if_neg hk]
      have hk4 : |sinK input| ≤ 4 := not_lt.mp hk
      have hsc := sincos_taylor_ne_none input hk4
      constructor
      · intro hnone
        exfalso
        by_cases hk0 : sinK input = 0
        · rw [if_pos hk0] at hnone
          split_ifs at hnone <;> simp at hnone
        · rw [if_neg hk0] at hnone
          cases hc : sincos_taylor (sinT input) with
          | none => exact hsc hc
          | some st =>
            rw [hc] at hnone
            simp at hnone
      · intro hrhs
        rcases hrhs with h | h | h
        · exact absurd (Or.inl h) hj
        · exact absurd (Or.inr h) hj
        · exact absurd h hk

/-- Witness for C3: the hypothesis discharged at the concrete nonzero
input `(1, 0)`. -/
theorem claim_C3_witness :
    DW.eval ⟨1, 0⟩ ≠ 0 ∧
      (sinDW ⟨1, 0⟩ = none ↔
        sinJ ⟨1, 0⟩ < -2 ∨ 2 < sinJ ⟨1, 0⟩ ∨ 4 < |sinK ⟨1, 0⟩|) :=
  ⟨by with_unfolding_all decide, claim_C3_nan_iff ⟨1, 0⟩ (by with_unfolding_all decide)⟩

/-! ## Non-overlap analysis -/

theorem rhe_neg (q : ℚ) : rhe (-q) = -rhe q := by
  by_cases hint : (⌊q⌋ : ℚ) = q
  · have h1 : rhe q = ⌊q⌋ := by
      simp only [rhe]
      rw [show q - (⌊q⌋:ℚ) = 0 by linarith]
      norm_num
    have h2 : -q = ((-⌊q⌋ : ℤ) : ℚ) := by push_cast; linarith
    rw [h2, rhe_intCast, h1]
  · have hfl : (⌊q⌋ : ℚ) < q := lt_of_le_of_ne (Int.floor_le q) (Ne.symm ?_)
    swap
    · intro h; exact hint h.symm
    have hfl2 : q < (⌊q⌋ : ℚ) + 1 := Int.lt_floor_add_one q
    have hnegfloor : ⌊-q⌋ = -⌊q⌋ - 1 := by
      apply Int.floor_eq_iff.mpr
      constructor
      · push_cast
        linarith
      · push_cast
        linarith
    simp only [rhe]
    rw [hnegfloor]
    have hcast : ((-⌊q⌋ - 1 : ℤ) : ℚ) = -(⌊q⌋:ℚ) - 1 := by push_cast; ring
    rw [hcast]
    have hfid : -q - (-(⌊q⌋:ℚ) - 1) = 1 - (q - (⌊q⌋:ℚ)) := by ring
    rw [hfid]
    have hpar : Even (-⌊q⌋ - 1) ↔ ¬ Even ⌊q⌋ := by
      rw [show (-⌊q⌋ - 1 : ℤ) = -(⌊q⌋ + 1) by ring, even_neg, Int.even_add_one]
    rcases lt_trichotomy (q - (⌊q⌋:ℚ)) (1/2) with h1 | h1 | h1
    · rw [if_neg (by linarith : ¬(1 - (q - (⌊q⌋:ℚ)) < 1/2)),
        if_pos (by linarith : 1/2 < 1 - (q - (⌊q⌋:ℚ))), if_pos h1]
      ring
    · rw [if_neg (by linarith : ¬(1 - (q - (⌊q⌋:ℚ)) < 1/2)),
        if_neg (by linarith : ¬(1/2 < 1 - (q - (⌊q⌋:ℚ)))),
        if_neg (by linarith : ¬(q - (⌊q⌋:ℚ) < 1/2)),
        if_neg (by linarith : ¬(1/2 < q - (⌊q⌋:ℚ)))]
      by_cases he : Even ⌊q⌋
      · rw [if_neg (show ¬Even (-⌊q⌋ - 1) from fun ha => (hpar.mp ha) he), if_pos he]
        ring
      · rw [if_pos (hpar.mpr he), if_neg he]
        ring
    · rw [if_pos (by linarith : 1 - (q - (⌊q⌋:ℚ)) < 1/2),
        if_neg (by linarith : ¬(q - (⌊q⌋:ℚ) < 1/2)),
        if_pos h1]
      ring

theorem roundP_neg (p : ℕ) (q : ℚ) : roundP p (-q) = -roundP p q := by
  by_cases hq : q = 0
  · subst hq
    simp [roundP]
  · unfold roundP
    rw [if_neg (neg_ne_zero.mpr hq), if_neg hq, qlog_neg_arg q hq]
    rw [show -q / pow2 (qlog q - ((p:ℤ) - 1)) = -(q / pow2 (qlog q - ((p:ℤ) - 1))) by ring]
    rw [rhe_neg]
    push_cast
    ring

theorem fl_zero : fl 0 = 0 := by
  simp [fl, roundP]

theorem fl_fl (q : ℚ) : fl (fl q) = fl q := isRep_roundP 53 (by norm_num) q

/-- Upward rounding never decreases the argument. -/
theorem roundUpP_ge (p : ℕ) (q : ℚ) : q ≤ roundUpP p q := by
  unfold roundUpP
  by_cases hq : q = 0
  · simp [hq]
  · rw [if_neg hq]
    have hu := pow2_pos (qlog q - ((p:ℤ) - 1))
    have hceil := Int.le_ceil (q / pow2 (qlog q - ((p:ℤ) - 1)))
    calc q = q / pow2 (qlog q - ((p:ℤ) - 1)) * pow2 (qlog q - ((p:ℤ) - 1)) := by
          field_simp
    _ ≤ (⌈q / pow2 (qlog q - ((p:ℤ) - 1))⌉ : ℚ) * pow2 (qlog q - ((p:ℤ) - 1)) :=
          mul_le_mul_of_nonneg_right hceil (le_of_lt hu)

theorem roundUpP_le_plus (p : ℕ) (q : ℚ) (hq : 0 < q) :
    roundUpP p q ≤ q + pow2 (qlog q - ((p:ℤ) - 1)) := by
  unfold roundUpP
  rw [if_neg (ne_of_gt hq)]
  have hupos : (0:ℚ) < pow2 (qlog q - ((p:ℤ) - 1)) := pow2_pos _
  have hceil : (⌈q / pow2 (qlog q - ((p:ℤ) - 1))⌉ : ℚ) <
      q / pow2 (qlog q - ((p:ℤ) - 1)) + 1 := Int.ceil_lt_add_one _
  calc (⌈q / pow2 (qlog q - ((p:ℤ) - 1))⌉ : ℚ) * pow2 (qlog q - ((p:ℤ) - 1))
      ≤ (q / pow2 (qlog q - ((p:ℤ) - 1)) + 1) * pow2 (qlog q - ((p:ℤ) - 1)) :=
        mul_le_mul_of_nonneg_right (le_of_lt hceil) (le_of_lt hupos)
  _ = q + pow2 (qlog q - ((p:ℤ) - 1)) := by
        rw [add_mul, div_mul_cancel₀ _ (ne_of_gt hupos), one_mul]

/-- Upward rounding at 80 bits overshoots by less than one part in 10²⁰. -/
theorem roundUpP80_le (q : ℚ) (hq : 0 < q) : roundUpP 80 q ≤ q * (1 + 1/10^20) := by
  have h1 := roundUpP_le_plus 80 q hq
  have hexp : qlog q - (((80:ℕ):ℤ) - 1) = qlog q + (-79) := by push_cast; ring
  rw [hexp, pow2_add] at h1
  have hbin : pow2 (qlog q) ≤ q := by
    have := (qlog_spec q (ne_of_gt hq)).1
    rwa [abs_of_pos hq] at this
  have hsm : pow2 (-79 : ℤ) ≤ 1/10^20 := by with_unfolding_all decide
  have hp79 : (0:ℚ) < pow2 (-79 : ℤ) := pow2_pos _
  have h2 : pow2 (qlog q) * pow2 (-79 : ℤ) ≤ q * (1/10^20) :=
    calc pow2 (qlog q) * pow2 (-79 : ℤ) ≤ q * pow2 (-79 : ℤ) :=
          mul_le_mul_of_nonneg_right hbin (le_of_lt hp79)
    _ ≤ q * (1/10^20) := mul_le_mul_of_nonneg_left hsm (le_of_lt hq)
  linarith

theorem qlog_mul_pow2 (q : ℚ) (hq : q ≠ 0) (k : ℤ) : qlog (q * pow2 k) = qlog q + k := by
  have hs := qlog_spec q hq
  have hpk := pow2_pos k
  apply qlog_eq_of
  · rw [abs_mul, abs_of_pos hpk, pow2_add]
    exact mul_le_mul_of_nonneg_right hs.1 (le_of_lt hpk)
  · rw [abs_mul, abs_of_pos hpk, show qlog q + k + 1 = (qlog q + 1) + k by ring, pow2_add]
    exact mul_lt_mul_of_pos_right hs.2 hpk

theorem ulp_mul_pow2 (h : ℚ) (k : ℤ) : ulp (h * pow2 k) = ulp h * pow2 k := by
  by_cases hh : h = 0
  · simp [hh, ulp]
  · have hne : h * pow2 k ≠ 0 := mul_ne_zero hh (ne_of_gt (pow2_pos k))
    unfold ulp
    rw [if_neg hne, if_neg hh, qlog_mul_pow2 h hh k,
      show qlog h + k - 52 = (qlog h - 52) + k by ring, pow2_add]

theorem ulp_le_abs (h : ℚ) : ulp h ≤ |h| * pow2 (-52 : ℤ) := by
  by_cases hh : h = 0
  · simp [hh, ulp]
  · unfold ulp
    rw [if_neg hh, show qlog h - 52 = qlog h + (-52) by ring, pow2_add]
    exact mul_le_mul_of_nonneg_right (qlog_spec h hh).1 (le_of_lt (pow2_pos _))

/-- The error word of an exact-contract `FastTwoSum` is at most half an ulp
of the sum word: the non-overlap invariant with the normalized margin. -/
theorem FastTwoSum_half_ulp (a b : ℚ) :
    |(FastTwoSum a b).l| ≤ ulp (FastTwoSum a b).h / 2 := by
  show |a + b - fl (a + b)| ≤ ulp (fl (a + b)) / 2
  rw [abs_sub_comm]
  exact fl_sub_le_half_ulp (a + b)

/-- One upward-rounded Newton step for the square root: the iterate stays
above the root and its squared relative excess is quartered (plus the
80-bit rounding slack). -/
theorem newtonStep_bounds (q x c : ℚ) (hq : 0 < q) (hx : 0 < x) (hlow : q ≤ x^2)
    (hc0 : 0 ≤ c) (hc3 : c ≤ 3) (hup : x^2 ≤ q * (1 + c)) :
    0 < newtonStep q x ∧ q ≤ (newtonStep q x)^2 ∧
      (newtonStep q x)^2 ≤ q * (1 + (c^2/4 + 1/10^18)) := by
  have hy : (0:ℚ) < (x + q / x) / 2 := by positivity
  have hkey : ((x + q / x) / 2)^2 - q = (x^2 - q)^2 / (4 * x^2) := by
    field_simp
    ring
  have hylow : q ≤ ((x + q / x) / 2)^2 := by
    have h0 : (0:ℚ) ≤ (x^2 - q)^2 / (4 * x^2) := div_nonneg (sq_nonneg _) (by positivity)
    linarith
  have hyup : ((x + q / x) / 2)^2 ≤ q * (1 + c^2/4) := by
    have hd : 0 ≤ x^2 - q := by linarith
    have hd2 : x^2 - q ≤ q * c := by linarith
    have h1 : (x^2 - q)^2 ≤ (q*c)^2 := by nlinarith
    have h2 : (x^2 - q)^2 / (4*x^2) ≤ (q*c)^2 / (4*q) :=
      div_le_div (sq_nonneg _) h1 (by positivity) (by nlinarith)
    have h3 : (q*c)^2 / (4*q) = q * (c^2/4) := by
      field_simp
      ring
    linarith
  have hstep : newtonStep q x = roundUpP 80 ((x + q / x) / 2) := rfl
  have hge := roundUpP_ge 80 ((x + q / x) / 2)
  have hle := roundUpP80_le ((x + q / x) / 2) hy
  rw [← hstep] at hge hle
  have hpos : 0 < newtonStep q x := lt_of_lt_of_le hy hge
  refine ⟨hpos, ?_, ?_⟩
  · calc q ≤ ((x + q / x) / 2)^2 := hylow
    _ ≤ (newtonStep q x)^2 := pow_le_pow_left (le_of_lt hy) hge 2
  · have h4 : (newtonStep q x)^2 ≤ ((x + q / x) / 2 * (1 + 1/10^20))^2 :=
      pow_le_pow_left (le_of_lt hpos) hle 2
    have h5 : ((x + q / x) / 2 * (1 + 1/10^20))^2
        = ((x + q / x) / 2)^2 * (1 + 1/10^20)^2 := by ring
    have h6 : ((x + q / x) / 2)^2 * (1 + 1/10^20)^2
        ≤ (q * (1 + c^2/4)) * (1 + 1/10^20)^2 :=
      mul_le_mul_of_nonneg_right hyup (by positivity)
    have hcc : c^2 ≤ 9 := by nlinarith
    have h7 : (q * (1 + c^2/4)) * (1 + 1/10^20)^2 ≤ q * (1 + (c^2/4 + 1/10^18)) := by
      nlinarith [sq_nonneg c]
    linarith

set_option maxHeartbeats 3200000 in
/-- Seven upward-rounded Newton iterations from the power-of-two seed give
the native square root to well within one part in 10⁵. -/
theorem fpSqrt_sq_bounds (q : ℚ) (hq : 0 < q) :
    0 < fpSqrt q ∧ q * (1 - 3/10^6) ≤ (fpSqrt q)^2 ∧ (fpSqrt q)^2 ≤ q * (1 + 3/10^6) := by
  have hqne : q ≠ 0 := ne_of_gt hq
  set x0 : ℚ := pow2 ((qlog q + 2).ediv 2) with hx0
  have hx0pos : 0 < x0 := pow2_pos _
  have habs : |q| = q := abs_of_pos hq
  have hspec := qlog_spec q hqne
  have hconv : (qlog q + 2).ediv 2 = (qlog q + 2) / 2 := rfl
  have hdm := Int.ediv_add_emod (qlog q + 2) 2
  have hm0 : 0 ≤ (qlog q + 2).emod 2 := Int.emod_nonneg _ (by norm_num)
  have hm1 : (qlog q + 2).emod 2 < 2 := Int.emod_lt_of_pos _ (by norm_num)
  have hexp1 : qlog q + 1 ≤ 2 * ((qlog q + 2).ediv 2) := by omega
  have hexp2 : 2 * ((qlog q + 2).ediv 2) ≤ qlog q + 2 := by omega
  have hx0sq : x0^2 = pow2 (2 * ((qlog q + 2).ediv 2)) := by
    rw [hx0, sq, ← pow2_add]
    congr 1
    ring
  have hlow0 : q ≤ x0^2 := by
    rw [hx0sq]
    have h1 : q < pow2 (qlog q + 1) := by
      have := hspec.2
      rwa [habs] at this
    have h2 : pow2 (qlog q + 1) ≤ pow2 (2 * ((qlog q + 2).ediv 2)) := pow2_mono hexp1
    linarith
  have hup0 : x0^2 ≤ q * (1 + 3) := by
    rw [hx0sq]
    have h1 : pow2 (2 * ((qlog q + 2).ediv 2)) ≤ pow2 (qlog q + 2) := pow2_mono hexp2
    have h2 : pow2 (qlog q + 2) = pow2 (qlog q) * pow2 2 := pow2_add (qlog q) 2
    have h3 : pow2 (2:ℤ) = 4 := by with_unfolding_all decide
    have h4 : pow2 (qlog q) ≤ q := by
      have := hspec.1
      rwa [habs] at this
    have h5 : pow2 (qlog q) * pow2 2 ≤ q * 4 := by
      rw [h3]
      exact mul_le_mul_of_nonneg_right h4 (by norm_num)
    linarith
  obtain ⟨p1, l1, u1⟩ := newtonStep_bounds q x0 3 hq hx0pos hlow0
    (by norm_num) (by norm_num) (by linarith)
  have u1' : (newtonStep q x0)^2 ≤ q * (1 + 226/100) := by
    have hm : q * (1 + ((3:ℚ)^2/4 + 1/10^18)) ≤ q * (1 + 226/100) :=
      mul_le_mul_of_nonneg_left (by norm_num) (le_of_lt hq)
    linarith
  obtain ⟨p2, l2, u2⟩ := newtonStep_bounds q _ (226/100) hq p1 l1
    (by norm_num) (by norm_num) u1'
  have u2' : (newtonStep q (newtonStep q x0))^2 ≤ q * (1 + 128/100) := by
    have hm : q * (1 + (((226:ℚ)/100)^2/4 + 1/10^18)) ≤ q * (1 + 128/100) :=
      mul_le_mul_of_nonneg_left (by norm_num) (le_of_lt hq)
    linarith
  obtain ⟨p3, l3, u3⟩ := newtonStep_bounds q _ (128/100) hq p2 l2
    (by norm_num) (by norm_num) u2'
  have u3' : (newtonStep q (newtonStep q (newtonStep q x0)))^2 ≤ q * (1 + 41/100) := by
    have hm : q * (1 + (((128:ℚ)/100)^2/4 + 1/10^18)) ≤ q * (1 + 41/100) :=
      mul_le_mul_of_nonneg_left (by norm_num) (le_of_lt hq)
    linarith
  obtain ⟨p4, l4, u4⟩ := newtonStep_bounds q _ (41/100) hq p3 l3
    (by norm_num) (by norm_num) u3'
  have u4' : (newtonStep q (newtonStep q (newtonStep q (newtonStep q x0))))^2
      ≤ q * (1 + 43/1000) := by
    have hm : q * (1 + (((41:ℚ)/100)^2/4 + 1/10^18)) ≤ q * (1 + 43/1000) :=
      mul_le_mul_of_nonneg_left (by norm_num) (le_of_lt hq)
    linarith
  obtain ⟨p5, l5, u5⟩ := newtonStep_bounds q _ (43/1000) hq p4 l4
    (by norm_num) (by norm_num) u4'
  have u5' : (newtonStep q (newtonStep q (newtonStep q (newtonStep q (newtonStep q x0)))))^2
      ≤ q * (1 + 5/10^4) := by
    have hm : q * (1 + (((43:ℚ)/1000)^2/4 + 1/10^18)) ≤ q * (1 + 5/10^4) :=
      mul_le_mul_of_nonneg_left (by norm_num) (le_of_lt hq)
    linarith
  obtain ⟨p6, l6, u6⟩ := newtonStep_bounds q _ (5/10^4) hq p5 l5
    (by norm_num) (by norm_num) u5'
  have u6' : (newtonStep q (newtonStep q (newtonStep q (newtonStep q
      (newtonStep q (newtonStep q x0))))))^2 ≤ q * (1 + 7/10^8) := by
    have hm : q * (1 + (((5:ℚ)/10^4)^2/4 + 1/10^18)) ≤ q * (1 + 7/10^8) :=
      mul_le_mul_of_nonneg_left (by norm_num) (le_of_lt hq)
    linarith
  obtain ⟨p7, l7, u7⟩ := newtonStep_bounds q _ (7/10^8) hq p6 l6
    (by norm_num) (by norm_num) u6'
  have u7' : (newtonStep q (newtonStep q (newtonStep q (newtonStep q
      (newtonStep q (newtonStep q (newtonStep q x0)))))))^2 ≤ q * (1 + 2/10^15) := by
    have hm : q * (1 + (((7:ℚ)/10^8)^2/4 + 1/10^18)) ≤ q * (1 + 2/10^15) :=
      mul_le_mul_of_nonneg_left (by norm_num) (le_of_lt hq)
    linarith
  have hfp : fpSqrt q = fl (sqrtIter 7 q x0) := by
    unfold fpSqrt
    rw [if_neg (not_le.mpr hq), ← hx0]
  have hiter : sqrtIter 7 q x0 = newtonStep q (newtonStep q (newtonStep q (newtonStep q
      (newtonStep q (newtonStep q (newtonStep q x0)))))) := rfl
  rw [hfp, hiter]
  have final : ∀ z : ℚ, 0 < z → q ≤ z^2 → z^2 ≤ q * (1 + 2/10^15) →
      0 < fl z ∧ q * (1 - 3/10^6) ≤ (fl z)^2 ∧ (fl z)^2 ≤ q * (1 + 3/10^6) := by
    intro z hz hl hu
    have hflerr := fl_err z
    rw [abs_of_pos hz] at hflerr
    have hlo := (abs_le.mp hflerr).1
    have hhi := (abs_le.mp hflerr).2
    have hflpos : 0 < fl z := roundP_pos 53 (by norm_num) z hz
    refine ⟨hflpos, ?_, ?_⟩
    · have h2 : (z * (1 - 1/10^6))^2 ≤ (fl z)^2 :=
        pow_le_pow_left (by positivity) (by linarith) 2
      have e2 : (z * (1 - 1/10^6))^2 = z^2 * (1 - 1/10^6)^2 := by ring
      have e3 : q * (1 - 1/10^6)^2 ≤ z^2 * (1 - 1/10^6)^2 :=
        mul_le_mul_of_nonneg_right hl (by positivity)
      have e4 : q * (1 - 3/10^6) ≤ q * (1 - 1/10^6)^2 :=
        mul_le_mul_of_nonneg_left (by norm_num) (le_of_lt hq)
      linarith
    · have h3 : (fl z)^2 ≤ (z * (1 + 1/10^6))^2 :=
        pow_le_pow_left (le_of_lt hflpos) (by linarith) 2
      have e5 : (z * (1 + 1/10^6))^2 = z^2 * (1 + 1/10^6)^2 := by ring
      have e6 : z^2 * (1 + 1/10^6)^2 ≤ (q * (1 + 2/10^15)) * (1 + 1/10^6)^2 :=
        mul_le_mul_of_nonneg_right hu (by positivity)
      have e7 : (q * (1 + 2/10^15)) * (1 + 1/10^6)^2 ≤ q * (1 + 3/10^6) := by
        have hcst : ((1:ℚ) + 2/10^15) * (1 + 1/10^6)^2 ≤ 1 + 3/10^6 := by norm_num
        calc (q * (1 + 2/10^15)) * (1 + 1/10^6)^2
            = q * ((1 + 2/10^15) * (1 + 1/10^6)^2) := by ring
        _ ≤ q * (1 + 3/10^6) := mul_le_mul_of_nonneg_left hcst (le_of_lt hq)
      linarith
  exact final _ p7 l7 u7'

theorem two_sum_h (a b : ℚ) : (two_sum a b).h = fl (a + b) := rfl

theorem two_sum_l (a b : ℚ) : (two_sum a b).l =
    fl (fl (a - fl (fl (a + b) - fl (fl (a + b) - a)))
      - fl (b - fl (fl (a + b) - a))) := rfl

set_option maxHeartbeats 3200000 in
/-- The computed error word of `qd::two_sqr` is small against the square
of the input (the true error is below one ulp; the computed expression
adds only rounding noise). -/
theorem two_sqr_l_le (aq A : ℚ) (hA : 0 ≤ A) (h : |aq| ≤ A) :
    |(two_sqr aq).l| ≤ (A * A) * (8/10^6) := by
  have hAA : 0 ≤ A * A := mul_nonneg hA hA
  have hsq : |aq * aq| ≤ A * A := by
    rw [abs_mul]; exact mul_le_mul h h (abs_nonneg _) hA
  rw [two_sqr_l]
  set hi := roundP 26 aq with hhi
  have ehi : |hi - aq| ≤ A / 10^6 := by
    have h1 := split26_err aq
    rw [← hhi] at h1
    have h2 : |aq| / 10^6 ≤ A / 10^6 := by linarith
    linarith
  have ahi : |hi| ≤ A + A / 10^6 := by
    have h1 : |hi| ≤ |aq| + |hi - aq| := by
      calc |hi| = |aq + (hi - aq)| := by rw [show aq + (hi - aq) = hi by ring]
      _ ≤ |aq| + |hi - aq| := abs_add _ _
    linarith
  have ahihi : |hi * hi| ≤ (A * A) * (101/100) := by
    rw [abs_mul]
    have h1 : |hi| * |hi| ≤ (A + A/10^6) * (A + A/10^6) :=
      mul_le_mul ahi ahi (abs_nonneg _) (by linarith)
    have h2 : (A + A/10^6) * (A + A/10^6) ≤ (A * A) * (101/100) := by nlinarith
    linarith
  have hdiff : |hi * hi - aq * aq| ≤ (A * A) * (22/10^7) := by
    have h1 : hi * hi - aq * aq = (hi - aq) * (hi + aq) := by ring
    rw [h1, abs_mul]
    have h2 : |hi + aq| ≤ |hi| + |aq| := abs_add _ _
    have h3 : |hi + aq| ≤ 2 * A + A / 10^6 := by linarith
    have h4 : |hi - aq| * |hi + aq| ≤ (A / 10^6) * (2 * A + A / 10^6) :=
      mul_le_mul ehi h3 (abs_nonneg _) (by linarith)
    nlinarith
  set p := fl (aq * aq) with hp
  have ep : |p - aq * aq| ≤ (A * A) / 10^6 := by
    have h1 := fl_err (aq * aq)
    rw [← hp] at h1
    have h2 : |aq * aq| / 10^6 ≤ (A * A) / 10^6 := by linarith
    linarith
  set f1 := fl (hi * hi) with hf1
  have ef1 : |f1 - hi * hi| ≤ (A * A) * (11/10^7) := by
    have h1 := fl_err (hi * hi)
    rw [← hf1] at h1
    nlinarith
  set f2 := fl (f1 - p) with hf2
  have ef2 : |f2| ≤ (A * A) * (45/10^7) := by
    have h1 : |f1 - p| ≤ |f1 - hi * hi| + |hi * hi - aq * aq| + |p - aq * aq| := by
      have h2 : f1 - p = (f1 - hi * hi) + (hi * hi - aq * aq) + -(p - aq * aq) := by ring
      rw [h2]
      calc |(f1 - hi * hi) + (hi * hi - aq * aq) + -(p - aq * aq)|
          ≤ |(f1 - hi * hi) + (hi * hi - aq * aq)| + |(-(p - aq * aq))| := abs_add _ _
      _ ≤ |f1 - hi * hi| + |hi * hi - aq * aq| + |(-(p - aq * aq))| := by
            have := abs_add (f1 - hi * hi) (hi * hi - aq * aq)
            linarith
      _ = |f1 - hi * hi| + |hi * hi - aq * aq| + |p - aq * aq| := by rw [abs_neg]
    have h3 := abs_fl_le (f1 - p)
    rw [← hf2] at h3
    nlinarith
  set f3 := fl (2 * hi) with hf3
  have ef3 : |f3| ≤ (2 * A) * (102/100) := by
    have h1 := abs_fl_le (2 * hi)
    rw [← hf3] at h1
    have h2 : |2 * hi| = 2 * |hi| := by rw [abs_mul]; norm_num
    rw [h2] at h1
    linarith
  set f4 := fl (f3 * (aq - hi)) with hf4
  have ef4 : |f4| ≤ (A * A) * (21/10^7) := by
    have h0 : |aq - hi| ≤ A / 10^6 := by
      rw [abs_sub_comm]; exact ehi
    have h1 : |f3 * (aq - hi)| ≤ ((2 * A) * (102/100)) * (A / 10^6) := by
      rw [abs_mul]
      exact mul_le_mul ef3 h0 (abs_nonneg _) (by linarith)
    have h2 := abs_fl_le (f3 * (aq - hi))
    rw [← hf4] at h2
    nlinarith
  set f5 := fl (f2 + f4) with hf5
  have ef5 : |f5| ≤ (A * A) * (67/10^7) := by
    have h1 : |f2 + f4| ≤ |f2| + |f4| := abs_add _ _
    have h2 := abs_fl_le (f2 + f4)
    rw [← hf5] at h2
    nlinarith
  set f6 := fl ((aq - hi) * (aq - hi)) with hf6
  have ef6 : |f6| ≤ (A * A) * (2/10^7) := by
    have h0 : |aq - hi| ≤ A / 10^6 := by
      rw [abs_sub_comm]; exact ehi
    have h1 : |(aq - hi) * (aq - hi)| ≤ (A / 10^6) * (A / 10^6) := by
      rw [abs_mul]
      exact mul_le_mul h0 h0 (abs_nonneg _) (by linarith)
    have h2 := abs_fl_le ((aq - hi) * (aq - hi))
    rw [← hf6] at h2
    nlinarith
  have h1 : |f5 + f6| ≤ |f5| + |f6| := abs_add _ _
  have h2 := abs_fl_le (f5 + f6)
  nlinarith

set_option maxHeartbeats 3200000 in
/-- The square root maintains the non-overlap invariant on a normalized
input.  Karp's correction `w` is below `ax/4`, so in the final (negated-
error) `qd::two_sum` the difference `s - ax` is exact by Sterbenz's lemma,
the computed error collapses to the negated rounding error of `ax + w`,
and that is at most half an ulp of the sum word. -/
theorem sqrtDW_nonOverlap (input : DW) (d : DW) (hno : |input.l| ≤ ulp input.h)
    (hsome : sqrtDW input = some d) : |d.l| ≤ ulp d.h := by
  by_cases h0 : DW.eval input = 0
  · simp only [sqrtDW, if_pos h0] at hsome
    have hd := Option.some.inj hsome
    rw [← hd]
    show |(0:ℚ)| ≤ ulp (0:ℚ)
    simp [ulp]
  · simp only [sqrtDW, if_neg h0] at hsome
    by_cases hneg : input.h < 0
    · rw [if_pos hneg] at hsome
      exact Option.noConfusion hsome
    · rw [if_neg hneg] at hsome
      have hpos : 0 < input.h := by
        rcases lt_or_eq_of_le (not_lt.mp hneg) with h | h
        · exact h
        · exfalso
          have hulp0 : ulp input.h = 0 := by rw [← h]; simp [ulp]
          have hl0 : input.l = 0 := by
            have h1 : |input.l| ≤ 0 := by rw [hulp0] at hno; exact hno
            have h2 := abs_nonneg input.l
            have h3 : |input.l| = 0 := le_antisymm h1 h2
            exact abs_eq_zero.mp h3
          apply h0
          show fl (input.h + input.l) = 0
          rw [← h, hl0, show (0:ℚ) + 0 = 0 by ring]
          exact fl_zero
      obtain ⟨hσpos, hσlo, hσhi⟩ := fpSqrt_sq_bounds input.h hpos
      set σ := fpSqrt input.h with hσdef
      set x := fl (1 / σ) with hx
      set ax := fl (input.h * x) with hax
      set temp := AccurateDWMinusDW input (ddSqr ax) with htemp
      set w := fl (fl (temp.h * x) * (1/2)) with hw
      have hd : d = ddAdd ax w := (Option.some.inj hsome).symm
      have hinv : (0:ℚ) < 1 / σ := one_div_pos.mpr hσpos
      have hxpos : 0 < x := by rw [hx]; exact roundP_pos 53 (by norm_num) _ hinv
      have haxpos : 0 < ax := by
        rw [hax]; exact roundP_pos 53 (by norm_num) _ (mul_pos hpos hxpos)
      have hS1 : input.h * (1 - 3/10^6) ≤ σ * σ := by
        have hsq : σ^2 = σ * σ := sq σ
        linarith [hσlo]
      have hS2 : σ * σ ≤ input.h * (1 + 3/10^6) := by
        have hsq : σ^2 = σ * σ := sq σ
        linarith [hσhi]
      have hxσ : |x * σ - 1| ≤ 1/10^6 := by
        have h1 := fl_err (1 / σ)
        rw [← hx, abs_of_pos hinv] at h1
        have h2 : |x * σ - 1| = |x - 1/σ| * σ := by
          rw [show x * σ - 1 = (x - 1/σ) * σ by field_simp, abs_mul, abs_of_pos hσpos]
        rw [h2]
        have h3 : |x - 1/σ| * σ ≤ 1/σ/10^6 * σ :=
          mul_le_mul_of_nonneg_right h1 (le_of_lt hσpos)
        have h4 : 1/σ/10^6 * σ = 1/10^6 := by field_simp
        linarith
      have hxσub : x * σ ≤ 1 + 1/10^6 := by linarith [(abs_le.mp hxσ).2]
      have haxσ : |ax * σ - input.h| ≤ input.h * (22/10^7) := by
        have h1 := fl_err (input.h * x)
        rw [← hax] at h1
        have hqx : (0:ℚ) < input.h * x := mul_pos hpos hxpos
        rw [abs_of_pos hqx] at h1
        have h2 : |ax * σ - input.h * x * σ| ≤ input.h * x / 10^6 * σ := by
          rw [show ax * σ - input.h * x * σ = (ax - input.h * x) * σ by ring, abs_mul,
            abs_of_pos hσpos]
          exact mul_le_mul_of_nonneg_right h1 (le_of_lt hσpos)
        have h3 : |input.h * x * σ - input.h| ≤ input.h / 10^6 := by
          rw [show input.h * x * σ - input.h = input.h * (x * σ - 1) by ring, abs_mul,
            abs_of_pos hpos]
          have := mul_le_mul_of_nonneg_left hxσ (le_of_lt hpos)
          linarith
        have h4 : input.h * x / 10^6 * σ ≤ input.h * (1 + 1/10^6) / 10^6 := by
          have h5 : input.h * x / 10^6 * σ = input.h * (x * σ) / 10^6 := by ring
          have h6 := mul_le_mul_of_nonneg_left hxσub (le_of_lt hpos)
          rw [h5]
          linarith
        have h5 : |ax * σ - input.h| ≤
            |ax * σ - input.h * x * σ| + |input.h * x * σ - input.h| := by
          calc |ax * σ - input.h|
              = |(ax * σ - input.h * x * σ) + (input.h * x * σ - input.h)| := by
                rw [show (ax * σ - input.h * x * σ) + (input.h * x * σ - input.h)
                    = ax * σ - input.h by ring]
          _ ≤ _ := abs_add _ _
        linarith
      have haxσub : ax * σ ≤ input.h * (1 + 22/10^7) := by linarith [(abs_le.mp haxσ).2]
      have haxσlb : input.h * (1 - 22/10^7) ≤ ax * σ := by linarith [(abs_le.mp haxσ).1]
      have haxsq_ub : ax * ax ≤ input.h * (1 + 1/10^5) := by
        have haxσnn : (0:ℚ) ≤ ax * σ := le_of_lt (mul_pos haxpos hσpos)
        have hsq_ub : (ax * σ) * (ax * σ) ≤
            (input.h * (1 + 22/10^7)) * (input.h * (1 + 22/10^7)) :=
          mul_le_mul haxσub haxσub haxσnn (mul_nonneg (le_of_lt hpos) (by norm_num))
        have hexp : (ax * σ) * (ax * σ) = (ax * ax) * (σ * σ) := by ring
        rw [hexp] at hsq_ub
        have haa : 0 ≤ ax * ax := mul_self_nonneg ax
        have h6 : (ax * ax) * (input.h * (1 - 3/10^6)) ≤ (ax * ax) * (σ * σ) :=
          mul_le_mul_of_nonneg_left hS1 haa
        have h7 : (ax * ax) * (input.h * (1 - 3/10^6)) ≤
            (input.h * (1 + 22/10^7)) * (input.h * (1 + 22/10^7)) := le_trans h6 hsq_ub
        have h9 : input.h * ((ax * ax) * (1 - 3/10^6)) ≤
            input.h * (input.h * ((1 + 22/10^7) * (1 + 22/10^7))) := by nlinarith [h7]
        have hc := le_of_mul_le_mul_left h9 hpos
        linarith
      have haxsq_lb : input.h * (1 - 1/10^5) ≤ ax * ax := by
        have hqlb : (0:ℚ) ≤ input.h * (1 - 22/10^7) :=
          mul_nonneg (le_of_lt hpos) (by norm_num)
        have hsq_lb : (input.h * (1 - 22/10^7)) * (input.h * (1 - 22/10^7)) ≤
            (ax * σ) * (ax * σ) :=
          mul_le_mul haxσlb haxσlb hqlb (le_of_lt (mul_pos haxpos hσpos))
        have hexp : (ax * σ) * (ax * σ) = (ax * ax) * (σ * σ) := by ring
        rw [hexp] at hsq_lb
        have haa : 0 ≤ ax * ax := mul_self_nonneg ax
        have h6 : (ax * ax) * (σ * σ) ≤ (ax * ax) * (input.h * (1 + 3/10^6)) :=
          mul_le_mul_of_nonneg_left hS2 haa
        have h7 : (input.h * (1 - 22/10^7)) * (input.h * (1 - 22/10^7)) ≤
            (ax * ax) * (input.h * (1 + 3/10^6)) := le_trans hsq_lb h6
        have h9 : input.h * (input.h * ((1 - 22/10^7) * (1 - 22/10^7))) ≤
            input.h * ((ax * ax) * (1 + 3/10^6)) := by nlinarith [h7]
        have hc := le_of_mul_le_mul_left h9 hpos
        linarith
      have hl2 : |(ddSqr ax).l| ≤ (ax * ax) * (8/10^6) :=
        two_sqr_l_le ax ax (le_of_lt haxpos) (le_of_eq (abs_of_pos haxpos))
      have hfl_aa := fl_err (ax * ax)
      have haa_abs : |ax * ax| = ax * ax := abs_of_pos (mul_pos haxpos haxpos)
      rw [haa_abs] at hfl_aa
      have hulpq : ulp input.h ≤ input.h / 10^6 := by
        have h1 := ulp_le_abs input.h
        rw [abs_of_pos hpos] at h1
        have h2 : pow2 (-52:ℤ) ≤ 1/10^6 := by with_unfolding_all decide
        have h3 : input.h * pow2 (-52:ℤ) ≤ input.h * (1/10^6) :=
          mul_le_mul_of_nonneg_left h2 (le_of_lt hpos)
        linarith
      have hlq : |input.l| ≤ input.h / 10^6 := le_trans hno hulpq
      have hNin : Nrm input ≤ input.h * (1 + 1/10^6) := by
        have h1 : Nrm input = |input.h| + |input.l| := rfl
        rw [abs_of_pos hpos] at h1
        linarith
      have hvdd_h : (ddSqr ax).h = fl (ax * ax) := rfl
      have hNdd : Nrm (ddSqr ax) ≤ input.h * 2 := by
        have h1 : Nrm (ddSqr ax) = |(ddSqr ax).h| + |(ddSqr ax).l| := rfl
        rw [hvdd_h] at h1
        have h2 : |fl (ax * ax)| ≤ ax * ax + (ax * ax) / 10^6 := by
          have := abs_fl_le (ax * ax)
          rw [haa_abs] at this
          exact this
        linarith
      have hvalerr := AccurateDWMinusDW_val_err input (ddSqr ax)
      rw [← htemp] at hvalerr
      have hvdd : valDW (ddSqr ax) = fl (ax * ax) + (ddSqr ax).l := rfl
      have hvin : valDW input = input.h + input.l := rfl
      have hcancel : |valDW input - valDW (ddSqr ax)| ≤ input.h * (22/10^6) := by
        rw [hvin, hvdd]
        have hid : input.h + input.l - (fl (ax * ax) + (ddSqr ax).l)
            = (input.h - ax * ax) + (ax * ax - fl (ax * ax)) + input.l + -((ddSqr ax).l) := by
          ring
        rw [hid]
        have t1 := abs_add ((input.h - ax * ax) + (ax * ax - fl (ax * ax))) input.l
        have t2 := abs_add (input.h - ax * ax) (ax * ax - fl (ax * ax))
        have t3 := abs_add ((input.h - ax * ax) + (ax * ax - fl (ax * ax)) + input.l)
          (-((ddSqr ax).l))
        rw [abs_neg] at t3
        have b1 : |input.h - ax * ax| ≤ input.h / 10^5 := by
          rw [abs_le]
          constructor <;> linarith
        have b2 : |ax * ax - fl (ax * ax)| ≤ (ax * ax) / 10^6 := by
          rw [abs_sub_comm]
          exact hfl_aa
        have b3 : (ax * ax) / 10^6 ≤ input.h * (1 + 1/10^5) / 10^6 := by linarith
        have b4 : (ax * ax) * (8/10^6) ≤ input.h * (1 + 1/10^5) * (8/10^6) := by nlinarith
        linarith
      have hvtemp : |valDW temp| ≤ input.h * (6/10^5) := by
        have h1 : |valDW temp| ≤ |valDW input - valDW (ddSqr ax)|
            + |valDW temp - (valDW input - valDW (ddSqr ax))| := by
          calc |valDW temp| = |(valDW input - valDW (ddSqr ax))
              + (valDW temp - (valDW input - valDW (ddSqr ax)))| := by
                rw [show (valDW input - valDW (ddSqr ax))
                    + (valDW temp - (valDW input - valDW (ddSqr ax))) = valDW temp by ring]
          _ ≤ _ := abs_add _ _
        have h2 : (Nrm input + Nrm (ddSqr ax)) / 10^5
            ≤ (input.h * (1 + 1/10^6) + input.h * 2) / 10^5 := by linarith
        linarith
      have htemph : |temp.h| ≤ input.h / 10^4 := by
        have h1 : |temp.h| ≤ |valDW temp| * (1 + 1/10^6) := by
          rw [htemp]
          exact AccurateDWMinusDW_h_le_val _ _
        have h2 : |valDW temp| * (1 + 1/10^6) ≤ (input.h * (6/10^5)) * (1 + 1/10^6) := by
          have := abs_nonneg (valDW temp)
          nlinarith
        have h3 : (input.h * (6/10^5)) * (1 + 1/10^6) ≤ input.h / 10^4 := by nlinarith
        linarith
      have hkey : (|temp.h| * x) * σ ≤ (ax / 4) * σ := by
        have h1 : (|temp.h| * x) * σ = |temp.h| * (x * σ) := by ring
        have h2 : |temp.h| * (x * σ) ≤ (input.h / 10^4) * (1 + 1/10^6) :=
          mul_le_mul htemph hxσub (le_of_lt (mul_pos hxpos hσpos)) (by positivity)
        have h3 : (ax / 4) * σ = (ax * σ) / 4 := by ring
        have h4 : (input.h / 10^4) * (1 + 1/10^6) ≤ (input.h * (1 - 22/10^7)) / 4 := by
          nlinarith
        rw [h1, h3]
        linarith
      have htxle : |temp.h| * x ≤ ax / 4 := le_of_mul_le_mul_right hkey hσpos
      have htx : |temp.h * x| ≤ ax / 4 := by
        rw [abs_mul, abs_of_pos hxpos]
        exact htxle
      have hwb : |w| ≤ ax / 4 := by
        have h1 := abs_fl_le (temp.h * x)
        have h2 : |fl (temp.h * x)| ≤ (ax/4) + (ax/4) / 10^6 := by linarith
        have h3 : |fl (temp.h * x) * (1/2)| = |fl (temp.h * x)| * (1/2) := by
          rw [abs_mul]
          norm_num
        have h4 := abs_fl_le (fl (temp.h * x) * (1/2))
        rw [← hw, h3] at h4
        have haxnn : (0:ℚ) ≤ ax := le_of_lt haxpos
        linarith
      have hsum_lo : (3/4) * ax ≤ ax + w := by linarith [(abs_le.mp hwb).1]
      have hsum_hi : ax + w ≤ (5/4) * ax := by linarith [(abs_le.mp hwb).2]
      have hsumpos : 0 < ax + w := by linarith
      set s := fl (ax + w) with hs
      have hspos : 0 < s := by rw [hs]; exact roundP_pos 53 (by norm_num) _ hsumpos
      have hserr := fl_err (ax + w)
      rw [← hs, abs_of_pos hsumpos] at hserr
      have hserr1 := (abs_le.mp hserr).1
      have hserr2 := (abs_le.mp hserr).2
      have hs_lo : ax / 2 ≤ s := by linarith
      have hs_hi : s ≤ 2 * ax := by linarith
      have hsrep : isRep 53 s := by rw [hs]; exact isRep_roundP 53 (by norm_num) _
      have haxrep : isRep 53 ax := by rw [hax]; exact isRep_roundP 53 (by norm_num) _
      have hsterb : isRep 53 (s - ax) :=
        sterbenz 53 (by norm_num) hsrep haxrep haxpos hs_lo hs_hi
      have hbb : fl (s - ax) = s - ax := hsterb
      have hdd : d = two_sum ax w := hd
      rw [hdd, two_sum_l, two_sum_h, ← hs, hbb,
        show s - (s - ax) = ax by ring,
        show fl ax = ax from haxrep,
        show ax - ax = (0:ℚ) by ring, fl_zero,
        show (0:ℚ) - fl (w - (s - ax)) = -(fl (w - (s - ax))) by ring,
        show fl (-(fl (w - (s - ax)))) = -(fl (fl (w - (s - ax))))
          from roundP_neg 53 _,
        fl_fl, abs_neg]
      have herr2 : |w - (s - ax)| ≤ ulp s / 2 := by
        rw [show w - (s - ax) = -(s - (ax + w)) by ring, abs_neg]
        have h5 := fl_sub_le_half_ulp (ax + w)
        rw [← hs] at h5
        exact h5
      have h8 := abs_fl_le (w - (s - ax))
      have h9 := ulp_nonneg s
      linarith

theorem DWPlusFP_half (x : DW) (y : ℚ) :
    |(DWPlusFP x y).l| ≤ ulp (DWPlusFP x y).h / 2 := by
  simp only [DWPlusFP]
  exact FastTwoSum_half_ulp _ _

theorem DWMinusFP_half (x : DW) (y : ℚ) :
    |(DWMinusFP x y).l| ≤ ulp (DWMinusFP x y).h / 2 := by
  simp only [DWMinusFP]
  exact FastTwoSum_half_ulp _ _

theorem FPMinusDW_half (x : ℚ) (y : DW) :
    |(FPMinusDW x y).l| ≤ ulp (FPMinusDW x y).h / 2 := by
  simp only [FPMinusDW]
  exact FastTwoSum_half_ulp _ _

theorem SloppyDWPlusDW_half (x y : DW) :
    |(SloppyDWPlusDW x y).l| ≤ ulp (SloppyDWPlusDW x y).h / 2 := by
  simp only [SloppyDWPlusDW]
  exact FastTwoSum_half_ulp _ _

theorem AccurateDWPlusDW_half (x y : DW) :
    |(AccurateDWPlusDW x y).l| ≤ ulp (AccurateDWPlusDW x y).h / 2 := by
  simp only [AccurateDWPlusDW]
  exact FastTwoSum_half_ulp _ _

theorem SloppyDWMinusDW_half (x y : DW) :
    |(SloppyDWMinusDW x y).l| ≤ ulp (SloppyDWMinusDW x y).h / 2 := by
  simp only [SloppyDWMinusDW]
  exact FastTwoSum_half_ulp _ _

theorem AccurateDWMinusDW_half (x y : DW) :
    |(AccurateDWMinusDW x y).l| ≤ ulp (AccurateDWMinusDW x y).h / 2 := by
  simp only [AccurateDWMinusDW]
  exact FastTwoSum_half_ulp _ _

theorem DWTimesFP1_half (x : DW) (y : ℚ) :
    |(DWTimesFP1 x y).l| ≤ ulp (DWTimesFP1 x y).h / 2 := by
  simp only [DWTimesFP1]
  exact FastTwoSum_half_ulp _ _

theorem DWTimesFP2_half (x : DW) (y : ℚ) :
    |(DWTimesFP2 x y).l| ≤ ulp (DWTimesFP2 x y).h / 2 := by
  simp only [DWTimesFP2]
  exact FastTwoSum_half_ulp _ _

theorem DWTimesFP3_half (x : DW) (y : ℚ) :
    |(DWTimesFP3 x y).l| ≤ ulp (DWTimesFP3 x y).h / 2 := by
  simp only [DWTimesFP3]
  exact FastTwoSum_half_ulp _ _

theorem DWTimesDW1_half (x y : DW) :
    |(DWTimesDW1 x y).l| ≤ ulp (DWTimesDW1 x y).h / 2 := by
  simp only [DWTimesDW1]
  exact FastTwoSum_half_ulp _ _

theorem DWTimesDW2_half (x y : DW) :
    |(DWTimesDW2 x y).l| ≤ ulp (DWTimesDW2 x y).h / 2 := by
  simp only [DWTimesDW2]
  exact FastTwoSum_half_ulp _ _

theorem DWTimesDW3_half (x y : DW) :
    |(DWTimesDW3 x y).l| ≤ ulp (DWTimesDW3 x y).h / 2 := by
  simp only [DWTimesDW3]
  exact FastTwoSum_half_ulp _ _

theorem DWDivFP3_half (x : DW) (y : ℚ) :
    |(DWDivFP3 x y).l| ≤ ulp (DWDivFP3 x y).h / 2 := by
  simp only [DWDivFP3]
  exact FastTwoSum_half_ulp _ _

theorem DWDivDW2fma_half (x y : DW) :
    |(DWDivDW2fma x y).l| ≤ ulp (DWDivDW2fma x y).h / 2 := by
  simp only [DWDivDW2fma]
  exact FastTwoSum_half_ulp _ _

theorem DWDivDW2plain_half (x y : DW) :
    |(DWDivDW2plain x y).l| ≤ ulp (DWDivDW2plain x y).h / 2 := by
  simp only [DWDivDW2plain]
  exact FastTwoSum_half_ulp _ _

theorem DWDivDW3_half (x y : DW) :
    |(DWDivDW3 x y).l| ≤ ulp (DWDivDW3 x y).h / 2 := by
  simp only [DWDivDW3, DWTimesDW2]
  exact FastTwoSum_half_ulp _ _

theorem nintDW_half (input : DW) :
    |(nintDW input).l| ≤ ulp (nintDW input).h / 2 := by
  simp only [nintDW]
  split_ifs
  · exact FastTwoSum_half_ulp _ _
  · show |(0:ℚ)| ≤ ulp (fl (qdNint input.h - 1)) / 2
    rw [abs_zero]
    linarith [ulp_nonneg (fl (qdNint input.h - 1))]
  · show |(0:ℚ)| ≤ ulp (qdNint input.h) / 2
    rw [abs_zero]
    linarith [ulp_nonneg (qdNint input.h)]

theorem sqrDW_half (input : DW) :
    |(sqrDW input).l| ≤ ulp (sqrDW input).h / 2 := by
  simp only [sqrDW]
  exact FastTwoSum_half_ulp _ _

theorem sinR_half (input : DW) :
    |(sinR input).l| ≤ ulp (sinR input).h / 2 := by
  simp only [sinR]
  exact AccurateDWMinusDW_half _ _

theorem neg_half (a : DW) (h : |a.l| ≤ ulp a.h / 2) :
    |(DW.mk (-a.h) (-a.l)).l| ≤ ulp (DW.mk (-a.h) (-a.l)).h / 2 := by
  show |(-a.l)| ≤ ulp (-a.h) / 2
  rw [abs_neg, ulp_neg_eq]
  exact h

/-- Componentwise power-of-two scaling is exact on representable
normalized inputs, so it carries the invariant through unchanged. -/
theorem mul_pwr2_nonOverlap (input : DW) (k : ℤ) (h1 : isRep 53 input.h)
    (h2 : isRep 53 input.l) (hno : |input.l| ≤ ulp input.h) :
    |(mul_pwr2 input (pow2 k)).l| ≤ ulp (mul_pwr2 input (pow2 k)).h := by
  show |fl (input.l * pow2 k)| ≤ ulp (fl (input.h * pow2 k))
  have e1 : fl (input.l * pow2 k) = input.l * pow2 k := by
    show roundP 53 (input.l * pow2 k) = input.l * pow2 k
    rw [roundP_mul_pow2, show roundP 53 input.l = input.l from h2]
  have e2 : fl (input.h * pow2 k) = input.h * pow2 k := by
    show roundP 53 (input.h * pow2 k) = input.h * pow2 k
    rw [roundP_mul_pow2, show roundP 53 input.h = input.h from h1]
  rw [e1, e2, ulp_mul_pow2, abs_mul, abs_of_pos (pow2_pos k)]
  exact mul_le_mul_of_nonneg_right hno (le_of_lt (pow2_pos k))

/-- Any positive-fuel run of the Taylor loop ends in an Accurate add. -/
theorem taylorLoop_shape (fuel : ℕ) (hf : fuel ≠ 0) : ∀ (i : ℕ) (r s x : DW) (th : ℚ),
    ∃ a b : DW, taylorLoop fuel i r s x th = AccurateDWPlusDW a b := by
  induction fuel with
  | zero => exact absurd rfl hf
  | succ f IH =>
    intro i r s x th
    rw [taylorLoop]
    split_ifs with hcond
    · by_cases hf0 : f = 0
      · subst hf0
        rw [taylorLoop]
        exact ⟨_, _, rfl⟩
      · exact IH hf0 _ _ _ _ _
    · exact ⟨_, _, rfl⟩

theorem sin_taylor_half (t : DW) : |(sin_taylor t).l| ≤ ulp (sin_taylor t).h / 2 := by
  by_cases h0 : DW.eval t = 0
  · simp only [sin_taylor, if_pos h0]
    show |(0:ℚ)| ≤ ulp (0:ℚ) / 2
    simp [ulp]
  · simp only [sin_taylor, if_neg h0]
    obtain ⟨a, b, hab⟩ := taylorLoop_shape 8 (by norm_num) 0 t t
      ⟨-(sqrDW t).h, -(sqrDW t).l⟩ (sinTaylorThresh t)
    rw [hab]
    exact AccurateDWPlusDW_half a b

theorem cos_taylor_half (t : DW) : |(cos_taylor t).l| ≤ ulp (cos_taylor t).h / 2 := by
  by_cases h0 : DW.eval t = 0
  · simp only [cos_taylor, if_pos h0]
    show |(0:ℚ)| ≤ ulp (1:ℚ) / 2
    rw [abs_zero]
    linarith [ulp_nonneg (1:ℚ)]
  · simp only [cos_taylor, if_neg h0]
    obtain ⟨a, b, hab⟩ := taylorLoop_shape 8 (by norm_num) 1
      ⟨-(sqrDW t).h, -(sqrDW t).l⟩
      (DWPlusFP (mul_pwr2 ⟨-(sqrDW t).h, -(sqrDW t).l⟩ (1/2)) 1)
      ⟨-(sqrDW t).h, -(sqrDW t).l⟩ cosTaylorThresh
    rw [hab]
    exact AccurateDWPlusDW_half a b

theorem sincos_taylor_nonOverlap (t sdw cdw : DW)
    (h : sincos_taylor t = some (sdw, cdw)) :
    |sdw.l| ≤ ulp sdw.h / 2 ∧ |cdw.l| ≤ ulp cdw.h := by
  by_cases h0 : DW.eval t = 0
  · simp only [sincos_taylor, if_pos h0] at h
    have h' := Option.some.inj h
    have h1 : (⟨0, 0⟩ : DW) = sdw := congrArg Prod.fst h'
    have h2 : (⟨1, 0⟩ : DW) = cdw := congrArg Prod.snd h'
    rw [← h1, ← h2]
    constructor
    · show |(0:ℚ)| ≤ ulp (0:ℚ) / 2
      simp [ulp]
    · show |(0:ℚ)| ≤ ulp (1:ℚ)
      rw [abs_zero]
      exact ulp_nonneg 1
  · simp only [sincos_taylor, if_neg h0] at h
    cases hc : sqrtDW (FPMinusDW 1 (sqrDW (sin_taylor t))) with
    | none =>
      rw [hc] at h
      simp at h
    | some c =>
      rw [hc] at h
      have h' := Option.some.inj h
      have h1 : sin_taylor t = sdw := congrArg Prod.fst h'
      have h2 : c = cdw := congrArg Prod.snd h'
      constructor
      · rw [← h1]
        exact sin_taylor_half t
      · rw [← h2]
        have hpre : |(FPMinusDW 1 (sqrDW (sin_taylor t))).l| ≤
            ulp (FPMinusDW 1 (sqrDW (sin_taylor t))).h := by
          have ha := FPMinusDW_half 1 (sqrDW (sin_taylor t))
          have hb := ulp_nonneg (FPMinusDW 1 (sqrDW (sin_taylor t))).h
          linarith
        exact sqrtDW_nonOverlap _ c hpre hc

set_option maxHeartbeats 1600000 in
theorem sinDW_nonOverlap (input d : DW) (h : sinDW input = some d) :
    |d.l| ≤ ulp d.h / 2 := by
  by_cases h0 : DW.eval input = 0
  · simp only [sinDW, if_pos h0] at h
    rw [← Option.some.inj h]
    show |(0:ℚ)| ≤ ulp (0:ℚ) / 2
    simp [ulp]
  · simp only [sinDW, if_neg h0] at h
    by_cases hj : sinJ input < -2 ∨ 2 < sinJ input
    · rw [if_pos hj] at h
      exact Option.noConfusion h
    · rw [if_neg hj] at h
      by_cases hk : 4 < |sinK input|
      · rw [if_pos hk] at h
        exact Option.noConfusion h
      · rw [if_neg hk] at h
        by_cases hk0 : sinK input = 0
        · rw [if_pos hk0] at h
          split_ifs at h
          all_goals rw [← Option.some.inj h]
          · exact sin_taylor_half _
          · exact cos_taylor_half _
          · exact neg_half _ (cos_taylor_half _)
          · exact neg_half _ (sin_taylor_half _)
        · rw [if_neg hk0] at h
          cases hc : sincos_taylor (sinT input) with
          | none =>
            rw [hc] at h
            simp at h
          | some st =>
            rw [hc] at h
            rw [← Option.some.inj h]
            split_ifs
            · exact AccurateDWPlusDW_half _ _
            · exact AccurateDWMinusDW_half _ _
            · exact AccurateDWMinusDW_half _ _
            · exact AccurateDWPlusDW_half _ _
            · exact AccurateDWMinusDW_half _ _
            · exact AccurateDWMinusDW_half _ _
            · exact sinR_half input
            · exact AccurateDWMinusDW_half _ _
            · exact AccurateDWMinusDW_half _ _

/-- Claim C5 (confirmed): every double-word produced by an operation of
the arithmetic kernel or the transcendental layer satisfies the
non-overlap invariant `|low| ≤ ulp(high)`.  In the exact-primitive model
every kernel operation (including the Sloppy modes, which thus stay well
inside their allowed one-ulp slack) ends in a `FastTwoSum` whose error
word is exact, so the margin is in fact the normalized `ulp/2`; the same
holds for `nint`, `sqr`, the Taylor kernels and `sin`.  `mul_pwr2` is
exact under its documented power-of-two precondition on representable
normalized operands.  `sqrt`, whose final `qd::two_sum` carries the
negated-error defect, still satisfies the invariant on normalized inputs:
the correction term is below `ax/4`, so Sterbenz's lemma makes the
intermediate difference exact and the computed error word collapses to
(minus) the rounding error of `ax + w`, within one ulp of the sum word. -/
theorem claim_C5_nonoverlap :
    (∀ (x : DW) (y : ℚ), |(DWPlusFP x y).l| ≤ ulp (DWPlusFP x y).h / 2) ∧
    (∀ (x : DW) (y : ℚ), |(DWMinusFP x y).l| ≤ ulp (DWMinusFP x y).h / 2) ∧
    (∀ (x : ℚ) (y : DW), |(FPMinusDW x y).l| ≤ ulp (FPMinusDW x y).h / 2) ∧
    (∀ x y : DW, |(SloppyDWPlusDW x y).l| ≤ ulp (SloppyDWPlusDW x y).h / 2) ∧
    (∀ x y : DW, |(AccurateDWPlusDW x y).l| ≤ ulp (AccurateDWPlusDW x y).h / 2) ∧
    (∀ x y : DW, |(SloppyDWMinusDW x y).l| ≤ ulp (SloppyDWMinusDW x y).h / 2) ∧
    (∀ x y : DW, |(AccurateDWMinusDW x y).l| ≤ ulp (AccurateDWMinusDW x y).h / 2) ∧
    (∀ (x : DW) (y : ℚ), |(DWTimesFP1 x y).l| ≤ ulp (DWTimesFP1 x y).h / 2) ∧
    (∀ (x : DW) (y : ℚ), |(DWTimesFP2 x y).l| ≤ ulp (DWTimesFP2 x y).h / 2) ∧
    (∀ (x : DW) (y : ℚ), |(DWTimesFP3 x y).l| ≤ ulp (DWTimesFP3 x y).h / 2) ∧
    (∀ x y : DW, |(DWTimesDW1 x y).l| ≤ ulp (DWTimesDW1 x y).h / 2) ∧
    (∀ x y : DW, |(DWTimesDW2 x y).l| ≤ ulp (DWTimesDW2 x y).h / 2) ∧
    (∀ x y : DW, |(DWTimesDW3 x y).l| ≤ ulp (DWTimesDW3 x y).h / 2) ∧
    (∀ (x : DW) (y : ℚ), |(DWDivFP3 x y).l| ≤ ulp (DWDivFP3 x y).h / 2) ∧
    (∀ x y : DW, |(DWDivDW2fma x y).l| ≤ ulp (DWDivDW2fma x y).h / 2) ∧
    (∀ x y : DW, |(DWDivDW2plain x y).l| ≤ ulp (DWDivDW2plain x y).h / 2) ∧
    (∀ x y : DW, |(DWDivDW3 x y).l| ≤ ulp (DWDivDW3 x y).h / 2) ∧
    (∀ input : DW, |(nintDW input).l| ≤ ulp (nintDW input).h / 2) ∧
    (∀ input : DW, |(sqrDW input).l| ≤ ulp (sqrDW input).h / 2) ∧
    (∀ (input : DW) (k : ℤ), isRep 53 input.h → isRep 53 input.l →
      |input.l| ≤ ulp input.h →
      |(mul_pwr2 input (pow2 k)).l| ≤ ulp (mul_pwr2 input (pow2 k)).h) ∧
    (∀ t : DW, |(sin_taylor t).l| ≤ ulp (sin_taylor t).h / 2) ∧
    (∀ t : DW, |(cos_taylor t).l| ≤ ulp (cos_taylor t).h / 2) ∧
    (∀ input d : DW, |input.l| ≤ ulp input.h → sqrtDW input = some d →
      |d.l| ≤ ulp d.h) ∧
    (∀ t sdw cdw : DW, sincos_taylor t = some (sdw, cdw) →
      |sdw.l| ≤ ulp sdw.h / 2 ∧ |cdw.l| ≤ ulp cdw.h) ∧
    (∀ input d : DW, sinDW input = some d → |d.l| ≤ ulp d.h / 2) :=
  ⟨DWPlusFP_half, DWMinusFP_half, FPMinusDW_half, SloppyDWPlusDW_half,
    AccurateDWPlusDW_half, SloppyDWMinusDW_half, AccurateDWMinusDW_half,
    DWTimesFP1_half, DWTimesFP2_half, DWTimesFP3_half, DWTimesDW1_half,
    DWTimesDW2_half, DWTimesDW3_half, DWDivFP3_half, DWDivDW2fma_half,
    DWDivDW2plain_half, DWDivDW3_half, nintDW_half, sqrDW_half,
    mul_pwr2_nonOverlap, sin_taylor_half, cos_taylor_half,
    sqrtDW_nonOverlap, sincos_taylor_nonOverlap, sinDW_nonOverlap⟩

end TwoFloat
